import Mathlib

/-!
Shallow embedding of the tissa time-series storage engine.

The Go sources are translated as follows:
* `float64` sample values are modelled as `ℚ` (exact arithmetic; the claims
  under study concern counts, sums, minima and maxima of stored values).
* Go's `int64` is modelled as `Int`; Go's `/` and `%` truncate toward zero,
  which is `Int.tdiv` / `Int.tmod` (not Lean's euclidean `/`).
* Go maps are modelled as association lists in insertion order (Go map
  iteration order is unspecified; no claim depends on it).
* The dynamic payload `interface{}` becomes the sum type `Payload`
  (raw float in base chunks, rollup record in coarser chunks); Go's type
  assertions become total projections that are only applied to the variant
  the source stores there.
* Filesystem writes are modelled as an event log (`WEvent`); reading a chunk
  file that is not cached in memory is modelled as a miss (no claim under
  study reads back a persisted chunk from disk).
-/

/-- Rollup record, from `tissa.go`: a reduction of many samples in one coarse
interval. -/
structure Rollup where
  Total : ℚ
  Count : Int
  Min   : ℚ
  Max   : ℚ
deriving DecidableEq, Repr, Inhabited

/-- Slot payload: Go stores `float64` in base chunks and `Rollup` in coarser
chunks through `interface{}`. -/
inductive Payload where
  | raw  (v : ℚ)
  | roll (r : Rollup)
deriving DecidableEq, Repr

/-- Go's `val.(float64)` type assertion. The `.roll` case would panic in Go;
it is unreachable because base chunks only hold raw floats. -/
def Payload.asRaw : Payload → ℚ
  | .raw v => v
  | .roll _ => 0

/-- Go's `val.(Rollup)` type assertion. The `.raw` case would panic in Go;
it is unreachable because rollup chunks only hold rollup records. -/
def Payload.asRoll : Payload → Rollup
  | .roll r => r
  | .raw _ => ⟨0, 0, 0, 0⟩

/-- One chunk slot: Go's `map[int]interface{}` keyed by tag index, as an
association list in insertion order with unique keys. -/
abbrev Slot := List (Nat × Payload)

/-- Go map assignment `m[k] = v` on a `Slot`: overwrite in place if the key
exists, append otherwise. -/
def slotSet (s : Slot) (k : Nat) (v : Payload) : Slot :=
  if s.any (fun p => p.1 == k) then
    s.map (fun p => if p.1 == k then (k, v) else p)
  else s ++ [(k, v)]

/-- Number of iterations of the Go loop `for t < stop { t += step }` started
at `start`, for positive `step` (the loops in the source all run with the
positive resolution as step; a non-positive step would not terminate in Go). -/
def loopCount (start stop step : Int) : Nat :=
  if 0 < step then ((stop - start + step - 1) / step).toNat else 0

/-- Chunk, from `internal`: dense slot array at one resolution.  `Data[i]`
holds the observation at `StartTime + i * Resolution`, or `none` for an
explicit gap.  The Go field `tagMap` is the inverse of `Tags` and is
recomputed from it here. -/
structure Chunk where
  StartTime  : Int
  EndTime    : Int
  Resolution : Int
  Data       : List (Option Slot)
  Tags       : List String
  dirty      : Bool
deriving DecidableEq, Repr

/-- Go `newChunk`. -/
def newChunk (resolution startTime : Int) : Chunk :=
  { StartTime := startTime, EndTime := 0, Resolution := resolution
    Data := [], Tags := [], dirty := true }

/-- Go `chunk.empty`. -/
def Chunk.empty (c : Chunk) : Bool := c.EndTime == 0

/-- Go `chunk.latestRaw`: the highest-index slot, or nil. -/
def Chunk.latestRaw (c : Chunk) : Option Slot :=
  match c.Data.getLast? with
  | none => none
  | some s => s

/-- Go `chunk.latest`: the tail slot with tag indices resolved to names.
`Tags.getD i ""` models the Go index expression `c.Tags[i]` (in range by the
chunk invariants). -/
def Chunk.latest (c : Chunk) : List (String × Payload) :=
  match c.latestRaw with
  | none => []
  | some s => s.map (fun p => (c.Tags.getD p.1 "", p.2))

/-- Go `chunk.derefTags`: replace signal names by tag indices, interning
previously unseen names at the end of the tag table.  Returns the grown chunk
together with the dereferenced slot. -/
def Chunk.derefTags (c : Chunk) (val : List (String × Payload)) : Chunk × Slot :=
  val.foldl
    (fun acc p =>
      match acc.1.Tags.findIdx? (fun t => t == p.1) with
      | some i => (acc.1, slotSet acc.2 i p.2)
      | none =>
          ({ acc.1 with Tags := acc.1.Tags ++ [p.1] },
           slotSet acc.2 acc.1.Tags.length p.2))
    (c, [])

/-- Body of the fill loop of Go `chunk.fillTo`, unrolled `n` times: append
`fillVal`, advance `EndTime` to the running timestamp, mark dirty. -/
def fillSteps (fillVal : Option Slot) : Chunk → Int → Nat → Chunk
  | c, _, 0 => c
  | c, ts, n + 1 =>
      fillSteps fillVal
        { c with Data := c.Data ++ [fillVal], EndTime := ts, dirty := true }
        (ts + c.Resolution) n

/-- Go `chunk.fillTo`: fill the gap `(EndTime, timestamp)` slot by slot.  For
short gaps (`numToFill < 3`) the latest tick is copied forward, otherwise the
gap is filled with nil.  The loop runs `loopCount (EndTime+Resolution)
timestamp Resolution` times. -/
def Chunk.fillTo (c : Chunk) (timestamp : Int) : Chunk :=
  let numToFill := (timestamp - c.EndTime).tdiv c.Resolution
  let fillVal : Option Slot := if numToFill < 3 then c.latestRaw else none
  fillSteps fillVal c (c.EndTime + c.Resolution)
    (loopCount (c.EndTime + c.Resolution) timestamp c.Resolution)

/-- Go `chunk.append`.  The caller (Archive) guarantees `timestamp` is a
multiple of the resolution inside the chunk span.  The merge branch indexes
`Data[len-1]` and writes through it; an empty chunk or a nil tail slot would
panic in Go (unreachable from `Archive.Append`), modelled as a no-op. -/
def Chunk.append (c : Chunk) (val : List (String × Payload)) (timestamp : Int) : Chunk :=
  if timestamp < c.EndTime then c
  else if timestamp = c.EndTime then
    match c.Data.getLast? with
    | some (some lastSlot) =>
        let d := c.derefTags val
        { d.1 with Data := d.1.Data.dropLast ++
            [some (d.2.foldl (fun acc p => slotSet acc p.1 p.2) lastSlot)] }
    | _ => c
  else
    let c1 := if ¬ c.empty ∧ timestamp > c.EndTime + c.Resolution
              then c.fillTo timestamp else c
    let pre : List (Option Slot) :=
      List.replicate (loopCount c1.StartTime timestamp c1.Resolution) none
    let c2 := if c1.empty ∧ timestamp ≠ c1.StartTime
              then { c1 with Data := c1.Data ++ pre }
              else c1
    let d := c2.derefTags val
    { d.1 with Data := d.1.Data ++ [some d.2], EndTime := timestamp, dirty := true }

/-- One per-tag update of the `data` map in Go `chunk.getData`:
`ser := data[tag]` (created as `make([]interface{}, l)` when absent), then
`ser[i] = val`. -/
def dataSet (d : List (Nat × List (Option Payload))) (l : Nat) (tag : Nat)
    (i : Nat) (v : Payload) : List (Nat × List (Option Payload)) :=
  if d.any (fun p => p.1 == tag) then
    d.map (fun p => if p.1 == tag then (tag, p.2.set i (some v)) else p)
  else d ++ [(tag, (List.replicate l (none : Option Payload)).set i (some v))]

/-- The slot Go `chunk.getData` reads for query time `ct`:
`idx = (ct - StartTime) / Resolution`, nil unless `0 ≤ idx < len(Data)`. -/
def Chunk.slotAt (c : Chunk) (ct : Int) : Option Slot :=
  let idx := (ct - c.StartTime).tdiv c.Resolution
  if 0 ≤ idx ∧ idx < (c.Data.length : Int) then c.Data.getD idx.toNat none
  else none

/-- Go `chunk.resolveTags`. -/
def Chunk.resolveTags (c : Chunk) (val : List (Nat × List (Option Payload))) :
    List (String × List (Option Payload)) :=
  val.map (fun p => (c.Tags.getD p.1 "", p.2))

/-- Go `chunk.getData`: per-signal dense arrays of length
`l = (end-start)/Resolution` plus the matching timestamp vector.  The Go loop
`for ct < endTime` runs exactly `l` times on the aligned windows the callers
pass (both bounds multiples of the resolution), which is how it is written
here. -/
def Chunk.getData (c : Chunk) (startTime endTime : Int) :
    List (String × List (Option Payload)) × List Int :=
  let l := ((endTime - startTime).tdiv c.Resolution).toNat
  let raw := (List.range l).foldl
    (fun acc (i : Nat) =>
      match c.slotAt (startTime + (i : Int) * c.Resolution) with
      | none => acc
      | some tick => tick.foldl (fun d p => dataSet d l p.1 i p.2) acc)
    []
  (c.resolveTags raw, (List.range l).map (fun i => startTime + (i : Int) * c.Resolution))

/-- Persistence events of `Archive.Write`: one `chunkFile` per dirty chunk
written, then the `header` rewrite. -/
inductive WEvent where
  | chunkFile (startTime : Int)
  | header
deriving DecidableEq, Repr

/-- Archive, from `internal`: the chunk sequence for one resolution.  The
`Dir` and mutex fields carry no data-model content and are dropped. -/
structure Archive where
  Interval  : Int
  ChunkSize : Int
  Retention : Int
  StartTime : Int
  EndTime   : Int
  chunks    : List Chunk
  lastWrite : Int
deriving DecidableEq, Repr

/-- Go `NewArchive`. -/
def NewArchive (interval retention chunkSize : Int) : Archive :=
  { Interval := interval, ChunkSize := chunkSize, Retention := retention
    StartTime := 0, EndTime := 0, chunks := [], lastWrite := 0 }

/-- Go `Archive.lastChunk`. -/
def Archive.lastChunk (a : Archive) : Option Chunk := a.chunks.getLast?

/-- Go `Archive.chunkStart`. -/
def Archive.chunkStart (a : Archive) (ts : Int) : Int := ts - ts.tmod a.ChunkSize

/-- Go `Archive.chunkEnd`. -/
def Archive.chunkEnd (a : Archive) (ts : Int) : Int :=
  a.chunkStart ts + a.ChunkSize - a.Interval

/-- Go `Archive.boundaryCheck` (the tail chunk exists at every call site). -/
def Archive.boundaryCheck (a : Archive) (ts : Int) : Bool :=
  match a.lastChunk with
  | some c => ts > a.chunkEnd c.StartTime
  | none => false

/-- Go `Archive.tsNorm`: round up to the nearest multiple of the interval. -/
def Archive.tsNorm (a : Archive) (timestamp : Int) : Int :=
  let ts := timestamp - timestamp.tmod a.Interval
  if ts < timestamp then ts + a.Interval else ts

/-- The retention loop body of Go `Archive.exerciseRetention`, with an
explicit iteration bound: while the retained window exceeds the retention,
advance `StartTime` to the next chunk boundary. -/
def retentionLoop : Archive → Nat → Archive
  | a, 0 => a
  | a, n + 1 =>
      if a.EndTime - a.StartTime > a.Retention then
        retentionLoop { a with StartTime := a.chunkStart a.StartTime + a.ChunkSize } n
      else a

/-- Go `Archive.exerciseRetention`: advance `StartTime` in whole-chunk steps
until the retained window fits.  When `0 < ChunkSize`, every loop iteration
increases `StartTime` by at least one, so `(EndTime - StartTime - Retention)`
iterations always reach the loop's exit condition and this equals the Go
`for` loop; with a non-positive chunk size the Go loop would not terminate
(every archive is created with a positive chunk size). -/
def Archive.exerciseRetention (a : Archive) : Archive :=
  retentionLoop a (a.EndTime - a.StartTime - a.Retention).toNat

/-- Go `Archive.Write`: when data advanced past the last persisted end, write
all dirty chunks, collapse the in-memory list to the tail chunk and exercise
retention; in both cases record `lastWrite` and rewrite the header.  (The
source never clears a chunk's dirty flag.)  The returned event list is the
sequence of file writes performed. -/
def Archive.Write (a : Archive) : Archive × List WEvent :=
  if a.EndTime > a.lastWrite then
    let evs := (a.chunks.filter (fun c => c.dirty)).map
      (fun c => WEvent.chunkFile (a.chunkStart c.StartTime))
    let a1 := { a with chunks := match a.lastChunk with
                                  | some c => [c]
                                  | none => [] }
    let a2 := a1.exerciseRetention
    ({ a2 with lastWrite := a2.EndTime }, evs ++ [WEvent.header])
  else
    ({ a with lastWrite := a.EndTime }, [WEvent.header])

/-- Go `Archive.Append`. -/
def Archive.Append (a : Archive) (val : List (String × Payload)) (timestamp : Int) :
    Archive :=
  let ts := a.tsNorm timestamp
  let a1 :=
    match a.lastChunk with
    | none =>
        { a with chunks := [newChunk a.Interval (ts - ts.tmod a.ChunkSize)] }
    | some lc =>
        if a.boundaryCheck ts then
          let nextStart := a.chunkStart ts
          let withFill :=
            if lc.EndTime < a.chunkEnd lc.StartTime then
              a.chunks.dropLast ++ [lc.fillTo nextStart]
            else a.chunks
          { a with chunks := withFill ++ [newChunk a.Interval nextStart] }
        else a
  let a2 := { a1 with chunks := a1.chunks.dropLast ++
      [((a1.lastChunk).getD (newChunk a.Interval 0)).append val ts] }
  { a2 with EndTime := ts,
            StartTime := if a2.StartTime = 0 then ts else a2.StartTime }

/-- Go `Archive.Latest`. -/
def Archive.Latest (a : Archive) : List (String × Payload) × Int :=
  match a.lastChunk with
  | none => ([], 0)
  | some lc => (lc.latest, lc.EndTime)

/-- Go `Archive.getChunkByStartTime`: in-memory lookup; the disk fallback is
modelled as a miss (no claim under study re-reads persisted chunks). -/
def Archive.getChunkByStartTime (a : Archive) (ts : Int) : Option Chunk :=
  a.chunks.find? (fun c => c.StartTime == ts)

/-- Go's splice loop in `Archive.GetData`: `exst[i+j] = ticks[j]`. -/
def splice (xs : List (Option Payload)) (off : Nat) (ticks : List (Option Payload)) :
    List (Option Payload) :=
  (List.range ticks.length).foldl
    (fun ys j => ys.set (off + j) (ticks.getD j none)) xs

/-- Key-level update of the `data` map in Go `Archive.GetData`. -/
def archDataSet (d : List (String × List (Option Payload))) (l : Nat)
    (off : Nat) (key : String) (ticks : List (Option Payload)) :
    List (String × List (Option Payload)) :=
  if d.any (fun p => p.1 == key) then
    d.map (fun p => if p.1 == key then (key, splice p.2 off ticks) else p)
  else d ++ [(key, splice (List.replicate l (none : Option Payload)) off ticks)]

/-- Go `Archive.GetData`: normalise both bounds up to the interval, build the
timestamp vector, then walk the chunk windows covering the range and splice
each cached chunk's data into place (a missing chunk contributes nulls). -/
def Archive.GetData (a : Archive) (startTime endTime : Int) :
    List (String × List (Option Payload)) × List Int :=
  let s := a.tsNorm startTime
  let e := a.tsNorm endTime
  let l := ((e - s).tdiv a.Interval).toNat
  let stamps := (List.range l).map (fun i => s + (i : Int) * a.Interval)
  let cw := loopCount (a.chunkStart s) e a.ChunkSize
  let res := (List.range cw).foldl
    (fun (acc : List (String × List (Option Payload)) × Int) j =>
      let cs0 := a.chunkStart s + (j : Int) * a.ChunkSize
      let cStart := if cs0 < s then s else cs0
      let cEnd := if cs0 + a.ChunkSize > e then e else cs0 + a.ChunkSize
      let d1 :=
        match a.getChunkByStartTime cs0 with
        | none => acc.1
        | some c =>
            (c.getData cStart cEnd).1.foldl
              (fun d p => archDataSet d l acc.2.toNat p.1 p.2) acc.1
      (d1, acc.2 + (cEnd - cStart).tdiv a.Interval))
    ([], 0)
  (res.1, stamps)

/-- ArchiveConfig, from `tissa.go`. -/
structure ArchiveConfig where
  Resolution : Int
  Retention  : Int
deriving DecidableEq, Repr

/-- TimeSeriesConfig, from `tissa.go`. -/
structure TimeSeriesConfig where
  Archives     : List ArchiveConfig
  DefaultValue : ℚ
deriving DecidableEq, Repr

/-- TimeSeries, from `tissa.go`. -/
structure TimeSeries where
  archives    : List Archive
  config      : TimeSeriesConfig
  LastWritten : Int
deriving DecidableEq, Repr

/-- Series-wide chunk size constant (`chunkSizeSlots = 2000`). -/
def chunkSizeSlots : Int := 2000

/-- Insert an archive config into a list sorted ascending by resolution. -/
def insertArch (a : ArchiveConfig) : List ArchiveConfig → List ArchiveConfig
  | [] => [a]
  | b :: rest =>
      if a.Resolution < b.Resolution then a :: b :: rest else b :: insertArch a rest

/-- Sort archive configs ascending by resolution.  Go uses `sort.Slice`, an
unspecified comparison sort; this insertion sort is one of its admissible
outcomes (they can differ only in the order of configs with equal
resolutions, which no claim depends on). -/
def sortArchives : List ArchiveConfig → List ArchiveConfig
  | [] => []
  | a :: rest => insertArch a (sortArchives rest)

/-- The divisibility check loop of Go `NewTimeSeries`, carrying `last`
(initially 1). -/
def checkRes : Int → List ArchiveConfig → Bool
  | _, [] => true
  | last, a :: rest =>
      if a.Resolution.tmod last ≠ 0 then false else checkRes a.Resolution rest

/-- Go `NewTimeSeries`: reject an empty archive list, sort by resolution
ascending, check each resolution divisible by its predecessor starting
from 1, and build one fresh archive per config (persisting its header, as
`Write` on a fresh archive does). -/
def NewTimeSeries (config : TimeSeriesConfig) : Except String TimeSeries :=
  if config.Archives.length = 0 then
    .error "config must specify at least one archive"
  else
    let sorted := sortArchives config.Archives
    if checkRes 1 sorted then
      .ok { archives := sorted.map (fun a =>
              ((NewArchive a.Resolution a.Retention
                  (chunkSizeSlots * a.Resolution)).Write).1)
            config := { config with Archives := sorted }
            LastWritten := 0 }
    else .error "each archive resolution must be divisible by all smaller ones"

/-- Go `rollupRawData`'s inner loop over one signal's window: count, total,
max and min over the non-nil entries, with the source's first-observation
flag. -/
def rollupColumn (v : List (Option Payload)) : Rollup :=
  (v.foldl
    (fun (st : Rollup × Bool) ov =>
      match ov with
      | none => st
      | some pl =>
          let x := pl.asRaw
          let r := st.1
          ({ Total := r.Total + x, Count := r.Count + 1
             Max := if st.2 ∨ x > r.Max then x else r.Max
             Min := if st.2 ∨ x < r.Min then x else r.Min }, false))
    (⟨0, 0, 0, 0⟩, true)).1

/-- Go `rollupRawData`. -/
def rollupRawData (data : List (String × List (Option Payload))) :
    List (String × Payload) :=
  data.map (fun p => (p.1, Payload.roll (rollupColumn p.2)))

/-- Go `rollupRollupData`'s inner loop over one signal's window of rollups. -/
def rollupRollColumn (v : List (Option Payload)) : Rollup :=
  (v.foldl
    (fun (st : Rollup × Bool) ov =>
      match ov with
      | none => st
      | some pl =>
          let rv := pl.asRoll
          let r := st.1
          ({ Total := r.Total + rv.Total, Count := r.Count + rv.Count
             Max := if st.2 ∨ rv.Max > r.Max then rv.Max else r.Max
             Min := if st.2 ∨ rv.Min < r.Min then rv.Min else r.Min }, false))
    (⟨0, 0, 0, 0⟩, true)).1

/-- Go `rollupRollupData`. -/
def rollupRollupData (data : List (String × List (Option Payload))) :
    List (String × Payload) :=
  data.map (fun p => (p.1, Payload.roll (rollupRollColumn p.2)))

/-- The rollup cascade loop of Go `AddValues` over the coarser archives.
`lastTimestamp` is the base archive's end time captured before the base
append and is never updated (the stop condition always compares against it);
`cur` is the archive the just-closed window is read from; `isFirst` selects
`rollupRawData` for the first coarser archive.  Archives past the first one
whose interval boundary was not crossed are returned untouched. -/
def cascade (lastTimestamp timestamp : Int) :
    Archive → Bool → List Archive → List Archive
  | _, _, [] => []
  | cur, isFirst, rA :: rest =>
      let rollupIval := rA.Interval
      if timestamp.tdiv rollupIval = lastTimestamp.tdiv rollupIval then
        rA :: rest
      else
        let rollupStart := timestamp - timestamp.tmod rollupIval - rollupIval
        let rollupEnd := rollupStart + rollupIval
        let data := (cur.GetData rollupStart rollupEnd).1
        let rollups := if isFirst then rollupRawData data
                       else rollupRollupData data
        let rA1 := rA.Append rollups rollupEnd
        rA1 :: cascade lastTimestamp timestamp rA1 false rest

/-- Go `TimeSeries.AddValues`: append to the base archive, then roll up into
each coarser archive whose interval boundary the new timestamp crossed.  The Go
code indexes `archives[0]` unconditionally; an empty archive list is
unreachable (constructors require at least one archive). -/
def TimeSeries.AddValues (t : TimeSeries) (vals : List (String × ℚ))
    (timestamp : Int) : TimeSeries :=
  match t.archives with
  | [] => t
  | base :: rest =>
      let lastTimestamp := base.EndTime
      let converted := vals.map (fun p => (p.1, Payload.raw p.2))
      let base1 := base.Append converted timestamp
      { t with archives := base1 :: cascade lastTimestamp timestamp base1 true rest }

/-- Go `TimeSeries.AddValue`. -/
def TimeSeries.AddValue (t : TimeSeries) (key : String) (val : ℚ)
    (timestamp : Int) : TimeSeries :=
  t.AddValues [(key, val)] timestamp

/-- Go `TimeSeries.Latest`: the base archive's latest map with payloads cast
to float. -/
def TimeSeries.Latest (t : TimeSeries) : List (String × ℚ) × Int :=
  match t.archives with
  | [] => ([], 0)
  | base :: _ =>
      let d := base.Latest
      (d.1.map (fun p => (p.1, p.2.asRaw)), d.2)

/-- Go `TimeSeries.Rollups`: reject the base resolution, find the (last)
matching coarser archive, and read its window, mapping nil slots to the zero
`Rollup{}`. -/
def TimeSeries.Rollups (t : TimeSeries) (startTime endTime resolution : Int) :
    Except String (List (String × List Rollup) × List Int) :=
  match t.archives with
  | [] => .error "no matching archive"
  | base :: rest =>
      if resolution = base.Interval then
        .error "cannot get rollups from base archive"
      else
        match rest.foldl
          (fun acc a => if a.Interval = resolution then some a else acc)
          none with
        | none => .error "no matching archive"
        | some archive =>
            let d := archive.GetData startTime endTime
            .ok (d.1.map (fun p =>
              (p.1, p.2.map (fun o =>
                match o with
                | some pl => pl.asRoll
                | none => (⟨0, 0, 0, 0⟩ : Rollup)))), d.2)

/-- The length computation at the head of Go `walkData`:
`l = (end-start)/res`, plus one if the remainder is positive. -/
def walkLen (startTime endTime resolution : Int) : Nat :=
  (let l := (endTime - startTime).tdiv resolution
   if (endTime - startTime).tmod resolution > 0 then l + 1 else l).toNat

/-- Go `walkData`: at base resolution read raw floats, replacing nil by the
configured default; otherwise read rollups and map each through the handler.
The Go loop writes `vals[k][i]` for each index of the fetched array into an
array of length `l`; indices the fetched array does not reach keep the zero
value `0.0` (when the fetched array is longer than `l` Go would panic; the
surplus is dropped here, and no claim exercises that case). -/
def TimeSeries.walkData (t : TimeSeries) (startTime endTime resolution : Int)
    (rollupHandler : Rollup → ℚ) :
    Except String (List (String × List ℚ) × List Int) :=
  let l := walkLen startTime endTime resolution
  match t.archives with
  | [] => .error "no matching archive"
  | base :: _ =>
      if resolution = base.Interval then
        let d := base.GetData startTime endTime
        .ok (d.1.map (fun p =>
          (p.1, (List.range l).map (fun i =>
            if i < p.2.length then
              match p.2.getD i none with
              | some pl => pl.asRaw
              | none => t.config.DefaultValue
            else 0))), d.2)
      else
        match t.Rollups startTime endTime resolution with
        | .error e => .error e
        | .ok (rdata, ts) =>
            .ok (rdata.map (fun p =>
              (p.1, (List.range l).map (fun i =>
                if i < p.2.length then
                  rollupHandler (p.2.getD i ⟨0, 0, 0, 0⟩)
                else 0))), ts)

/-- The average handler of Go `TimeSeries.Averages`. -/
def avgHandler (r : Rollup) : ℚ :=
  if r.Count > 0 then r.Total / (r.Count : ℚ) else 0

/-- The maximum handler of Go `TimeSeries.Maximums`. -/
def maxHandler (r : Rollup) : ℚ :=
  if r.Count > 0 then r.Max else 0

/-- The minimum handler of Go `TimeSeries.Minimums`. -/
def minHandler (r : Rollup) : ℚ :=
  if r.Count > 0 then r.Min else 0

/-- Go `TimeSeries.Averages`. -/
def TimeSeries.Averages (t : TimeSeries) (startTime endTime resolution : Int) :
    Except String (List (String × List ℚ) × List Int) :=
  t.walkData startTime endTime resolution avgHandler

/-- Go `TimeSeries.Maximums`. -/
def TimeSeries.Maximums (t : TimeSeries) (startTime endTime resolution : Int) :
    Except String (List (String × List ℚ) × List Int) :=
  t.walkData startTime endTime resolution maxHandler

/-- Go `TimeSeries.Minimums`. -/
def TimeSeries.Minimums (t : TimeSeries) (startTime endTime resolution : Int) :
    Except String (List (String × List ℚ) × List Int) :=
  t.walkData startTime endTime resolution minHandler

/-- Go `TimeSeries.Write`: write every archive in order, then record the
current wall-clock time (passed explicitly as `now`). -/
def TimeSeries.Write (t : TimeSeries) (now : Int) : TimeSeries × List WEvent :=
  ({ t with archives := t.archives.map (fun a => (a.Write).1),
            LastWritten := now },
   t.archives.foldr (fun a evs => (a.Write).2 ++ evs) [])

/-- One archive-level operation of a usage trace: an append or a write. -/
inductive Op where
  | app (val : List (String × Payload)) (ts : Int)
  | wr
deriving Repr

/-- Run a trace of operations against an archive (write events dropped). -/
def runOps (a : Archive) : List Op → Archive
  | [] => a
  | Op.app v ts :: rest => runOps (a.Append v ts) rest
  | Op.wr :: rest => runOps (a.Write).1 rest

/-- Appending a contiguous run of single-signal samples, one per base slot:
`runAdds name r t ts [v1, …, vk]` performs `AddValues [(name, vi)]` at
`ts, ts + r, …`. -/
def runAdds (name : String) (r : Int) : TimeSeries → Int → List ℚ → TimeSeries
  | t, _, [] => t
  | t, ts, v :: rest => runAdds name r (t.AddValues [(name, v)] ts) (ts + r) rest

/-- Proof scaffolding: the base chunk reached after a fresh chunk rooted at
`cs0` receives a contiguous aligned run of single-signal samples
`vs` at `t0, t0 + r, …` (leading slots null, one slot per value, the signal
interned as tag 0). -/
def runChunk (r cs0 t0 : Int) (name : String) (vs : List ℚ) : Chunk :=
  { StartTime := cs0
    EndTime := t0 + ((vs.length : Int) - 1) * r
    Resolution := r
    Data := List.replicate ((t0 - cs0).tdiv r).toNat (none : Option Slot) ++
      vs.map (fun v => some [(0, Payload.raw v)])
    Tags := [name]
    dirty := true }

/-- Proof scaffolding: the base archive after such a run. -/
def runArchive (r retB cs0 t0 : Int) (name : String) (vs : List ℚ) : Archive :=
  { Interval := r, ChunkSize := chunkSizeSlots * r, Retention := retB
    StartTime := t0, EndTime := t0 + ((vs.length : Int) - 1) * r
    chunks := [runChunk r cs0 t0 name vs], lastWrite := 0 }

/-- Proof scaffolding: the first coarser archive after the cascade of the
run's first sample appended an empty rollup map at the interval start
`Istart` (its chunk rooted at `cs1`). -/
def junkArchive (R retC cs1 Istart : Int) : Archive :=
  { Interval := R, ChunkSize := chunkSizeSlots * R, Retention := retC
    StartTime := Istart, EndTime := Istart
    chunks := [{ StartTime := cs1, EndTime := Istart, Resolution := R
                 Data := List.replicate ((Istart - cs1).tdiv R).toNat
                     (none : Option Slot) ++ [some ([] : Slot)]
                 Tags := [], dirty := true }]
    lastWrite := 0 }

/-- A fresh dummy archive used as the default of list lookups in closed
statements (never actually selected). -/
def dummyArchive : Archive := NewArchive 0 0 0

/-- A fresh two-archive series (1 s base, 60 s rollup, default 0), exactly
what `NewTimeSeries` builds for `{(1, 3600), (60, 86400)}`. -/
def series2 : TimeSeries :=
  { archives := [NewArchive 1 3600 2000, NewArchive 60 86400 120000]
    config := { Archives := [⟨1, 3600⟩, ⟨60, 86400⟩], DefaultValue := 0 }
    LastWritten := 0 }

/-- The same two-archive layout with configured default value 5. -/
def series2d : TimeSeries :=
  { archives := [NewArchive 1 3600 2000, NewArchive 60 86400 120000]
    config := { Archives := [⟨1, 3600⟩, ⟨60, 86400⟩], DefaultValue := 5 }
    LastWritten := 0 }

/-- A fresh single-archive series at resolution 1. -/
def series1 : TimeSeries :=
  { archives := [NewArchive 1 3600 2000]
    config := { Archives := [⟨1, 3600⟩], DefaultValue := 0 }
    LastWritten := 0 }

/-- A fresh single-archive series at resolution 10. -/
def series10 : TimeSeries :=
  { archives := [NewArchive 10 3600 20000]
    config := { Archives := [⟨10, 3600⟩], DefaultValue := 0 }
    LastWritten := 0 }

/-- A one-sample chunk at resolution 1: value 5 at timestamp 100. -/
def gapChunk : Chunk := (newChunk 1 100).append [("v", Payload.raw 5)] 100

/-- Two contiguous base samples 5, 7 at 177, 178 (inside the minute interval
`[120, 180)`) on the fresh two-archive series. -/
def runShort : TimeSeries :=
  (series2.AddValues [("val", 5)] 177).AddValues [("val", 7)] 178

/-- Samples at 70, 130 and 250 on the fresh two-archive series: the third
append closes the all-null minute window `[180, 240)`. -/
def nullWindow : TimeSeries :=
  ((series2.AddValues [("val", 5)] 70).AddValues [("val", 7)] 130).AddValues
    [("val", 9)] 250

/-- Samples at 70, 130 and 190 on the two-archive series with default 5: the
closed minute windows `[0, 60)` and `[60, 120)` end up as empty rollups. -/
def emptySlots : TimeSeries :=
  ((series2d.AddValues [("val", 5)] 70).AddValues [("val", 7)] 130).AddValues
    [("val", 9)] 190

/-- The inductive invariant of archive traces used for the retention bound:
non-negative clock fields, a zero `StartTime` only on an archive that has
never stored data, and the persisted window (`lastWrite` against `StartTime`)
within retention. -/
def ArchiveInv (a : Archive) : Prop :=
  0 ≤ a.EndTime ∧ 0 ≤ a.StartTime ∧
  (a.StartTime = 0 → a.EndTime = 0 ∧ a.lastWrite = 0) ∧
  (a.EndTime ≤ a.lastWrite → a.EndTime - a.StartTime ≤ a.Retention) ∧
  (a.StartTime ≠ 0 → a.lastWrite - a.StartTime ≤ a.Retention)

/-- The timestamp constraint of a trace operation: appends carry a
non-negative (epoch) timestamp. -/
def OpOk : Op → Prop
  | Op.app _ ts => 0 ≤ ts
  | Op.wr => True

/-- An archive with one sample at 10 followed by a stale append at 5. -/
def staleArchive : Archive :=
  ((NewArchive 1 3600 2000).Append [("v", Payload.raw 1)] 10).Append
    [("v", Payload.raw 2)] 5

set_option maxRecDepth 400000

/-- C3 exhibit: appending at 10 and then at 5 (resolution 1) leaves the
chunk's data untouched (the stale sample is dropped by `chunk.append`), yet
`Archive.Append` unconditionally overwrites the archive's `EndTime` with the
stale timestamp 5; the claimed monotonicity (EndTime stays 10) fails. -/
theorem stale_append_regresses_end_time :
    staleArchive.EndTime = 5 ∧
    staleArchive.chunks =
      ((NewArchive 1 3600 2000).Append [("v", Payload.raw 1)] 10).chunks ∧
    ¬ (staleArchive.EndTime =
        ((NewArchive 1 3600 2000).Append [("v", Payload.raw 1)] 10).EndTime) := by
  refine ⟨by with_unfolding_all rfl, by with_unfolding_all rfl, ?_⟩
  have h1 : staleArchive.EndTime = 5 := by with_unfolding_all rfl
  have h2 : (((NewArchive 1 3600 2000).Append [("v", Payload.raw 1)] 10)).EndTime = 10 := by
    with_unfolding_all rfl
  rw [h1, h2]
  decide

/-- C10: `NewTimeSeries` accepts a configuration whose only archive has
resolution 0 (the divisibility check `0 % 1 == 0` passes and there is no
positivity check); the resulting base archive carries `Interval = 0`, so
every subsequent `tsNorm` divides by zero (a run-time panic in Go; in this
total model `tsNorm` collapses every timestamp to 0, as the last conjunct
shows). -/
theorem zero_resolution_accepted :
    ∃ t, NewTimeSeries { Archives := [⟨0, 3600⟩], DefaultValue := 0 } = .ok t ∧
      t.archives.map (fun a => a.Interval) = [0] ∧
      (t.archives.getD 0 dummyArchive).tsNorm 12345 = 0 := by
  refine ⟨{ archives := [NewArchive 0 3600 0]
            config := { Archives := [⟨0, 3600⟩], DefaultValue := 0 }
            LastWritten := 0 }, ?_, ?_, ?_⟩
  · with_unfolding_all rfl
  · with_unfolding_all rfl
  · with_unfolding_all rfl

/-- After any `Archive.Write`, the recorded `lastWrite` equals the archive's
`EndTime` (both branches of the source set `a.lastWrite = a.EndTime`). -/
theorem write_lastWrite_eq_endTime (a : Archive) :
    ((a.Write).1).lastWrite = ((a.Write).1).EndTime := by
  unfold Archive.Write
  split <;> rfl

/-- An archive whose `lastWrite` already equals its `EndTime` is a fixed
point of `Write`: the data-advance test fails, so only the header is
rewritten. -/
theorem write_of_lastWrite_eq (a : Archive) (h : a.lastWrite = a.EndTime) :
    a.Write = (a, [WEvent.header]) := by
  unfold Archive.Write
  rw [if_neg (by omega)]
  refine Prod.ext ?_ rfl
  cases a
  simp_all

/-- Folding the per-archive event lists of a series write, when every archive
contributes exactly a header event. -/
theorem foldr_header_events (l : List Archive)
    (h : ∀ x ∈ l, ((x.Write).2 : List WEvent) = [WEvent.header]) :
    l.foldr (fun a evs => (a.Write).2 ++ evs) [] =
      l.map (fun _ => WEvent.header) := by
  induction l with
  | nil => rfl
  | cons x xs ih =>
      simp only [List.foldr_cons, List.map_cons]
      rw [h x (by simp), ih (fun y hy => h y (by simp [hy]))]
      rfl

/-- C9 (confirmed): persistence is idempotent.  A second `Write` directly
after a first one skips all chunk writes (it emits only the header event) and
returns the archive — hence the series — unchanged, `end_time` included. -/
theorem write_twice_eq_write_once :
    ∀ (a : Archive) (t : TimeSeries) (now : Int),
      (a.Write).1.Write = ((a.Write).1, [WEvent.header]) ∧
      ((t.Write now).1.Write now) =
        ((t.Write now).1, t.archives.map (fun _ => WEvent.header)) := by
  have harch : ∀ a : Archive, (a.Write).1.Write = ((a.Write).1, [WEvent.header]) :=
    fun a => write_of_lastWrite_eq _ (write_lastWrite_eq_endTime a)
  intro a t now
  refine ⟨harch a, ?_⟩
  show TimeSeries.Write _ _ = _
  unfold TimeSeries.Write
  refine Prod.ext ?_ ?_
  · simp only [List.map_map]
    congr 1
    refine List.map_congr_left (fun b _ => ?_)
    show ((b.Write).1.Write).1 = (b.Write).1
    rw [harch b]
  · simp only []
    rw [foldr_header_events _ (fun x hx => ?_), List.map_map]
    · rfl
    · obtain ⟨b, _, rfl⟩ := List.mem_map.mp hx
      rw [harch b]

/-- C1 counterexample: one sample at 100, then an append at 103 (resolution
1) leaves `n = (103-100)/1 - 1 = 2` missing slots.  The claim (`n < 3` fills
forward) predicts two copies of the tail slot, but the code fills forward
only when `(ts - end_time)/resolution < 3`, i.e. `n < 2`: both missing slots
come out null. -/
theorem gap_of_two_filled_with_nulls :
    (gapChunk.append [("v", Payload.raw 9)] 103).Data =
      [some [(0, Payload.raw 5)], none, none, some [(0, Payload.raw 9)]] ∧
    gapChunk.latestRaw = some [(0, Payload.raw 5)] ∧
    ¬ ((gapChunk.append [("v", Payload.raw 9)] 103).Data =
        gapChunk.Data ++ List.replicate 2 gapChunk.latestRaw ++
          [some [(0, Payload.raw 9)]]) := by
  have h1 : (gapChunk.append [("v", Payload.raw 9)] 103).Data =
      [some [(0, Payload.raw 5)], none, none, some [(0, Payload.raw 9)]] := by
    with_unfolding_all rfl
  have h2 : gapChunk.Data ++ List.replicate 2 gapChunk.latestRaw ++
      [some [(0, Payload.raw 9)]] =
      [some [(0, Payload.raw 5)], some [(0, Payload.raw 5)],
       some [(0, Payload.raw 5)], some [(0, Payload.raw 9)]] := by
    with_unfolding_all rfl
  refine ⟨h1, by with_unfolding_all rfl, ?_⟩
  rw [h1, h2]
  intro h
  exact absurd (List.cons.injEq .. ▸ h) (by simp)

/-- C2 counterexample: on the fresh `{(1,3600),(60,86400)}` series, the
contiguous run 5, 7 at 177, 178 (k = 2) lies in the minute interval
`I = [120, 180)`; the crossing append at 180 first fill-forwards the one
missing slot 179 with a copy of the value 7 — inside `I` — so the rollup
stored for `I` counts three samples (total 19), not k = 2 as claimed. -/
theorem rollup_run_count_counterexample :
    NewTimeSeries { Archives := [⟨1, 3600⟩, ⟨60, 86400⟩], DefaultValue := 0 } =
      .ok series2 ∧
    ((runShort.AddValues [("val", 9)] 180).archives.getD 1 dummyArchive).Latest =
      ([("val", Payload.roll ⟨19, 3, 5, 7⟩)], 180) ∧
    ¬ ∃ rl : Rollup,
        ((runShort.AddValues [("val", 9)] 180).archives.getD 1 dummyArchive).Latest =
          ([("val", Payload.roll rl)], 180) ∧ rl.Count = 2 := by
  have h2 : ((runShort.AddValues [("val", 9)] 180).archives.getD 1 dummyArchive).Latest =
      ([("val", Payload.roll ⟨19, 3, 5, 7⟩)], 180) := by with_unfolding_all rfl
  refine ⟨by with_unfolding_all rfl, h2, ?_⟩
  rintro ⟨rl, h3, h4⟩
  rw [h2] at h3
  simp only [Prod.mk.injEq, List.cons.injEq, Payload.roll.injEq, and_true,
    true_and] at h3
  rw [← h3] at h4
  exact absurd h4 (by decide)

/-- C4 counterexample: on the `{(1,3600),(60,86400)}` series with configured
default value 5, the minute windows `[0,60)` and `[60,120)` roll up with
`count = 0`; `Averages` reports `0.0` for those slots — the hard-coded zero
of the aggregate handlers — not the configured default 5. -/
theorem empty_rollup_default_counterexample :
    emptySlots.Rollups 0 240 60 =
      .ok ([("val", [⟨0, 0, 0, 0⟩, ⟨0, 0, 0, 0⟩, ⟨5, 1, 5, 5⟩, ⟨7, 1, 7, 7⟩])],
           [0, 60, 120, 180]) ∧
    emptySlots.Averages 0 240 60 =
      .ok ([("val", [0, 0, 5, 7])], [0, 60, 120, 180]) ∧
    emptySlots.config.DefaultValue = 5 ∧
    ¬ ((0 : ℚ) = 5) := by
  exact ⟨by with_unfolding_all rfl, by with_unfolding_all rfl,
    by with_unfolding_all rfl, by decide⟩

/-- C5 counterexample: on the fresh `{(1,3600),(60,86400)}` series with
samples at 70, 130 and 250, the base archive knows the signal `val` (it is in
the chunk's tag table) and every slot of the just-closed minute window
`[180,240)` is null, yet the rollup map appended to the coarser archive at
240 is empty: the signal does not appear at all, contradicting the claimed
zero-rollup entry. -/
theorem all_null_window_counterexample :
    (nullWindow.archives.getD 0 dummyArchive).chunks.map (fun c => c.Tags) =
      [["val"]] ∧
    (((nullWindow.archives.getD 0 dummyArchive).chunks.getD 0
        (newChunk 0 0)).Data.drop 180).take 60 =
      List.replicate 60 (none : Option Slot) ∧
    ((nullWindow.archives.getD 0 dummyArchive).GetData 180 240).1 = [] ∧
    (nullWindow.archives.getD 1 dummyArchive).Latest = ([], 240) ∧
    ¬ (("val", Payload.roll ⟨0, 0, 0, 0⟩) ∈
        (nullWindow.archives.getD 1 dummyArchive).Latest.1) := by
  have h4 : (nullWindow.archives.getD 1 dummyArchive).Latest = ([], 240) := by
    with_unfolding_all rfl
  refine ⟨by with_unfolding_all rfl, by with_unfolding_all rfl,
    by with_unfolding_all rfl, h4, ?_⟩
  rw [h4]
  simp

/-- C6 counterexample: on a fresh resolution-1 series, `add_values` at 10
followed by a stale `add_values` at 4 leaves `latest()` at the earlier
sample: the stale sample is dropped, so latest is not
`({val ↦ 7}, ceil(4/1)·1 = 4)` as the claim universally requires. -/
theorem latest_after_stale_append_counterexample :
    ((series1.AddValues [("val", 5)] 10).AddValues [("val", 7)] 4).Latest =
      ([("val", 5)], 10) ∧
    ¬ (((series1.AddValues [("val", 5)] 10).AddValues [("val", 7)] 4).Latest =
        ([("val", 7)], 4)) := by
  have h1 : ((series1.AddValues [("val", 5)] 10).AddValues [("val", 7)] 4).Latest =
      ([("val", 5)], 10) := by with_unfolding_all rfl
  refine ⟨h1, ?_⟩
  rw [h1]
  intro h
  simp only [Prod.mk.injEq, List.cons.injEq] at h
  exact absurd h.2 (by decide)

/-- C7 counterexample: querying `[1, 20)` at resolution 10 returns the single
timestamp 10 — both bounds are first normalised up to the resolution — while
the claim predicts `ceil((20-1)/10) = 2` timestamps `1, 11` aligned to the
query start. -/
theorem timestamp_vector_counterexample :
    series10.Averages 1 20 10 = .ok ([], [10]) ∧
    walkLen 1 20 10 = 2 ∧
    ¬ (([10] : List Int).length = walkLen 1 20 10) ∧
    ¬ (([10] : List Int) = [1, 11]) := by
  exact ⟨by with_unfolding_all rfl, by with_unfolding_all rfl,
    by with_unfolding_all decide, by decide⟩

/-- Lower bound on the truncating remainder for a positive divisor. -/
theorem tmod_gt_neg (a : Int) {b : Int} (h : 0 < b) : -b < a.tmod b := by
  rcases le_or_lt 0 a with ha | ha
  · have := Int.tmod_nonneg b ha
    omega
  · have hneg : (-a).tmod b = -(a.tmod b) := by
      rw [Int.tmod_def, Int.tmod_def, Int.neg_tdiv]
      ring
    have h2 : (-a).tmod b < b := Int.tmod_lt_of_pos _ h
    omega

/-- `tsNorm` is the identity on multiples of the interval. -/
theorem Archive.tsNorm_of_dvd (a : Archive) (s : Int) (h : a.Interval ∣ s) :
    a.tsNorm s = s := by
  unfold Archive.tsNorm
  rw [Int.tmod_eq_zero_of_dvd h]
  simp

/-- For a positive interval, `tsNorm` rounds up: it yields the unique
multiple of the interval in `[ts, ts + interval)`. -/
theorem tsNorm_facts (a : Archive) (ts : Int) (h : 0 < a.Interval) :
    a.Interval ∣ a.tsNorm ts ∧ ts ≤ a.tsNorm ts ∧ a.tsNorm ts < ts + a.Interval := by
  have hd := Int.tdiv_add_tmod ts a.Interval
  have hm1 := Int.tmod_lt_of_pos ts h
  have hm2 := tmod_gt_neg ts h
  unfold Archive.tsNorm
  dsimp only
  split_ifs with hc
  · exact ⟨⟨ts.tdiv a.Interval + 1, by rw [mul_add, mul_one]; omega⟩,
      by omega, by omega⟩
  · exact ⟨⟨ts.tdiv a.Interval, by omega⟩, by omega, by omega⟩

/-- `tsNorm` computes the ceiling: `tsNorm ts = interval * ⌈ts / interval⌉`. -/
theorem tsNorm_eq_ceil (a : Archive) (ts : Int) (h : 0 < a.Interval) :
    a.tsNorm ts = a.Interval * ⌈(ts : ℚ) / (a.Interval : ℚ)⌉ := by
  obtain ⟨⟨k, hk⟩, hle, hlt⟩ := tsNorm_facts a ts h
  rw [hk]
  have hle' : ts ≤ a.Interval * k := hk ▸ hle
  have hlt' : a.Interval * k < ts + a.Interval := hk ▸ hlt
  have hr : (0 : ℚ) < (a.Interval : ℚ) := by exact_mod_cast h
  congr 1
  symm
  rw [Int.ceil_eq_iff]
  constructor
  · rw [lt_div_iff₀ hr]
    have hz : ((k : ℤ) - 1) * a.Interval < ts := by nlinarith
    calc ((k : ℚ) - 1) * (a.Interval : ℚ)
        = (((k : ℤ) - 1) * a.Interval : ℤ) := by push_cast; ring
      _ < (ts : ℚ) := by exact_mod_cast hz
  · rw [div_le_iff₀ hr]
    have hz : ts ≤ (k : ℤ) * a.Interval := by nlinarith
    calc (ts : ℚ) ≤ (((k : ℤ) * a.Interval : ℤ) : ℚ) := by exact_mod_cast hz
      _ = (k : ℚ) * (a.Interval : ℚ) := by push_cast; ring

/-- C7 (corrected): the returned timestamp vector is aligned to the
*normalised* query start `⌈s/r⌉·r`, has length `⌈e/r⌉ − ⌈s/r⌉` and is
independent of the archive's data; the claimed formula (length
`ceil((e−s)/r)`, values from `s`) holds exactly when `s` and `e` are
multiples of the resolution. -/
theorem timestamp_vector_amended (a : Archive) (s e : Int) (h : 0 < a.Interval) :
    (a.GetData s e).2 =
      (List.range (((a.tsNorm e - a.tsNorm s).tdiv a.Interval).toNat)).map
        (fun i => a.tsNorm s + (i : Int) * a.Interval) ∧
    (∀ cs : List Chunk,
      (({ a with chunks := cs } : Archive).GetData s e).2 = (a.GetData s e).2) ∧
    (a.Interval ∣ s → a.Interval ∣ e →
      (a.GetData s e).2 = (List.range (walkLen s e a.Interval)).map
        (fun i => s + (i : Int) * a.Interval)) := by
  refine ⟨rfl, fun cs => rfl, fun hs he => ?_⟩
  have h1 : a.tsNorm s = s := a.tsNorm_of_dvd s hs
  have h2 : a.tsNorm e = e := a.tsNorm_of_dvd e he
  have h3 : walkLen s e a.Interval = ((e - s).tdiv a.Interval).toNat := by
    unfold walkLen
    rw [Int.tmod_eq_zero_of_dvd (dvd_sub he hs)]
    simp
  calc (a.GetData s e).2
      = (List.range (((a.tsNorm e - a.tsNorm s).tdiv a.Interval).toNat)).map
          (fun i => a.tsNorm s + (i : Int) * a.Interval) := rfl
    _ = _ := by rw [h1, h2, h3]

/-- Witness for C7: querying `[20, 45)` on a fresh resolution-10 archive. -/
theorem timestamp_vector_amended_witness :
    ((NewArchive 10 3600 20000).GetData 20 45).2 =
      (List.range ((((NewArchive 10 3600 20000).tsNorm 45 -
          (NewArchive 10 3600 20000).tsNorm 20).tdiv
            (NewArchive 10 3600 20000).Interval).toNat)).map
        (fun i => (NewArchive 10 3600 20000).tsNorm 20 +
          (i : Int) * (NewArchive 10 3600 20000).Interval) :=
  (timestamp_vector_amended (NewArchive 10 3600 20000) 20 45 (by decide)).1

/-- When `Rollups` succeeds, `walkData` takes the rollup branch and maps each
fetched rollup array through the handler (positions past the fetched array
keep the zero value, positions up to `walkLen` come from the handler). -/
theorem walkData_rollup_branch (t : TimeSeries) (s e res : Int)
    (handler : Rollup → ℚ) (rd : List (String × List Rollup)) (tsv : List Int)
    (hro : t.Rollups s e res = .ok (rd, tsv)) :
    t.walkData s e res handler =
      .ok (rd.map (fun p =>
        (p.1, (List.range (walkLen s e res)).map (fun i =>
          if i < p.2.length then handler (p.2.getD i ⟨0, 0, 0, 0⟩) else 0))), tsv) := by
  match harch : t.archives with
  | [] =>
      exfalso
      unfold TimeSeries.Rollups at hro
      simp only [harch] at hro
      exact Except.noConfusion hro
  | base :: rest =>
      have hne : ¬ res = base.Interval := by
        intro hres
        unfold TimeSeries.Rollups at hro
        simp only [harch, if_pos hres] at hro
        exact Except.noConfusion hro
      simp only [TimeSeries.walkData, harch, if_neg hne, hro]

/-- Reading an index below `n` out of `(range n).map g`. -/
theorem getD_range_map (n : Nat) (g : Nat → ℚ) (i : Nat) (d : ℚ) (h : i < n) :
    ((List.range n).map g).getD i d = g i := by
  rw [List.getD_eq_getElem?_getD, List.getElem?_map, List.getElem?_range h]
  rfl

/-- C4 (corrected): a rollup slot with `count == 0` is reported as the
literal `0.0` by `Averages`, `Maximums` and `Minimums` — not as the series'
configured default value, which only applies to null slots of
base-resolution queries. -/
theorem empty_rollup_reports_zero (t : TimeSeries) (s e res : Int)
    (rd : List (String × List Rollup)) (tsv : List Int)
    (key : String) (col : List Rollup) (i : Nat)
    (hro : t.Rollups s e res = .ok (rd, tsv))
    (hmem : (key, col) ∈ rd)
    (hlen : i < col.length) (hl : i < walkLen s e res)
    (hcnt : (col.getD i ⟨0, 0, 0, 0⟩).Count = 0) :
    (∃ av, t.Averages s e res = .ok (av, tsv) ∧
      ∃ arr, (key, arr) ∈ av ∧ arr.getD i 1 = 0) ∧
    (∃ mv, t.Maximums s e res = .ok (mv, tsv) ∧
      ∃ arr, (key, arr) ∈ mv ∧ arr.getD i 1 = 0) ∧
    (∃ nv, t.Minimums s e res = .ok (nv, tsv) ∧
      ∃ arr, (key, arr) ∈ nv ∧ arr.getD i 1 = 0) := by
  have main : ∀ handler : Rollup → ℚ, handler (col.getD i ⟨0, 0, 0, 0⟩) = 0 →
      ∃ av, t.walkData s e res handler = .ok (av, tsv) ∧
        ∃ arr, (key, arr) ∈ av ∧ arr.getD i 1 = 0 := by
    intro handler hh
    refine ⟨_, walkData_rollup_branch t s e res handler rd tsv hro, ?_⟩
    refine ⟨_, List.mem_map_of_mem _ hmem, ?_⟩
    rw [getD_range_map _ _ _ _ hl, if_pos hlen, hh]
  have hcntle : ¬ (col.getD i ⟨0, 0, 0, 0⟩).Count > 0 := by omega
  exact ⟨main avgHandler (by unfold avgHandler; rw [if_neg hcntle]),
         main maxHandler (by unfold maxHandler; rw [if_neg hcntle]),
         main minHandler (by unfold minHandler; rw [if_neg hcntle])⟩

/-- Witness for C4: the empty minute rollup at index 0 of the `emptySlots`
scenario is reported as 0 by all three aggregates. -/
theorem empty_rollup_reports_zero_witness :
    (∃ av, emptySlots.Averages 0 240 60 = .ok (av, [0, 60, 120, 180]) ∧
      ∃ arr, ("val", arr) ∈ av ∧ arr.getD 0 1 = 0) ∧
    (∃ mv, emptySlots.Maximums 0 240 60 = .ok (mv, [0, 60, 120, 180]) ∧
      ∃ arr, ("val", arr) ∈ mv ∧ arr.getD 0 1 = 0) ∧
    (∃ nv, emptySlots.Minimums 0 240 60 = .ok (nv, [0, 60, 120, 180]) ∧
      ∃ arr, ("val", arr) ∈ nv ∧ arr.getD 0 1 = 0) :=
  empty_rollup_reports_zero emptySlots 0 240 60
    [("val", [⟨0, 0, 0, 0⟩, ⟨0, 0, 0, 0⟩, ⟨5, 1, 5, 5⟩, ⟨7, 1, 7, 7⟩])]
    [0, 60, 120, 180] "val"
    [⟨0, 0, 0, 0⟩, ⟨0, 0, 0, 0⟩, ⟨5, 1, 5, 5⟩, ⟨7, 1, 7, 7⟩] 0
    (by with_unfolding_all rfl)
    (by simp)
    (by decide)
    (by with_unfolding_all decide)
    rfl

/-- Reading back the index just written by `List.set`. -/
theorem getD_set_self {α : Type} (xs : List α) (i : Nat) (a d : α)
    (h : i < xs.length) : (xs.set i a).getD i d = a := by
  rw [List.getD_eq_getElem?_getD, List.getElem?_set, if_pos rfl, if_pos h]
  rfl

/-- `dataSet` preserves the invariant that every column in the map under
construction contains at least one non-nil entry (the written index `i` is
below the allocation length `l`). -/
theorem dataSet_preserves (d : List (Nat × List (Option Payload)))
    (l tag i : Nat) (v : Payload) (hi : i < l)
    (hd : ∀ p ∈ d, ∃ j, p.2.getD j none ≠ none) :
    ∀ p ∈ dataSet d l tag i v, ∃ j, p.2.getD j none ≠ none := by
  intro p hp
  unfold dataSet at hp
  split at hp
  · rw [List.mem_map] at hp
    obtain ⟨q, hq, rfl⟩ := hp
    by_cases htag : q.1 == tag
    · simp only [htag, if_pos] at *
      rcases lt_or_le i q.2.length with hlen | hlen
      · exact ⟨i, by rw [getD_set_self _ _ _ _ hlen]; simp⟩
      · rw [List.set_eq_of_length_le hlen]
        exact hd q hq
    · simp only [htag, if_neg, Bool.false_eq_true, not_false_eq_true, ite_false]
      exact hd q hq
  · rw [List.mem_append] at hp
    rcases hp with hp | hp
    · exact hd p hp
    · rw [List.mem_singleton] at hp
      subst hp
      refine ⟨i, ?_⟩
      rw [getD_set_self _ _ _ _ (by simp [hi])]
      simp

/-- A fold whose step ignores nil entries leaves the state unchanged on an
all-nil list. -/
theorem foldl_skip_none {β : Type} (g : β → Option Payload → β)
    (hg : ∀ st, g st none = st) (col : List (Option Payload))
    (h : ∀ x ∈ col, x = none) (st : β) : col.foldl g st = st := by
  induction col generalizing st with
  | nil => rfl
  | cons x xs ih =>
      rw [List.foldl_cons, h x (by simp), hg,
        ih (fun y hy => h y (by simp [hy])) st]

/-- Invariant of the map built by `chunk.getData`: every column it holds
received at least one non-nil write (columns are only created when a non-nil
slot mentions the tag, at an index below the allocation length). -/
theorem getData_raw_invariant (c : Chunk) (s e : Int) :
    ∀ p ∈ (List.range (((e - s).tdiv c.Resolution).toNat)).foldl
        (fun acc (i : Nat) =>
          match c.slotAt (s + (i : Int) * c.Resolution) with
          | none => acc
          | some tick =>
              tick.foldl
                (fun d q => dataSet d (((e - s).tdiv c.Resolution).toNat) q.1 i q.2)
                acc)
        [],
      ∃ i, p.2.getD i none ≠ none := by
  refine @List.foldlRecOn (List (Nat × List (Option Payload))) Nat
    (fun acc => ∀ p ∈ acc, ∃ i, p.2.getD i none ≠ none) _ _ _
    (fun p hp => absurd hp (List.not_mem_nil p)) ?_
  intro acc hacc i hi
  have hil : i < ((e - s).tdiv c.Resolution).toNat := List.mem_range.mp hi
  split
  · exact hacc
  · exact @List.foldlRecOn (List (Nat × List (Option Payload))) (Nat × Payload)
      (fun d => ∀ p ∈ d, ∃ i, p.2.getD i none ≠ none) _ _ acc hacc
      (fun d hd q _ => dataSet_preserves d _ q.1 i q.2 hil hd)

/-- C5 (corrected): a signal all of whose slots in the queried window are
null does not appear in `chunk.getData`'s output at all — every returned
column contains at least one non-nil entry — so during the cascade such a
signal is absent from the rollup map appended to the coarser archive.  The
zero-rollup convention lives only inside `rollupRawData` itself: a key that
is present with an all-null column would be mapped to a zero rollup with
`count = 0`, but `getData` never produces one. -/
theorem all_null_window_amended :
    (∀ (c : Chunk) (s e : Int) (key : String) (col : List (Option Payload)),
      (key, col) ∈ (c.getData s e).1 → ∃ i, col.getD i none ≠ none) ∧
    (∀ (data : List (String × List (Option Payload))) (key : String)
        (col : List (Option Payload)),
      (key, col) ∈ data → (∀ x ∈ col, x = none) →
      (key, Payload.roll ⟨0, 0, 0, 0⟩) ∈ rollupRawData data) := by
  constructor
  · intro c s e key col hmem
    unfold Chunk.getData at hmem
    simp only [Chunk.resolveTags, List.mem_map] at hmem
    obtain ⟨q, hq, hqe⟩ := hmem
    have hcol : q.2 = col := congrArg Prod.snd hqe
    exact hcol ▸ getData_raw_invariant c s e q hq
  · intro data key col hmem hnone
    have hz : rollupColumn col = ⟨0, 0, 0, 0⟩ := by
      unfold rollupColumn
      rw [foldl_skip_none _ (fun st => rfl) col hnone]
    unfold rollupRawData
    have := List.mem_map_of_mem
      (fun p : String × List (Option Payload) =>
        (p.1, Payload.roll (rollupColumn p.2))) hmem
    simpa [hz] using this

/-- Witness for C5: a one-sample chunk returns a column with a non-nil
entry, and `rollupRawData` maps an explicitly all-null column to the zero
rollup. -/
theorem all_null_window_amended_witness :
    (∃ i, ([some (Payload.raw 5)] : List (Option Payload)).getD i none ≠ none) ∧
    ("v", Payload.roll ⟨0, 0, 0, 0⟩) ∈
      rollupRawData [("v", [(none : Option Payload)])] :=
  ⟨all_null_window_amended.1 gapChunk 100 101 "v" [some (Payload.raw 5)]
      (by with_unfolding_all decide),
   all_null_window_amended.2 [("v", [none])] "v" [none]
      (by simp) (by simp)⟩

/-- The retention loop changes only `StartTime`. -/
theorem retentionLoop_fields (n : Nat) (a : Archive) :
    (retentionLoop a n).EndTime = a.EndTime ∧
    (retentionLoop a n).Retention = a.Retention ∧
    (retentionLoop a n).ChunkSize = a.ChunkSize ∧
    (retentionLoop a n).Interval = a.Interval ∧
    (retentionLoop a n).lastWrite = a.lastWrite ∧
    (retentionLoop a n).chunks = a.chunks := by
  induction n generalizing a with
  | zero => exact ⟨rfl, rfl, rfl, rfl, rfl, rfl⟩
  | succ n ih =>
      unfold retentionLoop
      split
      · exact ih _
      · exact ⟨rfl, rfl, rfl, rfl, rfl, rfl⟩

/-- With a positive chunk size, enough fuel reaches the retention loop's exit
condition: the retained window ends within retention. -/
theorem retentionLoop_bound (n : Nat) (a : Archive) (hcs : 0 < a.ChunkSize)
    (hn : a.EndTime - a.StartTime - a.Retention ≤ (n : Int)) :
    (retentionLoop a n).EndTime - (retentionLoop a n).StartTime ≤
      (retentionLoop a n).Retention := by
  induction n generalizing a with
  | zero =>
      unfold retentionLoop
      omega
  | succ n ih =>
      unfold retentionLoop
      split
      · refine ih _ hcs ?_
        show a.EndTime - (a.chunkStart a.StartTime + a.ChunkSize) - a.Retention ≤ _
        unfold Archive.chunkStart
        have hm := Int.tmod_lt_of_pos a.StartTime hcs
        omega
      · omega

/-- The retention loop keeps `StartTime` non-negative, and away from zero
once it is nonzero (each executed step lands on `chunkStart + ChunkSize > 0`). -/
theorem retentionLoop_start (n : Nat) (a : Archive) (hcs : 0 < a.ChunkSize)
    (hS : 0 ≤ a.StartTime) :
    0 ≤ (retentionLoop a n).StartTime ∧
    (a.StartTime ≠ 0 → (retentionLoop a n).StartTime ≠ 0) := by
  induction n generalizing a with
  | zero => exact ⟨hS, fun h => h⟩
  | succ n ih =>
      unfold retentionLoop
      split
      · have hstep : 0 < a.chunkStart a.StartTime + a.ChunkSize := by
          unfold Archive.chunkStart
          have h1 : a.StartTime - a.StartTime.tmod a.ChunkSize =
              a.ChunkSize * a.StartTime.tdiv a.ChunkSize := by
            rw [Int.tmod_def]
            ring
          have h2 : 0 ≤ a.StartTime.tdiv a.ChunkSize :=
            Int.tdiv_nonneg hS (le_of_lt hcs)
          have h3 : 0 ≤ a.ChunkSize * a.StartTime.tdiv a.ChunkSize :=
            mul_nonneg (le_of_lt hcs) h2
          omega
        have := ih { a with StartTime := a.chunkStart a.StartTime + a.ChunkSize }
          hcs (le_of_lt hstep)
        exact ⟨this.1, fun _ => this.2 (by show a.chunkStart a.StartTime + a.ChunkSize ≠ 0; omega)⟩
      · exact ⟨hS, fun h => h⟩

/-- Projections of `Archive.Append`: the new `EndTime` is the normalised
timestamp, `StartTime` is set on first data, everything else but the chunk
list is untouched. -/
theorem append_projections (a : Archive) (v : List (String × Payload)) (ts : Int) :
    (a.Append v ts).EndTime = a.tsNorm ts ∧
    (a.Append v ts).StartTime =
      (if a.StartTime = 0 then a.tsNorm ts else a.StartTime) ∧
    (a.Append v ts).lastWrite = a.lastWrite ∧
    (a.Append v ts).Retention = a.Retention ∧
    (a.Append v ts).ChunkSize = a.ChunkSize ∧
    (a.Append v ts).Interval = a.Interval := by
  unfold Archive.Append
  cases hlc : a.lastChunk with
  | none => exact ⟨rfl, rfl, rfl, rfl, rfl, rfl⟩
  | some lc =>
      dsimp only
      split
      · exact ⟨rfl, rfl, rfl, rfl, rfl, rfl⟩
      · exact ⟨rfl, rfl, rfl, rfl, rfl, rfl⟩

/-- `Archive.Write` preserves the trace invariant and establishes the
retention bound, assuming positive chunk size and (via the invariant) that
skipped writes already satisfied it. -/
theorem write_preserves_inv (a : Archive) (hcs : 0 < a.ChunkSize)
    (hΦ : ArchiveInv a) :
    ArchiveInv ((a.Write).1) ∧
    ((a.Write).1).EndTime - ((a.Write).1).StartTime ≤ a.Retention ∧
    ((a.Write).1).Retention = a.Retention ∧
    ((a.Write).1).ChunkSize = a.ChunkSize ∧
    ((a.Write).1).Interval = a.Interval := by
  obtain ⟨hE, hS, hM, hK, hL⟩ := hΦ
  unfold Archive.Write
  split
  · rename_i hcond
    -- data advanced: chunks collapse, retention runs, lastWrite := EndTime
    set a1 : Archive := { a with chunks := match a.lastChunk with
                                            | some c => [c]
                                            | none => [] } with ha1
    have h1E : a1.EndTime = a.EndTime := rfl
    have h1S : a1.StartTime = a.StartTime := rfl
    have h1r : a1.Retention = a.Retention := rfl
    have h1c : a1.ChunkSize = a.ChunkSize := rfl
    obtain ⟨h2E, h2r, h2c, h2i, h2l, -⟩ :=
      retentionLoop_fields (a1.EndTime - a1.StartTime - a1.Retention).toNat a1
    have hbound : (a1.exerciseRetention).EndTime - (a1.exerciseRetention).StartTime ≤
        (a1.exerciseRetention).Retention := by
      unfold Archive.exerciseRetention
      exact retentionLoop_bound _ _ (by rw [h1c]; exact hcs) (Int.self_le_toNat _)
    have hstart := retentionLoop_start
      (a1.EndTime - a1.StartTime - a1.Retention).toNat a1
      (by rw [h1c]; exact hcs) (by rw [h1S]; exact hS)
    -- the final archive
    refine ⟨⟨?_, ?_, ?_, ?_, ?_⟩, ?_, ?_, ?_, ?_⟩
    · show 0 ≤ (a1.exerciseRetention).EndTime
      unfold Archive.exerciseRetention
      rw [h2E, h1E]
      exact hE
    · exact hstart.1
    · intro hz
      exfalso
      -- in this branch EndTime > lastWrite, so the archive holds data and
      -- StartTime stays nonzero unless it always was zero, in which case
      -- EndTime = 0 and lastWrite = 0 contradict EndTime > lastWrite
      by_cases hS0 : a.StartTime = 0
      · obtain ⟨hE0, hl0⟩ := hM hS0
        omega
      · exact hstart.2 (by rw [h1S]; exact hS0) hz
    · intro _
      show (a1.exerciseRetention).EndTime - (a1.exerciseRetention).StartTime ≤
        (a1.exerciseRetention).Retention
      exact hbound
    · intro _
      show (a1.exerciseRetention).EndTime - (a1.exerciseRetention).StartTime ≤
        (a1.exerciseRetention).Retention
      exact hbound
    · show (a1.exerciseRetention).EndTime - (a1.exerciseRetention).StartTime ≤ a.Retention
      unfold Archive.exerciseRetention at hbound ⊢
      rw [h2r, h1r] at hbound
      exact hbound
    · show (a1.exerciseRetention).Retention = a.Retention
      unfold Archive.exerciseRetention
      rw [h2r, h1r]
    · show (a1.exerciseRetention).ChunkSize = a.ChunkSize
      unfold Archive.exerciseRetention
      rw [h2c, h1c]
    · show (a1.exerciseRetention).Interval = a.Interval
      unfold Archive.exerciseRetention
      rw [h2i]
  · rename_i hcond
    have hEK : a.EndTime - a.StartTime ≤ a.Retention := hK (by omega)
    exact ⟨⟨hE, hS, fun hz => ⟨(hM hz).1, (hM hz).1⟩,
        fun _ => hEK, fun _ => hEK⟩, hEK, rfl, rfl, rfl⟩

/-- `Archive.Append` with a non-negative timestamp preserves the trace
invariant (and the configuration fields). -/
theorem append_preserves_inv (a : Archive) (v : List (String × Payload))
    (ts : Int) (hr : 0 < a.Interval) (hts : 0 ≤ ts) (hret : 0 ≤ a.Retention)
    (hΦ : ArchiveInv a) :
    ArchiveInv (a.Append v ts) ∧
    (a.Append v ts).Retention = a.Retention ∧
    (a.Append v ts).ChunkSize = a.ChunkSize ∧
    (a.Append v ts).Interval = a.Interval := by
  obtain ⟨hE, hS, hM, hK, hL⟩ := hΦ
  obtain ⟨pE, pS, pl, pr, pc, pi⟩ := append_projections a v ts
  have htsn : ts ≤ a.tsNorm ts := (tsNorm_facts a ts hr).2.1
  refine ⟨⟨?_, ?_, ?_, ?_, ?_⟩, pr, pc, pi⟩
  · rw [pE]; omega
  · rw [pS]; split <;> omega
  · rw [pS, pE, pl]
    split
    · intro hz
      rename_i hS0
      obtain ⟨-, hl0⟩ := hM hS0
      omega
    · rename_i hS0
      exact fun hz => absurd hz hS0
  · rw [pS, pE, pl, pr]
    split
    · omega
    · rename_i hS0
      have := hL hS0
      omega
  · rw [pS, pl, pr]
    split
    · rename_i hS0
      obtain ⟨-, hl0⟩ := hM hS0
      omega
    · rename_i hS0
      exact fun _ => hL hS0

/-- Running a concatenated trace. -/
theorem runOps_append (a : Archive) (l1 l2 : List Op) :
    runOps a (l1 ++ l2) = runOps (runOps a l1) l2 := by
  induction l1 generalizing a with
  | nil => rfl
  | cons op rest ih =>
      cases op with
      | app v ts => exact ih (a.Append v ts)
      | wr => exact ih ((a.Write).1)

/-- The trace invariant is preserved by every trace of appends (with
non-negative timestamps) and writes, and the configuration fields never
change. -/
theorem runOps_inv (ops : List Op) (a : Archive)
    (hr : 0 < a.Interval) (hcs : 0 < a.ChunkSize) (hret : 0 ≤ a.Retention)
    (hts : ∀ op ∈ ops, OpOk op) (hΦ : ArchiveInv a) :
    ArchiveInv (runOps a ops) ∧
    (runOps a ops).Retention = a.Retention ∧
    (runOps a ops).ChunkSize = a.ChunkSize ∧
    (runOps a ops).Interval = a.Interval := by
  induction ops generalizing a with
  | nil => exact ⟨hΦ, rfl, rfl, rfl⟩
  | cons op rest ih =>
      cases op with
      | app v ts =>
          obtain ⟨hΦ1, hr1, hc1, hi1⟩ := append_preserves_inv a v ts hr
            (hts (Op.app v ts) (by simp)) hret hΦ
          obtain ⟨A, B, C, D⟩ := ih (a.Append v ts) (by rw [hi1]; exact hr)
            (by rw [hc1]; exact hcs) (by rw [hr1]; exact hret)
            (fun op hop => hts op (by simp [hop])) hΦ1
          exact ⟨A, B.trans hr1, C.trans hc1, D.trans hi1⟩
      | wr =>
          obtain ⟨hΦ1, -, hr1, hc1, hi1⟩ := write_preserves_inv a hcs hΦ
          obtain ⟨A, B, C, D⟩ := ih ((a.Write).1) (by rw [hi1]; exact hr)
            (by rw [hc1]; exact hcs) (by rw [hr1]; exact hret)
            (fun op hop => hts op (by simp [hop])) hΦ1
          exact ⟨A, B.trans hr1, C.trans hc1, D.trans hi1⟩

/-- C8 (confirmed, under the configured-validity side conditions): for every
archive created with positive resolution and chunk span and non-negative
retention, and every trace of appends at non-negative (epoch) timestamps and
writes, immediately after a `Write` completes the retained window satisfies
`end_time - start_time ≤ retention + chunk_span` (in fact `≤ retention`). -/
theorem retention_bound_after_write (r ret cs : Int) (ops : List Op)
    (hr : 0 < r) (hcs : 0 < cs) (hret : 0 ≤ ret)
    (hts : ∀ op ∈ ops, OpOk op) :
    (runOps (NewArchive r ret cs) (ops ++ [Op.wr])).EndTime -
      (runOps (NewArchive r ret cs) (ops ++ [Op.wr])).StartTime ≤ ret + cs := by
  rw [runOps_append]
  obtain ⟨hΦ, hR, hC, hI⟩ := runOps_inv ops (NewArchive r ret cs) hr hcs hret hts
    ⟨le_refl 0, le_refl 0, fun _ => ⟨rfl, rfl⟩, fun _ => by
        show (0 : Int) - 0 ≤ ret; omega,
      fun hz => absurd rfl hz⟩
  obtain ⟨-, hbound, -, -, -⟩ :=
    write_preserves_inv (runOps (NewArchive r ret cs) ops) (by rw [hC]; exact hcs) hΦ
  show ((runOps (NewArchive r ret cs) ops).Write.1).EndTime -
    ((runOps (NewArchive r ret cs) ops).Write.1).StartTime ≤ ret + cs
  rw [hR, show (NewArchive r ret cs).Retention = ret from rfl] at hbound
  omega

/-- Witness for C8: one append at 50 followed by a write on a fresh archive
with resolution 1, retention 10, chunk span 100. -/
theorem retention_bound_after_write_witness :
    (runOps (NewArchive 1 10 100) ([Op.app [("v", Payload.raw 3)] 50] ++ [Op.wr])).EndTime -
      (runOps (NewArchive 1 10 100) ([Op.app [("v", Payload.raw 3)] 50] ++ [Op.wr])).StartTime ≤
      10 + 100 :=
  retention_bound_after_write 1 10 100 [Op.app [("v", Payload.raw 3)] 50]
    (by decide) (by decide) (by decide)
    (by intro op hop
        rw [List.mem_singleton] at hop
        subst hop
        show (0 : Int) ≤ 50
        decide)

/-- Unpacking a successful tag lookup: the index is in range and resolves
back to the searched name. -/
theorem findIdx_string (l : List String) (s : String) (i : Nat)
    (h : l.findIdx? (fun t => t == s) = some i) :
    i < l.length ∧ l.getD i "" = s := by
  rw [List.findIdx?_eq_some_iff_getElem] at h
  obtain ⟨hlt, hp, -⟩ := h
  refine ⟨hlt, ?_⟩
  rw [List.getD_eq_getElem?_getD, List.getElem?_eq_getElem hlt]
  simpa using hp

/-- `slotSet` with a fresh key appends. -/
theorem slotSet_append (s : Slot) (k : Nat) (v : Payload)
    (h : ∀ q ∈ s, q.1 ≠ k) : slotSet s k v = s ++ [(k, v)] := by
  unfold slotSet
  rw [if_neg]
  simp only [List.any_eq_true, beq_iff_eq, not_exists, not_and]
  exact fun q hq => h q hq

/-- Resolving slot indices below the original tag-table length is unaffected
by extending the table. -/
theorem resolve_stable (T e : List String) (acc : Slot)
    (h : ∀ q ∈ acc, q.1 < T.length) :
    acc.map (fun q => ((T ++ e).getD q.1 "", q.2)) =
      acc.map (fun q => (T.getD q.1 "", q.2)) :=
  List.map_congr_left (fun q hq => by rw [List.getD_append _ _ _ _ (h q hq)])

/-- Unrolling the fill loop: `n` copies of the fill value are appended and
`EndTime` follows the running timestamp. -/
theorem fillSteps_spec (fv : Option Slot) (n : Nat) : ∀ (c : Chunk) (ts : Int),
    (fillSteps fv c ts n).Tags = c.Tags ∧
    (fillSteps fv c ts n).StartTime = c.StartTime ∧
    (fillSteps fv c ts n).Resolution = c.Resolution ∧
    (fillSteps fv c ts n).Data = c.Data ++ List.replicate n fv ∧
    (fillSteps fv c ts n).EndTime =
      (if n = 0 then c.EndTime else ts + ((n : Int) - 1) * c.Resolution) := by
  induction n with
  | zero => exact fun c ts => ⟨rfl, rfl, rfl, by simp [fillSteps], by simp [fillSteps]⟩
  | succ n ih =>
      intro c ts
      obtain ⟨hT, hS, hR, hD, hE⟩ :=
        ih { c with Data := c.Data ++ [fv], EndTime := ts, dirty := true }
          (ts + c.Resolution)
      refine ⟨hT, hS, hR, ?_, ?_⟩
      · rw [show fillSteps fv c ts (n + 1) =
          fillSteps fv { c with Data := c.Data ++ [fv], EndTime := ts, dirty := true }
            (ts + c.Resolution) n from rfl, hD]
        rw [List.append_assoc]
        rfl
      · rw [show fillSteps fv c ts (n + 1) =
          fillSteps fv { c with Data := c.Data ++ [fv], EndTime := ts, dirty := true }
            (ts + c.Resolution) n from rfl, hE]
        rcases Nat.eq_zero_or_pos n with hn | hn
        · subst hn; simp
        · rw [if_neg (by omega), if_neg (by omega)]
          push_cast
          ring

/-- The interning fold of `chunk.derefTags`, generalised over the running
accumulator: the tag table only grows at the end, the produced slot's indices
stay in range, and resolving them through the final tag table recovers the
input pairs in order (given globally distinct keys). -/
theorem derefTags_fold (val : List (String × Payload)) :
    ∀ (c : Chunk) (acc : Slot),
    (∀ q ∈ acc, q.1 < c.Tags.length) →
    ((acc.map (fun q => c.Tags.getD q.1 "")) ++ val.map (fun p => p.1)).Nodup →
    ∃ extra : List String,
      (val.foldl
        (fun acc p =>
          match acc.1.Tags.findIdx? (fun t => t == p.1) with
          | some i => (acc.1, slotSet acc.2 i p.2)
          | none =>
              ({ acc.1 with Tags := acc.1.Tags ++ [p.1] },
               slotSet acc.2 acc.1.Tags.length p.2))
        (c, acc)).1.Tags = c.Tags ++ extra ∧
      (val.foldl
        (fun acc p =>
          match acc.1.Tags.findIdx? (fun t => t == p.1) with
          | some i => (acc.1, slotSet acc.2 i p.2)
          | none =>
              ({ acc.1 with Tags := acc.1.Tags ++ [p.1] },
               slotSet acc.2 acc.1.Tags.length p.2))
        (c, acc)).1.StartTime = c.StartTime ∧
      (val.foldl
        (fun acc p =>
          match acc.1.Tags.findIdx? (fun t => t == p.1) with
          | some i => (acc.1, slotSet acc.2 i p.2)
          | none =>
              ({ acc.1 with Tags := acc.1.Tags ++ [p.1] },
               slotSet acc.2 acc.1.Tags.length p.2))
        (c, acc)).1.EndTime = c.EndTime ∧
      (val.foldl
        (fun acc p =>
          match acc.1.Tags.findIdx? (fun t => t == p.1) with
          | some i => (acc.1, slotSet acc.2 i p.2)
          | none =>
              ({ acc.1 with Tags := acc.1.Tags ++ [p.1] },
               slotSet acc.2 acc.1.Tags.length p.2))
        (c, acc)).1.Resolution = c.Resolution ∧
      (val.foldl
        (fun acc p =>
          match acc.1.Tags.findIdx? (fun t => t == p.1) with
          | some i => (acc.1, slotSet acc.2 i p.2)
          | none =>
              ({ acc.1 with Tags := acc.1.Tags ++ [p.1] },
               slotSet acc.2 acc.1.Tags.length p.2))
        (c, acc)).1.Data = c.Data ∧
      (val.foldl
        (fun acc p =>
          match acc.1.Tags.findIdx? (fun t => t == p.1) with
          | some i => (acc.1, slotSet acc.2 i p.2)
          | none =>
              ({ acc.1 with Tags := acc.1.Tags ++ [p.1] },
               slotSet acc.2 acc.1.Tags.length p.2))
        (c, acc)).1.dirty = c.dirty ∧
      (val.foldl
        (fun acc p =>
          match acc.1.Tags.findIdx? (fun t => t == p.1) with
          | some i => (acc.1, slotSet acc.2 i p.2)
          | none =>
              ({ acc.1 with Tags := acc.1.Tags ++ [p.1] },
               slotSet acc.2 acc.1.Tags.length p.2))
        (c, acc)).2.map
          (fun q => ((val.foldl
            (fun acc p =>
              match acc.1.Tags.findIdx? (fun t => t == p.1) with
              | some i => (acc.1, slotSet acc.2 i p.2)
              | none =>
                  ({ acc.1 with Tags := acc.1.Tags ++ [p.1] },
                   slotSet acc.2 acc.1.Tags.length p.2))
            (c, acc)).1.Tags.getD q.1 "", q.2)) =
        acc.map (fun q => (c.Tags.getD q.1 "", q.2)) ++ val := by
  induction val with
  | nil =>
      intro c acc h1 _
      exact ⟨[], by simp, rfl, rfl, rfl, rfl, rfl, by simp⟩
  | cons p val ih =>
      intro c acc hrange hnodup
      simp only [List.foldl_cons]
      cases hidx : c.Tags.findIdx? (fun t => t == p.1) with
      | some i =>
          obtain ⟨hilt, hig⟩ := findIdx_string _ _ _ hidx
          have hnotin : ∀ q ∈ acc, q.1 ≠ i := by
            intro q hq hqi
            have hres : c.Tags.getD q.1 "" = p.1 := by rw [hqi, hig]
            have hmem1 : p.1 ∈ acc.map (fun q => c.Tags.getD q.1 "") :=
              hres ▸ List.mem_map_of_mem _ hq
            exact (List.disjoint_of_nodup_append hnodup) hmem1 (by simp)
          simp only [hidx]
          rw [slotSet_append _ _ _ hnotin]
          have hnodup' : (((acc ++ [(i, p.2)]).map (fun q => c.Tags.getD q.1 "")) ++
              val.map (fun q => q.1)).Nodup := by
            simp only [List.map_append, List.map_cons, List.map_nil]
            rw [hig, List.append_assoc]
            simpa using hnodup
          have hrange' : ∀ q ∈ acc ++ [(i, p.2)], q.1 < c.Tags.length := by
            intro q hq
            rcases List.mem_append.mp hq with hq | hq
            · exact hrange q hq
            · rw [List.mem_singleton] at hq
              subst hq
              exact hilt
          obtain ⟨extra, hT, hS, hE, hR, hD, hd, hmap⟩ := ih c (acc ++ [(i, p.2)])
            hrange' hnodup'
          refine ⟨extra, hT, hS, hE, hR, hD, hd, ?_⟩
          rw [hmap, List.map_append, List.append_assoc]
          have hsing : ([((i : Nat), p.2)].map (fun q => (c.Tags.getD q.1 "", q.2))) ++ val =
              p :: val := by
            simp only [List.map_cons, List.map_nil]
            show (c.Tags.getD i "", p.2) :: val = p :: val
            rw [hig]
          rw [hsing]
      | none =>
          simp only [hidx]
          have hnotin : ∀ q ∈ acc, q.1 ≠ c.Tags.length := by
            intro q hq
            exact Nat.ne_of_lt (hrange q hq)
          rw [slotSet_append _ _ _ hnotin]
          have hrange' : ∀ q ∈ acc ++ [(c.Tags.length, p.2)],
              q.1 < ({ c with Tags := c.Tags ++ [p.1] } : Chunk).Tags.length := by
            intro q hq
            rcases List.mem_append.mp hq with hq | hq
            · have := hrange q hq
              simp only [List.length_append, List.length_cons, List.length_nil]
              omega
            · rw [List.mem_singleton] at hq
              subst hq
              simp
          have hres_old : ∀ q ∈ acc,
              (c.Tags ++ [p.1]).getD q.1 "" = c.Tags.getD q.1 "" :=
            fun q hq => List.getD_append _ _ _ _ (hrange q hq)
          have hnodup' : (((acc ++ [(c.Tags.length, p.2)]).map
              (fun q => ({ c with Tags := c.Tags ++ [p.1] } : Chunk).Tags.getD q.1 "")) ++
              val.map (fun q => q.1)).Nodup := by
            simp only [List.map_append, List.map_cons, List.map_nil]
            have h1 : acc.map
                (fun q => ({ c with Tags := c.Tags ++ [p.1] } : Chunk).Tags.getD q.1 "") =
                acc.map (fun q => c.Tags.getD q.1 "") :=
              List.map_congr_left (fun q hq => hres_old q hq)
            have h2 : ((c.Tags ++ [p.1]).getD c.Tags.length "") = p.1 := by
              rw [List.getD_append_right _ _ _ _ (le_refl _)]
              simp
            rw [h1, List.append_assoc]
            show (acc.map (fun q => c.Tags.getD q.1 "") ++
              ([(c.Tags ++ [p.1]).getD c.Tags.length ""] ++ val.map (fun q => q.1))).Nodup
            rw [h2]
            exact hnodup
          obtain ⟨extra, hT, hS, hE, hR, hD, hd, hmap⟩ :=
            ih { c with Tags := c.Tags ++ [p.1] } (acc ++ [(c.Tags.length, p.2)])
              hrange' hnodup'
          refine ⟨[p.1] ++ extra, ?_, hS, hE, hR, hD, hd, ?_⟩
          · rw [hT]
            simp
          · rw [hmap, List.map_append]
            have h1 : acc.map
                (fun q => (({ c with Tags := c.Tags ++ [p.1] } : Chunk).Tags.getD q.1 "", q.2)) =
                acc.map (fun q => (c.Tags.getD q.1 "", q.2)) :=
              List.map_congr_left (fun q hq => by rw [show ({ c with Tags := c.Tags ++ [p.1] } : Chunk).Tags = c.Tags ++ [p.1] from rfl, hres_old q hq])
            rw [h1, List.append_assoc]
            have h2 : ((c.Tags ++ [p.1]).getD c.Tags.length "") = p.1 := by
              rw [List.getD_append_right _ _ _ _ (le_refl _)]
              simp
            have hsing : ([((c.Tags.length : Nat), p.2)].map
                (fun q => (({ c with Tags := c.Tags ++ [p.1] } : Chunk).Tags.getD q.1 "", q.2))) ++ val =
                p :: val := by
              simp only [List.map_cons, List.map_nil]
              show ((c.Tags ++ [p.1]).getD c.Tags.length "", p.2) :: val = p :: val
              rw [h2]
            rw [hsing]

/-- Round trip through tag interning: dereferencing a map with distinct keys
and resolving the result through the grown tag table recovers the input; all
chunk fields except the tag table are untouched. -/
theorem derefTags_roundtrip (c : Chunk) (val : List (String × Payload))
    (hkeys : (val.map (fun p => p.1)).Nodup) :
    (c.derefTags val).2.map
      (fun q => ((c.derefTags val).1.Tags.getD q.1 "", q.2)) = val ∧
    (c.derefTags val).1.StartTime = c.StartTime ∧
    (c.derefTags val).1.EndTime = c.EndTime ∧
    (c.derefTags val).1.Resolution = c.Resolution ∧
    (c.derefTags val).1.Data = c.Data ∧
    (c.derefTags val).1.dirty = c.dirty := by
  obtain ⟨extra, hT, hS, hE, hR, hD, hd, hmap⟩ :=
    derefTags_fold val c [] (by simp) (by simpa using hkeys)
  exact ⟨by simpa using hmap, hS, hE, hR, hD, hd⟩

/-- Appending a dereferenced slot at the end of the data array makes it the
`latest` map, which resolves back to the input pairs. -/
theorem append_slot_latest (c2 : Chunk) (val : List (String × Payload)) (ts : Int)
    (hkeys : (val.map (fun p => p.1)).Nodup) :
    ({ (c2.derefTags val).1 with
        Data := (c2.derefTags val).1.Data ++ [some (c2.derefTags val).2],
        EndTime := ts, dirty := true } : Chunk).latest = val := by
  obtain ⟨hmap, -, -, -, -, -⟩ := derefTags_roundtrip c2 val hkeys
  have h1 : ({ (c2.derefTags val).1 with
      Data := (c2.derefTags val).1.Data ++ [some (c2.derefTags val).2],
      EndTime := ts, dirty := true } : Chunk).latestRaw =
      some (c2.derefTags val).2 := by
    unfold Chunk.latestRaw
    simp [List.getLast?_concat]
  unfold Chunk.latest
  simp only [h1]
  exact hmap

/-- `chunk.append` strictly past the current end time records the new slot:
`latest` returns exactly the appended pairs and `EndTime` advances to the
append timestamp. -/
theorem chunk_append_latest (c : Chunk) (val : List (String × Payload)) (ts : Int)
    (hgt : c.EndTime < ts) (hkeys : (val.map (fun p => p.1)).Nodup) :
    (c.append val ts).latest = val ∧ (c.append val ts).EndTime = ts := by
  unfold Chunk.append
  rw [if_neg (by omega), if_neg (by omega)]
  exact ⟨append_slot_latest _ val ts hkeys, rfl⟩

/-- `Archive.Latest` when the chunk list ends in a known chunk. -/
theorem latest_of_concat (a : Archive) (front : List Chunk) (ck : Chunk)
    (h : a.chunks = front ++ [ck]) :
    a.Latest = (ck.latest, ck.EndTime) := by
  unfold Archive.Latest Archive.lastChunk
  rw [h, List.getLast?_concat]

/-- `Archive.Append` with a normalised timestamp past the tail chunk's end
time (and positive, so a freshly created chunk accepts it) makes the appended
pairs the archive's latest map at the normalised timestamp. -/
theorem chunks_step (a1 : Archive) (front : List Chunk) (tailc : Chunk)
    (h : a1.chunks = front ++ [tailc]) (val : List (String × Payload))
    (tsn : Int) :
    a1.chunks.dropLast ++
        [((a1.lastChunk).getD (newChunk a1.Interval 0)).append val tsn] =
      front ++ [tailc.append val tsn] := by
  unfold Archive.lastChunk
  rw [h, List.dropLast_concat, List.getLast?_concat]
  rfl

/-- `Archive.Append` with a normalised timestamp past the tail chunk's end
time (and positive, so a freshly created chunk accepts it) makes the appended
pairs the archive's latest map at the normalised timestamp. -/
theorem archive_append_latest (a : Archive) (val : List (String × Payload))
    (ts : Int) (hpos : 0 < a.tsNorm ts)
    (hgt : ∀ lc, a.lastChunk = some lc → lc.EndTime < a.tsNorm ts)
    (hkeys : (val.map (fun p => p.1)).Nodup) :
    (a.Append val ts).Latest = (val, a.tsNorm ts) := by
  unfold Archive.Append
  cases hlc : a.lastChunk with
  | none =>
      simp only [hlc]
      obtain ⟨hl, he⟩ := chunk_append_latest
        (newChunk a.Interval (a.tsNorm ts - (a.tsNorm ts).tmod a.ChunkSize))
        val (a.tsNorm ts) (by show (0 : Int) < a.tsNorm ts; exact hpos) hkeys
      rw [latest_of_concat _ []
        ((newChunk a.Interval (a.tsNorm ts - (a.tsNorm ts).tmod a.ChunkSize)).append
          val (a.tsNorm ts))
        (chunks_step
          { a with chunks := [newChunk a.Interval
              (a.tsNorm ts - (a.tsNorm ts).tmod a.ChunkSize)] }
          [] _ rfl val (a.tsNorm ts)), hl, he]
  | some lc =>
      simp only [hlc]
      split
      · obtain ⟨hl, he⟩ := chunk_append_latest
          (newChunk a.Interval (a.chunkStart (a.tsNorm ts))) val (a.tsNorm ts)
          (by show (0 : Int) < a.tsNorm ts; exact hpos) hkeys
        split
        · rw [latest_of_concat _
            (a.chunks.dropLast ++ [lc.fillTo (a.chunkStart (a.tsNorm ts))])
            ((newChunk a.Interval (a.chunkStart (a.tsNorm ts))).append val (a.tsNorm ts))
            (chunks_step
              { a with chunks :=
                  a.chunks.dropLast ++ [lc.fillTo (a.chunkStart (a.tsNorm ts))] ++
                    [newChunk a.Interval (a.chunkStart (a.tsNorm ts))] }
              _ _ rfl val (a.tsNorm ts)), hl, he]
        · rw [latest_of_concat _ a.chunks
            ((newChunk a.Interval (a.chunkStart (a.tsNorm ts))).append val (a.tsNorm ts))
            (chunks_step
              { a with chunks :=
                  a.chunks ++ [newChunk a.Interval (a.chunkStart (a.tsNorm ts))] }
              _ _ rfl val (a.tsNorm ts)), hl, he]
      · obtain ⟨hl, he⟩ := chunk_append_latest lc val (a.tsNorm ts)
          (hgt lc hlc) hkeys
        have hgetd : (a.lastChunk).getD (newChunk a.Interval 0) = lc := by
          rw [hlc]
          rfl
        rw [latest_of_concat _ a.chunks.dropLast (lc.append val (a.tsNorm ts)) (by
          show a.chunks.dropLast ++
            [((a.lastChunk).getD (newChunk a.Interval 0)).append val (a.tsNorm ts)] = _
          rw [hgetd]), hl, he]

/-- `latest()` after `add_values` reads the base archive (coarser archives
are only touched by the cascade). -/
theorem addValues_latest_eq (t : TimeSeries) (base : Archive)
    (rest : List Archive) (vals : List (String × ℚ)) (ts : Int)
    (harch : t.archives = base :: rest) :
    (t.AddValues vals ts).Latest =
      ((base.Append (vals.map (fun p => (p.1, Payload.raw p.2))) ts).Latest.1.map
        (fun p => (p.1, p.2.asRaw)),
       (base.Append (vals.map (fun p => (p.1, Payload.raw p.2))) ts).Latest.2) := by
  unfold TimeSeries.AddValues
  simp only [harch]
  unfold TimeSeries.Latest
  rfl

/-- C6 (corrected): `add_values(values, ts)` followed by `latest()` returns
exactly `values` (cast to float) at timestamp `⌈ts / base_resolution⌉ ·
base_resolution` — the normalisation rounds up — *provided* the normalised
timestamp is positive and strictly greater than the base tail chunk's end
time.  (A lesser timestamp is dropped and an equal one merges, as the
counterexample shows.) -/
theorem latest_after_add_values_amended (t : TimeSeries) (base : Archive)
    (rest : List Archive) (vals : List (String × ℚ)) (ts : Int)
    (harch : t.archives = base :: rest)
    (hr : 0 < base.Interval)
    (hkeys : (vals.map (fun p => p.1)).Nodup)
    (hpos : 0 < base.tsNorm ts)
    (hgt : ∀ lc, base.lastChunk = some lc → lc.EndTime < base.tsNorm ts) :
    (t.AddValues vals ts).Latest =
      (vals, base.Interval * ⌈(ts : ℚ) / (base.Interval : ℚ)⌉) := by
  have hkeys' : ((vals.map (fun p => (p.1, Payload.raw p.2))).map
      (fun p => p.1)).Nodup := by
    rw [List.map_map]
    exact hkeys
  have hal := archive_append_latest base
    (vals.map (fun p => (p.1, Payload.raw p.2))) ts hpos hgt hkeys'
  rw [addValues_latest_eq t base rest vals ts harch, hal]
  have hback : (vals.map (fun p => (p.1, Payload.raw p.2))).map
      (fun p => (p.1, p.2.asRaw)) = vals := by
    rw [List.map_map]
    show vals.map (fun p => (p.1, p.2)) = vals
    simp
  rw [hback, tsNorm_eq_ceil base ts hr]

/-- Witness for C6: a single sample on a fresh resolution-1 series. -/
theorem latest_after_add_values_amended_witness :
    (series1.AddValues [("val", 5)] 10).Latest =
      ([("val", 5)],
        (NewArchive 1 3600 2000).Interval *
          ⌈((10 : Int) : ℚ) / (((NewArchive 1 3600 2000).Interval : Int) : ℚ)⌉) :=
  latest_after_add_values_amended series1 (NewArchive 1 3600 2000) [] [("val", 5)] 10
    rfl (by decide) (by simp) (by decide)
    (by intro lc h
        rw [show (NewArchive 1 3600 2000).lastChunk = none from rfl] at h
        exact Option.noConfusion h)

/-- The interning fold of `chunk.derefTags` touches only the tag table. -/
theorem derefTags_preserves (val : List (String × Payload)) :
    ∀ (c : Chunk) (acc : Slot),
    (val.foldl
      (fun acc p =>
        match acc.1.Tags.findIdx? (fun t => t == p.1) with
        | some i => (acc.1, slotSet acc.2 i p.2)
        | none =>
            ({ acc.1 with Tags := acc.1.Tags ++ [p.1] },
             slotSet acc.2 acc.1.Tags.length p.2))
      (c, acc)).1.StartTime = c.StartTime ∧
    (val.foldl
      (fun acc p =>
        match acc.1.Tags.findIdx? (fun t => t == p.1) with
        | some i => (acc.1, slotSet acc.2 i p.2)
        | none =>
            ({ acc.1 with Tags := acc.1.Tags ++ [p.1] },
             slotSet acc.2 acc.1.Tags.length p.2))
      (c, acc)).1.EndTime = c.EndTime ∧
    (val.foldl
      (fun acc p =>
        match acc.1.Tags.findIdx? (fun t => t == p.1) with
        | some i => (acc.1, slotSet acc.2 i p.2)
        | none =>
            ({ acc.1 with Tags := acc.1.Tags ++ [p.1] },
             slotSet acc.2 acc.1.Tags.length p.2))
      (c, acc)).1.Resolution = c.Resolution ∧
    (val.foldl
      (fun acc p =>
        match acc.1.Tags.findIdx? (fun t => t == p.1) with
        | some i => (acc.1, slotSet acc.2 i p.2)
        | none =>
            ({ acc.1 with Tags := acc.1.Tags ++ [p.1] },
             slotSet acc.2 acc.1.Tags.length p.2))
      (c, acc)).1.Data = c.Data ∧
    (val.foldl
      (fun acc p =>
        match acc.1.Tags.findIdx? (fun t => t == p.1) with
        | some i => (acc.1, slotSet acc.2 i p.2)
        | none =>
            ({ acc.1 with Tags := acc.1.Tags ++ [p.1] },
             slotSet acc.2 acc.1.Tags.length p.2))
      (c, acc)).1.dirty = c.dirty := by
  induction val with
  | nil => exact fun c acc => ⟨rfl, rfl, rfl, rfl, rfl⟩
  | cons p val ih =>
      intro c acc
      simp only [List.foldl_cons]
      cases hidx : c.Tags.findIdx? (fun t => t == p.1) with
      | some i =>
          simp only [hidx]
          exact ih c (slotSet acc i p.2)
      | none =>
          simp only [hidx]
          exact ih { c with Tags := c.Tags ++ [p.1] } (slotSet acc c.Tags.length p.2)

/-- The interning fold of `chunk.derefTags` only appends to the tag table. -/
theorem derefTags_tags_extend (val : List (String × Payload)) :
    ∀ (c : Chunk) (acc : Slot),
    ∃ e, (val.foldl
      (fun acc p =>
        match acc.1.Tags.findIdx? (fun t => t == p.1) with
        | some i => (acc.1, slotSet acc.2 i p.2)
        | none =>
            ({ acc.1 with Tags := acc.1.Tags ++ [p.1] },
             slotSet acc.2 acc.1.Tags.length p.2))
      (c, acc)).1.Tags = c.Tags ++ e := by
  induction val with
  | nil => exact fun c acc => ⟨[], by simp⟩
  | cons p val ih =>
      intro c acc
      simp only [List.foldl_cons]
      cases hidx : c.Tags.findIdx? (fun t => t == p.1) with
      | some i =>
          simp only [hidx]
          exact ih c (slotSet acc i p.2)
      | none =>
          simp only [hidx]
          obtain ⟨e, he⟩ :=
            ih { c with Tags := c.Tags ++ [p.1] } (slotSet acc c.Tags.length p.2)
          exact ⟨p.1 :: e, by rw [he]; simp⟩

/-- Core of the gap policy of `chunk.append` on a nonempty chunk: with `n ≥ 1`
missing slots, the gap is filled with the tail-slot copy when `n < 2` and with
nulls otherwise, the new slot lands at the end, the end time advances to the
append timestamp, and start, resolution and (up to newly interned names) the
tag table are preserved. -/
theorem chunk_gap_core (c : Chunk) (val : List (String × Payload)) (ts : Int)
    (n : Nat) (hres : 0 < c.Resolution) (hend : 0 < c.EndTime) (hn : 1 ≤ n)
    (hgap : ts - c.EndTime = ((n : Int) + 1) * c.Resolution) :
    ∃ s : Slot,
      (c.append val ts).Data =
        c.Data ++
          List.replicate n (if n < 2 then c.latestRaw else none) ++ [some s] ∧
      (c.append val ts).EndTime = ts ∧
      (c.append val ts).StartTime = c.StartTime ∧
      (c.append val ts).Resolution = c.Resolution ∧
      ∃ e, (c.append val ts).Tags = c.Tags ++ e := by
  have hP : ((n : Int) + 1) * c.Resolution = (n : Int) * c.Resolution + c.Resolution := by
    ring
  have hPpos : 0 < (n : Int) * c.Resolution :=
    mul_pos (by exact_mod_cast hn) hres
  unfold Chunk.append
  rw [if_neg (by omega), if_neg (by omega)]
  have hfillcond : (¬ c.empty ∧ ts > c.EndTime + c.Resolution) := by
    constructor
    · simp only [Chunk.empty, beq_iff_eq]
      intro hcontra
      rw [hcontra] at hend
      omega
    · omega
  rw [if_pos hfillcond]
  have hnum : (ts - c.EndTime).tdiv c.Resolution = (n : Int) + 1 := by
    rw [hgap, Int.mul_tdiv_cancel _ (ne_of_gt hres)]
  have hcount : loopCount (c.EndTime + c.Resolution) ts c.Resolution = n := by
    unfold loopCount
    rw [if_pos hres]
    have harg : ts - (c.EndTime + c.Resolution) + c.Resolution - 1 =
        (c.Resolution - 1) + c.Resolution * (n : Int) := by
      have hcm : c.Resolution * (n : Int) = (n : Int) * c.Resolution :=
        mul_comm _ _
      omega
    rw [harg, Int.add_mul_ediv_left _ _ (ne_of_gt hres),
      Int.ediv_eq_zero_of_lt (by omega) (by omega)]
    simp
  have hfix : c.fillTo ts =
      fillSteps (if (n : Int) + 1 < 3 then c.latestRaw else none) c
        (c.EndTime + c.Resolution) n := by
    unfold Chunk.fillTo
    rw [hnum, hcount]
  rw [hfix]
  obtain ⟨hT, hS, hR, hD, hE⟩ :=
    fillSteps_spec (if (n : Int) + 1 < 3 then c.latestRaw else none) n c
      (c.EndTime + c.Resolution)
  have hE' : (fillSteps (if (n : Int) + 1 < 3 then c.latestRaw else none) c
      (c.EndTime + c.Resolution) n).EndTime = c.EndTime + (n : Int) * c.Resolution := by
    rw [hE, if_neg (by omega)]
    ring
  have hnotempty : ¬ ((fillSteps (if (n : Int) + 1 < 3 then c.latestRaw else none) c
      (c.EndTime + c.Resolution) n).empty ∧
      ts ≠ (fillSteps (if (n : Int) + 1 < 3 then c.latestRaw else none) c
        (c.EndTime + c.Resolution) n).StartTime) := by
    intro hco
    have := hco.1
    simp only [Chunk.empty, beq_iff_eq, hE'] at this
    omega
  simp only [if_neg hnotempty]
  obtain ⟨hS2, hE2, hR2, hD2, hd2⟩ := derefTags_preserves val
    (fillSteps (if (n : Int) + 1 < 3 then c.latestRaw else none) c
      (c.EndTime + c.Resolution) n) []
  obtain ⟨e, he⟩ := derefTags_tags_extend val
    (fillSteps (if (n : Int) + 1 < 3 then c.latestRaw else none) c
      (c.EndTime + c.Resolution) n) []
  refine ⟨((fillSteps (if (n : Int) + 1 < 3 then c.latestRaw else none) c
      (c.EndTime + c.Resolution) n).derefTags val).2, ?_, trivial,
    hS2.trans hS, hR2.trans hR, ⟨e, ?_⟩⟩
  · show (_ : Chunk).Data ++ [some _] = _
    rw [show ((fillSteps (if (n : Int) + 1 < 3 then c.latestRaw else none) c
        (c.EndTime + c.Resolution) n).derefTags val).1.Data =
        (fillSteps (if (n : Int) + 1 < 3 then c.latestRaw else none) c
          (c.EndTime + c.Resolution) n).Data from hD2, hD]
    rw [show (if (n : Int) + 1 < 3 then c.latestRaw else none) =
        (if n < 2 then c.latestRaw else none) from by
      rcases Nat.lt_or_ge n 2 with h2 | h2
      · rw [if_pos h2, if_pos (by exact_mod_cast (by omega : (n : Int) + 1 < 3))]
      · rw [if_neg (by omega), if_neg (by push_cast; omega)]]
  · have he2 : ((fillSteps (if (n : Int) + 1 < 3 then c.latestRaw else none) c
        (c.EndTime + c.Resolution) n).derefTags val).1.Tags =
        (fillSteps (if (n : Int) + 1 < 3 then c.latestRaw else none) c
          (c.EndTime + c.Resolution) n).Tags ++ e := he
    rw [hT] at he2
    exact he2

/-- C1 (corrected): for a nonempty chunk with `n ≥ 1` missing slots between
its end time and the append timestamp, the code fills forward only when
`n < 2` (the source's `numToFill = (ts − end)/res` counts `n + 1` and tests
`< 3`): a single missing slot receives a copy of the tail slot, while a gap
of two or more missing slots is filled with nulls; then the new slot is
appended and `end_time` advances to the append timestamp. -/
theorem gap_fill_amended (c : Chunk) (val : List (String × Payload)) (ts : Int)
    (n : Nat) (hres : 0 < c.Resolution) (hend : 0 < c.EndTime) (hn : 1 ≤ n)
    (hgap : ts - c.EndTime = ((n : Int) + 1) * c.Resolution) :
    ∃ s : Slot,
      (c.append val ts).Data =
        c.Data ++
          List.replicate n (if n < 2 then c.latestRaw else none) ++ [some s] ∧
      (c.append val ts).EndTime = ts := by
  obtain ⟨sl, h1, h2, -, -, -⟩ := chunk_gap_core c val ts n hres hend hn hgap
  exact ⟨sl, h1, h2⟩

/-- Witness for C1: a single missing slot (`n = 1`) after the one-sample
chunk is filled forward. -/
theorem gap_fill_amended_witness :
    ∃ s : Slot,
      (gapChunk.append [("v", Payload.raw 7)] 102).Data =
        gapChunk.Data ++
          List.replicate 1 (if 1 < 2 then gapChunk.latestRaw else none) ++ [some s] ∧
      (gapChunk.append [("v", Payload.raw 7)] 102).EndTime = 102 :=
  gap_fill_amended gapChunk [("v", Payload.raw 7)] 102 1
    (by with_unfolding_all decide) (by with_unfolding_all decide)
    (by decide) (by with_unfolding_all decide)

/-- Two chunks with equal fields are equal. -/
theorem chunk_eq_of_fields (c1 c2 : Chunk) (h1 : c1.StartTime = c2.StartTime)
    (h2 : c1.EndTime = c2.EndTime) (h3 : c1.Resolution = c2.Resolution)
    (h4 : c1.Data = c2.Data) (h5 : c1.Tags = c2.Tags) (h6 : c1.dirty = c2.dirty) :
    c1 = c2 := by
  cases c1
  cases c2
  simp_all

/-- Two archives with equal fields are equal. -/
theorem archive_eq_of_fields (a1 a2 : Archive) (h1 : a1.Interval = a2.Interval)
    (h2 : a1.ChunkSize = a2.ChunkSize) (h3 : a1.Retention = a2.Retention)
    (h4 : a1.StartTime = a2.StartTime) (h5 : a1.EndTime = a2.EndTime)
    (h6 : a1.chunks = a2.chunks) (h7 : a1.lastWrite = a2.lastWrite) :
    a1 = a2 := by
  cases a1
  cases a2
  simp_all

/-- Euclidean division of a value inside `[CS*q, CS*q + CS)` yields `q`. -/
theorem ediv_interval (x CS q : Int) (hCS : 0 < CS) (h1 : CS * q ≤ x)
    (h2 : x < CS * q + CS) : x / CS = q := by
  have hx : x = (x - CS * q) + CS * q := by ring
  rw [hx, Int.add_mul_ediv_left _ _ (ne_of_gt hCS),
    Int.ediv_eq_zero_of_lt (by omega) (by omega)]
  ring

/-- Truncated division of a non-negative value inside `[CS*q, CS*q + CS)`. -/
theorem tdiv_interval (x CS q : Int) (hCS : 0 < CS) (hx : 0 ≤ x)
    (h1 : CS * q ≤ x) (h2 : x < CS * q + CS) : x.tdiv CS = q := by
  rw [Int.tdiv_eq_ediv hx (le_of_lt hCS)]
  exact ediv_interval x CS q hCS h1 h2

/-- Truncated remainder of a non-negative value inside `[CS*q, CS*q + CS)`. -/
theorem tmod_interval (x CS q : Int) (hCS : 0 < CS) (hx : 0 ≤ x)
    (h1 : CS * q ≤ x) (h2 : x < CS * q + CS) : x.tmod CS = x - CS * q := by
  have hd := Int.tdiv_add_tmod x CS
  rw [tdiv_interval x CS q hCS hx h1 h2] at hd
  omega

/-- A chunk start `ts - ts.tmod CS` is the exact multiple `CS * (ts.tdiv CS)`. -/
theorem sub_tmod_eq_mul_tdiv (ts CS : Int) :
    ts - ts.tmod CS = CS * (ts.tdiv CS) := by
  have := Int.tdiv_add_tmod ts CS
  omega

/-- The loop count of an aligned non-negative span is the exact quotient. -/
theorem loopCount_dvd (st ts r : Int) (hr : 0 < r) (hdvd : r ∣ (ts - st))
    (hle : st ≤ ts) : loopCount st ts r = ((ts - st).tdiv r).toNat := by
  obtain ⟨m, hm⟩ := hdvd
  have hm0 : 0 ≤ m := by
    by_contra hneg
    push_neg at hneg
    have h2 : r * m ≤ r * (-1) :=
      mul_le_mul_of_nonneg_left (by omega) (le_of_lt hr)
    have h3 : r * (-1) = -r := by ring
    omega
  unfold loopCount
  rw [if_pos hr]
  have h1 : ts - st + r - 1 = (r - 1) + r * m := by omega
  rw [h1, Int.add_mul_ediv_left _ _ (ne_of_gt hr),
    Int.ediv_eq_zero_of_lt (by omega) (by omega), hm,
    Int.mul_tdiv_cancel_left _ (ne_of_gt hr)]
  simp

/-- `tsNorm` always lands on a multiple of the interval. -/
theorem dvd_tsNorm (a : Archive) (ts : Int) : a.Interval ∣ a.tsNorm ts := by
  unfold Archive.tsNorm
  dsimp only
  have h1 : ts - ts.tmod a.Interval = a.Interval * (ts.tdiv a.Interval) :=
    sub_tmod_eq_mul_tdiv ts a.Interval
  split
  · exact ⟨ts.tdiv a.Interval + 1, by rw [mul_add, mul_one]; omega⟩
  · exact ⟨ts.tdiv a.Interval, by omega⟩

/-- The splice fold preserves length. -/
theorem splice_fold_length (ticks : List (Option Payload)) (m : Nat) :
    ∀ (xs : List (Option Payload)),
    ((List.range m).foldl (fun ys j => ys.set j (ticks.getD j none)) xs).length =
      xs.length := by
  induction m with
  | zero => intro xs; rfl
  | succ m ih =>
      intro xs
      rw [List.range_succ, List.foldl_append, List.foldl_cons, List.foldl_nil,
        List.length_set, ih xs]

/-- Pointwise description of the splice fold at offset zero. -/
theorem splice_fold_getElem (ticks : List (Option Payload)) (m : Nat) :
    ∀ (xs : List (Option Payload)) (i : Nat),
    ((List.range m).foldl (fun ys j => ys.set j (ticks.getD j none)) xs)[i]? =
      if i < m ∧ i < xs.length then some (ticks.getD i none) else xs[i]? := by
  induction m with
  | zero =>
      intro xs i
      rw [if_neg (by omega)]
      rfl
  | succ m ih =>
      intro xs i
      rw [List.range_succ, List.foldl_append, List.foldl_cons, List.foldl_nil,
        List.getElem?_set, splice_fold_length, ih xs i]
      by_cases him : m = i
      · subst him
        rw [if_pos rfl]
        by_cases hlen : m < xs.length
        · rw [if_pos hlen, if_pos ⟨by omega, hlen⟩]
        · rw [if_neg hlen, if_neg (by omega),
            List.getElem?_eq_none (by omega)]
      · rw [if_neg him]
        by_cases hcase : i < m ∧ i < xs.length
        · rw [if_pos hcase, if_pos ⟨by omega, hcase.2⟩]
        · rw [if_neg hcase, if_neg (by omega)]

/-- Splicing a full-length tick list into a null row at offset zero yields the
tick list itself. -/
theorem splice_replicate (ticks : List (Option Payload)) (n : Nat)
    (hn : ticks.length = n) :
    splice (List.replicate n (none : Option Payload)) 0 ticks = ticks := by
  unfold splice
  simp only [Nat.zero_add]
  apply List.ext_getElem?
  intro i
  rw [splice_fold_getElem, List.length_replicate]
  by_cases hi : i < n
  · rw [if_pos ⟨by omega, hi⟩, List.getD_eq_getElem?_getD,
      List.getElem?_eq_getElem (show i < ticks.length by omega)]
    rfl
  · rw [if_neg (by omega), List.getElem?_replicate, if_neg hi,
      List.getElem?_eq_none (show ticks.length ≤ i by omega)]

/-- `getD` of a replicate of nulls is null. -/
theorem getD_replicate_none (p i : Nat) :
    (List.replicate p (none : Option Slot)).getD i none = none := by
  rw [List.getD_eq_getElem?_getD, List.getElem?_replicate]
  split
  · rfl
  · rfl

/-- `slotAt` reads the indexed slot when the query time is aligned in range. -/
theorem slotAt_eq_getD (c : Chunk) (t : Int) (j : Nat) (hr : 0 < c.Resolution)
    (ht : t - c.StartTime = (j : Int) * c.Resolution) (hj : j < c.Data.length) :
    c.slotAt t = c.Data.getD j none := by
  unfold Chunk.slotAt
  dsimp only
  rw [ht, Int.mul_tdiv_cancel _ (ne_of_gt hr),
    if_pos ⟨Int.natCast_nonneg j, by exact_mod_cast hj⟩]
  simp

/-- `slotAt` is null outside the data range. -/
theorem slotAt_none_out (c : Chunk) (t : Int)
    (h : (t - c.StartTime).tdiv c.Resolution < 0 ∨
      (c.Data.length : Int) ≤ (t - c.StartTime).tdiv c.Resolution) :
    c.slotAt t = none := by
  unfold Chunk.slotAt
  dsimp only
  rw [if_neg (by omega)]

/-- The interning fold of `chunk.derefTags` depends only on the tag table:
chunks with equal tags produce equal slots and equal final tag tables. -/
theorem derefTags_tags_only (val : List (String × Payload)) :
    ∀ (c c' : Chunk) (acc : Slot), c.Tags = c'.Tags →
    (val.foldl
      (fun acc p =>
        match acc.1.Tags.findIdx? (fun t => t == p.1) with
        | some i => (acc.1, slotSet acc.2 i p.2)
        | none =>
            ({ acc.1 with Tags := acc.1.Tags ++ [p.1] },
             slotSet acc.2 acc.1.Tags.length p.2))
      (c, acc)).2 =
      (val.foldl
        (fun acc p =>
          match acc.1.Tags.findIdx? (fun t => t == p.1) with
          | some i => (acc.1, slotSet acc.2 i p.2)
          | none =>
              ({ acc.1 with Tags := acc.1.Tags ++ [p.1] },
               slotSet acc.2 acc.1.Tags.length p.2))
        (c', acc)).2 ∧
    (val.foldl
      (fun acc p =>
        match acc.1.Tags.findIdx? (fun t => t == p.1) with
        | some i => (acc.1, slotSet acc.2 i p.2)
        | none =>
            ({ acc.1 with Tags := acc.1.Tags ++ [p.1] },
             slotSet acc.2 acc.1.Tags.length p.2))
      (c, acc)).1.Tags =
      (val.foldl
        (fun acc p =>
          match acc.1.Tags.findIdx? (fun t => t == p.1) with
          | some i => (acc.1, slotSet acc.2 i p.2)
          | none =>
              ({ acc.1 with Tags := acc.1.Tags ++ [p.1] },
               slotSet acc.2 acc.1.Tags.length p.2))
        (c', acc)).1.Tags := by
  induction val with
  | nil => exact fun c c' acc h => ⟨rfl, h⟩
  | cons p val ih =>
      intro c c' acc h
      simp only [List.foldl_cons]
      cases hidx : c.Tags.findIdx? (fun t => t == p.1) with
      | some i =>
          have hidx' : c'.Tags.findIdx? (fun t => t == p.1) = some i := h ▸ hidx
          simp only [hidx, hidx']
          exact ih c c' (slotSet acc i p.2) h
      | none =>
          have hidx' : c'.Tags.findIdx? (fun t => t == p.1) = none := h ▸ hidx
          simp only [hidx, hidx']
          rw [h]
          exact ih { c with Tags := c'.Tags ++ [p.1] }
            { c' with Tags := c'.Tags ++ [p.1] }
            (slotSet acc c'.Tags.length p.2) rfl

/-- `chunk.derefTags` touches only the tag table. -/
theorem derefTags_fields (c : Chunk) (val : List (String × Payload)) :
    (c.derefTags val).1.StartTime = c.StartTime ∧
    (c.derefTags val).1.EndTime = c.EndTime ∧
    (c.derefTags val).1.Resolution = c.Resolution ∧
    (c.derefTags val).1.Data = c.Data ∧
    (c.derefTags val).1.dirty = c.dirty :=
  derefTags_preserves val c []

/-- `chunk.derefTags` only appends to the tag table. -/
theorem derefTags_grows (c : Chunk) (val : List (String × Payload)) :
    ∃ e, (c.derefTags val).1.Tags = c.Tags ++ e :=
  derefTags_tags_extend val c []

/-- Chunks with equal tag tables dereference a value map identically. -/
theorem derefTags_eq_of_tags (c c' : Chunk) (val : List (String × Payload))
    (h : c.Tags = c'.Tags) :
    (c.derefTags val).2 = (c'.derefTags val).2 ∧
    (c.derefTags val).1.Tags = (c'.derefTags val).1.Tags :=
  derefTags_tags_only val c c' [] h

/-- `chunk.append` on a fresh chunk with an aligned timestamp at or past the
chunk start: leading nulls up to the slot index, then the dereferenced slot. -/
theorem chunk_append_empty (r st : Int) (val : List (String × Payload)) (ts : Int)
    (hr : 0 < r) (hdvd : r ∣ (ts - st)) (hge : st ≤ ts) (hpos : 0 < ts) :
    (newChunk r st).append val ts =
      { StartTime := st, EndTime := ts, Resolution := r
        Data := List.replicate ((ts - st).tdiv r).toNat (none : Option Slot) ++
          [some ((newChunk r st).derefTags val).2]
        Tags := ((newChunk r st).derefTags val).1.Tags
        dirty := true } := by
  unfold Chunk.append
  rw [if_neg (show ¬ ts < (newChunk r st).EndTime from by
        show ¬ ts < (0 : Int); omega),
    if_neg (show ¬ ts = (newChunk r st).EndTime from by
        show ¬ ts = (0 : Int); omega),
    if_neg (show ¬ (¬ (newChunk r st).empty ∧
        ts > (newChunk r st).EndTime + (newChunk r st).Resolution) from
      fun hco => hco.1 rfl)]
  by_cases hts : ts = (newChunk r st).StartTime
  · have hprep : ¬ ((newChunk r st).empty ∧ ts ≠ (newChunk r st).StartTime) :=
      fun hco => hco.2 hts
    simp only [if_neg hprep]
    obtain ⟨hS, hE, hR, hD, hd⟩ := derefTags_fields (newChunk r st) val
    apply chunk_eq_of_fields
    · exact hS
    · rfl
    · exact hR
    · show ((newChunk r st).derefTags val).1.Data ++
        [some ((newChunk r st).derefTags val).2] = _
      rw [hD]
      have hts' : ts = st := hts
      rw [hts']
      simp [newChunk]
    · rfl
    · rfl
  · have hprep : ((newChunk r st).empty ∧ ts ≠ (newChunk r st).StartTime) :=
      ⟨rfl, hts⟩
    simp only [if_pos hprep]
    have hpre : loopCount (newChunk r st).StartTime ts (newChunk r st).Resolution =
        ((ts - st).tdiv r).toNat := by
      show loopCount st ts r = _
      exact loopCount_dvd st ts r hr hdvd hge
    obtain ⟨hS, hE, hR, hD, hd⟩ := derefTags_fields
      { newChunk r st with
        Data := (newChunk r st).Data ++
          List.replicate (loopCount (newChunk r st).StartTime ts
            (newChunk r st).Resolution) none } val
    obtain ⟨hslot, htags⟩ := derefTags_eq_of_tags
      { newChunk r st with
        Data := (newChunk r st).Data ++
          List.replicate (loopCount (newChunk r st).StartTime ts
            (newChunk r st).Resolution) none }
      (newChunk r st) val rfl
    apply chunk_eq_of_fields
    · exact hS
    · rfl
    · exact hR
    · show (_ : Chunk).Data ++ [some _] = _
      rw [hD, hslot]
      show (newChunk r st).Data ++
        List.replicate (loopCount (newChunk r st).StartTime ts
          (newChunk r st).Resolution) none ++ [some _] = _
      rw [hpre]
      simp [newChunk]
    · exact htags
    · rfl

/-- Fresh-chunk append of a single-signal sample interns the signal as tag 0. -/
theorem chunk_append_empty_single (r st : Int) (name : String) (pv : Payload)
    (ts : Int) (hr : 0 < r) (hdvd : r ∣ (ts - st)) (hge : st ≤ ts)
    (hpos : 0 < ts) :
    (newChunk r st).append [(name, pv)] ts =
      { StartTime := st, EndTime := ts, Resolution := r
        Data := List.replicate ((ts - st).tdiv r).toNat (none : Option Slot) ++
          [some [(0, pv)]]
        Tags := [name], dirty := true } := by
  rw [chunk_append_empty r st [(name, pv)] ts hr hdvd hge hpos]
  have h1 : ((newChunk r st).derefTags [(name, pv)]).2 = [(0, pv)] := by
    with_unfolding_all rfl
  have h2 : ((newChunk r st).derefTags [(name, pv)]).1.Tags = [name] := by
    with_unfolding_all rfl
  rw [h1, h2]

/-- Fresh-chunk append of an empty value map (the junk cascade append). -/
theorem chunk_append_empty_nil (r st ts : Int) (hr : 0 < r)
    (hdvd : r ∣ (ts - st)) (hge : st ≤ ts) (hpos : 0 < ts) :
    (newChunk r st).append [] ts =
      { StartTime := st, EndTime := ts, Resolution := r
        Data := List.replicate ((ts - st).tdiv r).toNat (none : Option Slot) ++
          [some ([] : Slot)]
        Tags := [], dirty := true } := by
  rw [chunk_append_empty r st [] ts hr hdvd hge hpos]
  with_unfolding_all rfl

/-- `chunk.append` strictly past the end of a nonempty chunk only appends to
the data array: start, resolution and (up to newly interned names) the tag
table are preserved, and the end time advances to the append timestamp. -/
theorem chunk_append_extends (c : Chunk) (val : List (String × Payload)) (ts : Int)
    (hres : 0 < c.Resolution) (hend : 0 < c.EndTime) (hgt : c.EndTime < ts) :
    ∃ rest2, (c.append val ts).Data = c.Data ++ rest2 ∧
      (c.append val ts).EndTime = ts ∧
      (c.append val ts).StartTime = c.StartTime ∧
      (c.append val ts).Resolution = c.Resolution ∧
      ∃ e, (c.append val ts).Tags = c.Tags ++ e := by
  unfold Chunk.append
  rw [if_neg (by omega), if_neg (by omega)]
  by_cases hfill : ¬ (c.empty = true) ∧ ts > c.EndTime + c.Resolution
  · rw [if_pos hfill]
    have hfix : c.fillTo ts =
        fillSteps (if (ts - c.EndTime).tdiv c.Resolution < 3 then c.latestRaw else none)
          c (c.EndTime + c.Resolution)
          (loopCount (c.EndTime + c.Resolution) ts c.Resolution) := rfl
    rw [hfix]
    obtain ⟨hT, hS, hR, hD, hE⟩ :=
      fillSteps_spec (if (ts - c.EndTime).tdiv c.Resolution < 3 then c.latestRaw else none)
        (loopCount (c.EndTime + c.Resolution) ts c.Resolution) c
        (c.EndTime + c.Resolution)
    have hEpos : 0 < (fillSteps
        (if (ts - c.EndTime).tdiv c.Resolution < 3 then c.latestRaw else none)
        c (c.EndTime + c.Resolution)
        (loopCount (c.EndTime + c.Resolution) ts c.Resolution)).EndTime := by
      rw [hE]
      split
      · exact hend
      · rename_i hN
        have hNr : 0 ≤ ((loopCount (c.EndTime + c.Resolution) ts c.Resolution : Int) - 1) *
            c.Resolution := by
          apply mul_nonneg _ (le_of_lt hres)
          have : 1 ≤ (loopCount (c.EndTime + c.Resolution) ts c.Resolution : Int) := by
            exact_mod_cast Nat.one_le_iff_ne_zero.mpr hN
          omega
        omega
    have hprep : ¬ ((fillSteps
        (if (ts - c.EndTime).tdiv c.Resolution < 3 then c.latestRaw else none)
        c (c.EndTime + c.Resolution)
        (loopCount (c.EndTime + c.Resolution) ts c.Resolution)).empty ∧
        ts ≠ (fillSteps
          (if (ts - c.EndTime).tdiv c.Resolution < 3 then c.latestRaw else none)
          c (c.EndTime + c.Resolution)
          (loopCount (c.EndTime + c.Resolution) ts c.Resolution)).StartTime) := by
      intro hco
      have h1 := hco.1
      simp only [Chunk.empty, beq_iff_eq] at h1
      omega
    simp only [if_neg hprep]
    obtain ⟨hS2, hE2, hR2, hD2, hd2⟩ := derefTags_fields
      (fillSteps (if (ts - c.EndTime).tdiv c.Resolution < 3 then c.latestRaw else none)
        c (c.EndTime + c.Resolution)
        (loopCount (c.EndTime + c.Resolution) ts c.Resolution)) val
    obtain ⟨e, he⟩ := derefTags_grows
      (fillSteps (if (ts - c.EndTime).tdiv c.Resolution < 3 then c.latestRaw else none)
        c (c.EndTime + c.Resolution)
        (loopCount (c.EndTime + c.Resolution) ts c.Resolution)) val
    refine ⟨List.replicate (loopCount (c.EndTime + c.Resolution) ts c.Resolution)
        (if (ts - c.EndTime).tdiv c.Resolution < 3 then c.latestRaw else none) ++
        [some ((fillSteps
          (if (ts - c.EndTime).tdiv c.Resolution < 3 then c.latestRaw else none)
          c (c.EndTime + c.Resolution)
          (loopCount (c.EndTime + c.Resolution) ts c.Resolution)).derefTags val).2],
      ?_, trivial, hS2.trans hS, hR2.trans hR, ⟨e, he.trans (by rw [hT])⟩⟩
    show (_ : Chunk).Data ++ [some _] = _
    rw [hD2, hD, List.append_assoc]
  · rw [if_neg hfill]
    have hprep : ¬ (c.empty ∧ ts ≠ c.StartTime) := by
      intro hco
      have h1 := hco.1
      simp only [Chunk.empty, beq_iff_eq] at h1
      omega
    simp only [if_neg hprep]
    obtain ⟨hS2, hE2, hR2, hD2, hd2⟩ := derefTags_fields c val
    obtain ⟨e, he⟩ := derefTags_grows c val
    exact ⟨[some ((c.derefTags val).2)],
      by show (_ : Chunk).Data ++ [some _] = _; rw [hD2], trivial, hS2, hR2, ⟨e, he⟩⟩

/-- The column of the first `j` window values is all-null when those values
are null. -/
theorem map_none_eq_replicate (l j : Nat) (f : Nat → Option Payload)
    (h : ∀ i, i < j → f i = none) :
    (List.range l).map (fun i => if i < j then f i else none) =
      List.replicate l (none : Option Payload) := by
  apply List.ext_getElem?
  intro i
  rw [List.getElem?_map, List.getElem?_replicate]
  by_cases hi : i < l
  · rw [List.getElem?_range hi, if_pos hi, Option.map_some']
    congr 1
    by_cases hij : i < j
    · rw [if_pos hij, h i hij]
    · rw [if_neg hij]
  · rw [if_neg hi, List.getElem?_eq_none (by rw [List.length_range]; omega)]
    rfl

/-- Setting index `j` of the column built from the first `j` window values
extends it to the first `j + 1` values. -/
theorem map_set_step (l j : Nat) (f : Nat → Option Payload) (v : Payload)
    (hj : j < l) (hfj : f j = some v) :
    ((List.range l).map (fun i => if i < j then f i else none)).set j (some v) =
      (List.range l).map (fun i => if i < j + 1 then f i else none) := by
  apply List.ext_getElem?
  intro i
  rw [List.getElem?_set]
  by_cases hij : j = i
  · subst hij
    rw [if_pos rfl, List.length_map, List.length_range, if_pos hj,
      List.getElem?_map, List.getElem?_range hj, Option.map_some',
      if_pos (by omega), hfj]
  · rw [if_neg hij, List.getElem?_map, List.getElem?_map]
    by_cases hi : i < l
    · rw [List.getElem?_range hi, Option.map_some', Option.map_some']
      congr 1
      by_cases hij2 : i < j
      · rw [if_pos hij2, if_pos (by omega)]
      · rw [if_neg hij2, if_neg (by omega)]
    · rw [List.getElem?_eq_none (by rw [List.length_range]; omega)]
      rfl

/-- The map built by `chunk.getData`'s fold when a single signal interned as
tag 0 occupies the window according to `f`: after `j` iterations it is empty
if the first `j` window slots are all null, and otherwise a single column
holding the first `j` values. -/
theorem getData_fold_aux (c : Chunk) (s : Int) (f : Nat → Option Payload) (l : Nat)
    (hf : ∀ i, i < l → c.slotAt (s + (i : Int) * c.Resolution) =
      (f i).map (fun v => [(0, v)])) :
    ∀ j, j ≤ l →
    (List.range j).foldl
      (fun acc (i : Nat) =>
        match c.slotAt (s + (i : Int) * c.Resolution) with
        | none => acc
        | some tick => tick.foldl (fun d p => dataSet d l p.1 i p.2) acc)
      [] =
    (if ∀ i, i < j → f i = none then []
     else [(0, (List.range l).map (fun i => if i < j then f i else none))]) := by
  intro j
  induction j with
  | zero =>
      intro _
      rw [if_pos (by omega)]
      rfl
  | succ j ih =>
      intro hj
      rw [List.range_succ, List.foldl_append, List.foldl_cons, List.foldl_nil,
        ih (by omega), hf j (by omega)]
      cases hfj : f j with
      | none =>
          rw [Option.map_none']
          show (if ∀ i, i < j → f i = none then ([] : List (Nat × List (Option Payload)))
            else [(0, (List.range l).map (fun i => if i < j then f i else none))]) = _
          have hiff : (∀ i, i < j + 1 → f i = none) ↔ (∀ i, i < j → f i = none) := by
            constructor
            · exact fun h i hi => h i (by omega)
            · intro h i hi
              rcases Nat.lt_or_ge i j with h2 | h2
              · exact h i h2
              · have h3 : i = j := by omega
                rw [h3, hfj]
          rw [if_congr hiff.symm rfl rfl]
          by_cases hall : ∀ i, i < j + 1 → f i = none
          · rw [if_pos hall, if_pos hall]
          · rw [if_neg hall, if_neg hall]
            congr 2
            apply List.map_congr_left
            intro i hi
            by_cases hij : i < j
            · rw [if_pos hij, if_pos (by omega)]
            · by_cases hij2 : i < j + 1
              · have h3 : i = j := by omega
                rw [if_neg hij, if_pos hij2, h3, hfj]
              · rw [if_neg hij, if_neg hij2]
      | some v =>
          rw [Option.map_some']
          show ([(0, v)] : Slot).foldl (fun d p => dataSet d l p.1 j p.2)
            (if ∀ i, i < j → f i = none then []
             else [(0, (List.range l).map (fun i => if i < j then f i else none))]) = _
          rw [List.foldl_cons, List.foldl_nil]
          have hnall : ¬ (∀ i, i < j + 1 → f i = none) := by
            intro hco
            rw [hco j (by omega)] at hfj
            exact Option.noConfusion hfj
          rw [if_neg hnall]
          by_cases hall : ∀ i, i < j → f i = none
          · rw [if_pos hall]
            have hds : dataSet [] l 0 j v =
                [(0, (List.replicate l (none : Option Payload)).set j (some v))] := rfl
            rw [hds, ← map_none_eq_replicate l j f hall,
              map_set_step l j f v (by omega) hfj]
          · rw [if_neg hall]
            have hds : dataSet
                [(0, (List.range l).map (fun i => if i < j then f i else none))]
                l 0 j v =
                [(0, ((List.range l).map (fun i => if i < j then f i else none)).set
                  j (some v))] := rfl
            rw [hds, map_set_step l j f v (by omega) hfj]

/-- `chunk.getData` over a window of null slots returns no columns. -/
theorem chunk_getData_none (c : Chunk) (s e : Int)
    (h : ∀ i, i < ((e - s).tdiv c.Resolution).toNat →
      c.slotAt (s + (i : Int) * c.Resolution) = none) :
    (c.getData s e).1 = [] := by
  unfold Chunk.getData
  dsimp only
  rw [getData_fold_aux c s (fun _ => none) (((e - s).tdiv c.Resolution).toNat)
    (fun i hi => by rw [h i hi]; rfl) (((e - s).tdiv c.Resolution).toNat)
    (le_refl _), if_pos (fun i _ => rfl)]
  rfl

/-- `chunk.getData` over a window whose slots hold a single signal interned as
tag 0 according to `f` (with at least one non-null window slot) returns one
column, keyed by the chunk's first tag name, holding the window values. -/
theorem chunk_getData_single (c : Chunk) (s e : Int) (f : Nat → Option Payload)
    (hf : ∀ i, i < ((e - s).tdiv c.Resolution).toNat →
      c.slotAt (s + (i : Int) * c.Resolution) = (f i).map (fun v => [(0, v)]))
    (hex : ∃ i, i < ((e - s).tdiv c.Resolution).toNat ∧ f i ≠ none) :
    (c.getData s e).1 =
      [(c.Tags.getD 0 "",
        (List.range (((e - s).tdiv c.Resolution).toNat)).map f)] := by
  unfold Chunk.getData
  dsimp only
  rw [getData_fold_aux c s f (((e - s).tdiv c.Resolution).toNat) hf
    (((e - s).tdiv c.Resolution).toNat) (le_refl _),
    if_neg (by
      obtain ⟨i, hi, hne⟩ := hex
      intro hall
      exact hne (hall i hi))]
  unfold Chunk.resolveTags
  rw [List.map_cons, List.map_nil]
  have hm : (List.range (((e - s).tdiv c.Resolution).toNat)).map
      (fun i => if i < ((e - s).tdiv c.Resolution).toNat then f i else none) =
      (List.range (((e - s).tdiv c.Resolution).toNat)).map f :=
    List.map_congr_left (fun i hi => by rw [if_pos (List.mem_range.mp hi)])
  rw [hm]

/-- An index below the truncated quotient stays a full step short of the
bound. -/
theorem mul_le_of_lt_tdiv (x r : Int) (i : Nat) (hr : 0 < r)
    (hi : (i : Int) < x.tdiv r) : (i : Int) * r ≤ x - r := by
  have hx : 0 ≤ x := by
    by_contra hneg
    push_neg at hneg
    have h1 := Int.neg_tdiv x r
    have h2 : 0 ≤ (-x).tdiv r := Int.tdiv_nonneg (by omega) (le_of_lt hr)
    have h3 : 0 ≤ (i : Int) := Int.natCast_nonneg i
    omega
  rw [Int.tdiv_eq_ediv hx (le_of_lt hr)] at hi
  have h3 : ((i : Int) + 1) ≤ x / r := by omega
  have h4 : ((i : Int) + 1) * r ≤ x := (Int.le_ediv_iff_mul_le hr).mp h3
  have h5 : ((i : Int) + 1) * r = (i : Int) * r + r := by ring
  omega

/-- `Archive.GetData` returns an empty map when every cached chunk reads
empty on every aligned subwindow of the normalised range. -/
theorem archive_getData_empty (a : Archive) (s e : Int)
    (hCS : a.Interval ∣ a.ChunkSize)
    (h : ∀ c, c ∈ a.chunks →
      ∀ cs ce, a.tsNorm s ≤ cs → ce ≤ a.tsNorm e →
        a.Interval ∣ (cs - a.tsNorm s) → (c.getData cs ce).1 = []) :
    (a.GetData s e).1 = [] := by
  unfold Archive.GetData
  dsimp only
  refine @List.foldlRecOn (List (String × List (Option Payload)) × Int) Int
    (fun p => p.1 = []) _ _ (([], 0) : List (String × List (Option Payload)) × Int)
    rfl ?_
  intro acc hacc j hj
  dsimp only
  cases hgc : a.getChunkByStartTime
      (a.chunkStart (a.tsNorm s) + j * a.ChunkSize) with
  | none =>
      simp only [hgc]
      exact hacc
  | some c =>
      simp only [hgc]
      have hmem : c ∈ a.chunks := List.mem_of_find?_eq_some hgc
      have hj0 : 0 ≤ j := by
        have h1 := hj
        simp at h1
        obtain ⟨i, -, hie⟩ := h1
        rw [hie]
        exact Int.natCast_nonneg i
      have htm : a.Interval ∣ (a.tsNorm s).tmod a.ChunkSize := by
        have h1 : (a.tsNorm s).tmod a.ChunkSize =
            a.tsNorm s - a.ChunkSize * ((a.tsNorm s).tdiv a.ChunkSize) := by
          have := sub_tmod_eq_mul_tdiv (a.tsNorm s) a.ChunkSize
          omega
        rw [h1]
        exact dvd_sub (dvd_tsNorm a s) (hCS.mul_right _)
      have hempty : (c.getData
          (if a.chunkStart (a.tsNorm s) + j * a.ChunkSize < a.tsNorm s
            then a.tsNorm s
            else a.chunkStart (a.tsNorm s) + j * a.ChunkSize)
          (if a.chunkStart (a.tsNorm s) + j * a.ChunkSize + a.ChunkSize >
              a.tsNorm e
            then a.tsNorm e
            else a.chunkStart (a.tsNorm s) + j * a.ChunkSize +
              a.ChunkSize)).1 = [] := by
        apply h c hmem
        · split
          · exact le_refl _
          · rename_i hlt
            omega
        · split
          · exact le_refl _
          · rename_i hlt
            omega
        · split
          · have h0 : a.tsNorm s - a.tsNorm s = 0 := by ring
            rw [h0]
            exact dvd_zero _
          · have h2 : a.chunkStart (a.tsNorm s) + j * a.ChunkSize -
                a.tsNorm s =
                j * a.ChunkSize - (a.tsNorm s).tmod a.ChunkSize := by
              unfold Archive.chunkStart
              ring
            rw [h2]
            exact dvd_sub (hCS.mul_left _) htm
      rw [hempty]
      exact hacc

/-- `Archive.GetData` over an aligned window contained in the archive's single
cached chunk returns exactly that chunk's single-column read. -/
theorem archive_getData_one_chunk (a : Archive) (c : Chunk) (s e : Int)
    (key : String) (col : List (Option Payload))
    (hchunks : a.chunks = [c]) (hCSpos : 0 < a.ChunkSize)
    (hs : a.Interval ∣ s) (he : a.Interval ∣ e) (hs0 : 0 ≤ s)
    (hcs : a.chunkStart s = c.StartTime)
    (hse : s < e) (hee : e ≤ c.StartTime + a.ChunkSize)
    (hdata : (c.getData s e).1 = [(key, col)])
    (hlen : col.length = ((e - s).tdiv a.Interval).toNat) :
    (a.GetData s e).1 = [(key, col)] := by
  unfold Archive.GetData
  rw [Archive.tsNorm_of_dvd a s hs, Archive.tsNorm_of_dvd a e he]
  dsimp only
  have hXle : a.chunkStart s ≤ s := by
    unfold Archive.chunkStart
    have := Int.tmod_nonneg a.ChunkSize hs0
    omega
  have hcw : loopCount (a.chunkStart s) e a.ChunkSize = 1 := by
    unfold loopCount
    rw [if_pos hCSpos,
      ediv_interval (e - a.chunkStart s + a.ChunkSize - 1) a.ChunkSize 1 hCSpos
        (by rw [mul_one]; omega) (by rw [mul_one]; omega)]
    rfl
  rw [hcw]
  have hlist : (do
      let i ← List.range 1
      pure ((i : Int))) = ([0] : List Int) := by rfl
  rw [hlist]
  simp only [List.foldl_cons, List.foldl_nil, zero_mul, add_zero]
  rw [hcs] at hXle ⊢
  have h1 : (if c.StartTime < s then s else c.StartTime) = s := by
    split
    · rfl
    · omega
  have h2 : (if c.StartTime + a.ChunkSize > e then e
      else c.StartTime + a.ChunkSize) = e := by
    split
    · rfl
    · omega
  rw [h1, h2]
  have hfind : a.getChunkByStartTime c.StartTime = some c := by
    unfold Archive.getChunkByStartTime
    rw [hchunks]
    simp
  simp only [hfind]
  rw [hdata]
  simp only [List.foldl_cons, List.foldl_nil]
  have hads : archDataSet [] (((e - s).tdiv a.Interval).toNat)
      ((0 : Int)).toNat key col =
      [(key, splice (List.replicate (((e - s).tdiv a.Interval).toNat)
        (none : Option Payload)) 0 col)] := rfl
  rw [hads, splice_replicate col _ hlen]

/-- The rolling phase of `rollupColumn` after the first observation: totals
and counts accumulate, min and max fold pointwise. -/
theorem rollupColumn_go (rest : List ℚ) :
    ∀ (R : Rollup),
    (rest.map (fun w => some (Payload.raw w))).foldl
      (fun (st : Rollup × Bool) ov =>
        match ov with
        | none => st
        | some pl =>
            let x := pl.asRaw
            let r := st.1
            ({ Total := r.Total + x, Count := r.Count + 1
               Max := if st.2 ∨ x > r.Max then x else r.Max
               Min := if st.2 ∨ x < r.Min then x else r.Min }, false))
      (R, false) =
    (⟨R.Total + rest.sum, R.Count + rest.length,
      rest.foldl min R.Min, rest.foldl max R.Max⟩, false) := by
  induction rest with
  | nil =>
      intro R
      simp
  | cons w ws ih =>
      intro R
      rw [List.map_cons, List.foldl_cons]
      show (ws.map (fun w => some (Payload.raw w))).foldl
        (fun (st : Rollup × Bool) ov =>
          match ov with
          | none => st
          | some pl =>
              let x := pl.asRaw
              let r := st.1
              ({ Total := r.Total + x, Count := r.Count + 1
                 Max := if st.2 ∨ x > r.Max then x else r.Max
                 Min := if st.2 ∨ x < r.Min then x else r.Min }, false))
        ({ Total := R.Total + w, Count := R.Count + 1
           Max := if (false = true) ∨ w > R.Max then w else R.Max
           Min := if (false = true) ∨ w < R.Min then w else R.Min }, false) =
        (⟨R.Total + (w :: ws).sum, R.Count + ((w :: ws).length : Int),
          (w :: ws).foldl min R.Min, (w :: ws).foldl max R.Max⟩, false)
      rw [show (if (false = true) ∨ w > R.Max then w else R.Max) = max R.Max w
          from by
        simp only [Bool.false_eq_true, false_or]
        rcases le_or_lt w R.Max with h | h
        · rw [if_neg (not_lt.mpr h), max_eq_left h]
        · rw [if_pos h, max_eq_right (le_of_lt h)]]
      rw [show (if (false = true) ∨ w < R.Min then w else R.Min) = min R.Min w
          from by
        simp only [Bool.false_eq_true, false_or]
        rcases le_or_lt R.Min w with h | h
        · rw [if_neg (not_lt.mpr h), min_eq_left h]
        · rw [if_pos h, min_eq_right (le_of_lt h)]]
      rw [ih ⟨R.Total + w, R.Count + 1, min R.Min w, max R.Max w⟩]
      simp only [Prod.mk.injEq, Rollup.mk.injEq, List.sum_cons, List.length_cons,
        List.foldl_cons]
      refine ⟨⟨by ring, by push_cast; ring, ?_, ?_⟩, ?_⟩ <;>
        first
        | rfl
        | trivial

/-- `rollupColumn` on a column of leading nulls, a nonempty contiguous run of
raw values, and trailing nulls: count, total, min and max of the run. -/
theorem rollupColumn_run (a b : Nat) (v : ℚ) (vrest : List ℚ) :
    rollupColumn (List.replicate a (none : Option Payload) ++
      (v :: vrest).map (fun w => some (Payload.raw w)) ++
      List.replicate b (none : Option Payload)) =
    ⟨v + vrest.sum, 1 + vrest.length, vrest.foldl min v, vrest.foldl max v⟩ := by
  unfold rollupColumn
  rw [List.foldl_append, List.foldl_append,
    foldl_skip_none _ (fun st => rfl) (List.replicate a none)
      (fun x hx => List.eq_of_mem_replicate hx) _,
    List.map_cons, List.foldl_cons]
  show ((List.replicate b (none : Option Payload)).foldl
      (fun (st : Rollup × Bool) ov =>
        match ov with
        | none => st
        | some pl =>
            let x := pl.asRaw
            let r := st.1
            ({ Total := r.Total + x, Count := r.Count + 1
               Max := if st.2 ∨ x > r.Max then x else r.Max
               Min := if st.2 ∨ x < r.Min then x else r.Min }, false))
      ((vrest.map (fun w => some (Payload.raw w))).foldl
        (fun (st : Rollup × Bool) ov =>
          match ov with
          | none => st
          | some pl =>
              let x := pl.asRaw
              let r := st.1
              ({ Total := r.Total + x, Count := r.Count + 1
                 Max := if st.2 ∨ x > r.Max then x else r.Max
                 Min := if st.2 ∨ x < r.Min then x else r.Min }, false))
        ({ Total := (0 : ℚ) + v, Count := (0 : Int) + 1
           Max := if (true = true) ∨ v > (0 : ℚ) then v else (0 : ℚ)
           Min := if (true = true) ∨ v < (0 : ℚ) then v else (0 : ℚ) }, false))).1 =
    (⟨v + vrest.sum, 1 + vrest.length, vrest.foldl min v, vrest.foldl max v⟩ : Rollup)
  rw [if_pos (Or.inl rfl), if_pos (Or.inl rfl)]
  rw [rollupColumn_go vrest ⟨(0 : ℚ) + v, (0 : Int) + 1, v, v⟩]
  rw [foldl_skip_none _ (fun st => rfl) (List.replicate b none)
    (fun x hx => List.eq_of_mem_replicate hx) _]
  show (⟨((0 : ℚ) + v) + vrest.sum, ((0 : Int) + 1) + vrest.length,
    vrest.foldl min v, vrest.foldl max v⟩ : Rollup) = _
  simp only [Rollup.mk.injEq]
  refine ⟨by ring, by push_cast; ring, ?_, ?_⟩ <;>
    first
    | rfl
    | trivial

/-- The left fold of `max` computes `List.maximum` of the seeded list. -/
theorem foldl_max_maximum (rest : List ℚ) : ∀ (v : ℚ),
    ((rest.foldl max v : ℚ) : WithBot ℚ) = (v :: rest).maximum := by
  induction rest with
  | nil =>
      intro v
      rw [List.foldl_nil, List.maximum_singleton]
  | cons w ws ih =>
      intro v
      rw [List.foldl_cons, ih (max v w), List.maximum_cons, List.maximum_cons,
        List.maximum_cons, ← sup_eq_max, WithBot.coe_sup, sup_assoc]

/-- The left fold of `min` computes `List.minimum` of the seeded list. -/
theorem foldl_min_minimum (rest : List ℚ) : ∀ (v : ℚ),
    ((rest.foldl min v : ℚ) : WithTop ℚ) = (v :: rest).minimum := by
  induction rest with
  | nil =>
      intro v
      rw [List.foldl_nil, List.minimum_singleton]
  | cons w ws ih =>
      intro v
      rw [List.foldl_cons, ih (min v w), List.minimum_cons, List.minimum_cons,
        List.minimum_cons, ← inf_eq_min, WithTop.coe_inf, inf_assoc]

/-- The window column assembled from the piecewise description of the final
base chunk: leading nulls, the run values, trailing nulls. -/
theorem range_map_piecewise (a k l : Nat) (vs : List ℚ) (hk : vs.length = k)
    (hl : a + k ≤ l) :
    (List.range l).map (fun i =>
      if i < a then (none : Option Payload)
      else if i < a + k then some (Payload.raw (vs.getD (i - a) 0))
      else none) =
    List.replicate a (none : Option Payload) ++
      vs.map (fun w => some (Payload.raw w)) ++
      List.replicate (l - (a + k)) (none : Option Payload) := by
  apply List.ext_getElem?
  intro i
  rw [List.getElem?_map]
  by_cases hi : i < l
  · rw [List.getElem?_range hi, Option.map_some']
    by_cases h1 : i < a
    · rw [if_pos h1]
      rw [List.getElem?_append]
      rw [if_pos (show i < (List.replicate a (none : Option Payload) ++
          vs.map (fun w => some (Payload.raw w))).length from by
        rw [List.length_append, List.length_replicate, List.length_map]
        omega)]
      rw [List.getElem?_append]
      rw [if_pos (show i < (List.replicate a (none : Option Payload)).length from by
        rw [List.length_replicate]
        omega)]
      rw [List.getElem?_replicate, if_pos h1]
    · by_cases h2 : i < a + k
      · rw [if_neg h1, if_pos h2]
        rw [List.getElem?_append]
        rw [if_pos (show i < (List.replicate a (none : Option Payload) ++
            vs.map (fun w => some (Payload.raw w))).length from by
          rw [List.length_append, List.length_replicate, List.length_map]
          omega)]
        rw [List.getElem?_append]
        rw [if_neg (show ¬ i < (List.replicate a (none : Option Payload)).length
            from by
          rw [List.length_replicate]
          omega)]
        rw [List.length_replicate, List.getElem?_map,
          List.getElem?_eq_getElem (show i - a < vs.length by omega),
          Option.map_some']
        rw [List.getD_eq_getElem?_getD,
          List.getElem?_eq_getElem (show i - a < vs.length by omega)]
        rfl
      · rw [if_neg h1, if_neg h2]
        rw [List.getElem?_append]
        rw [if_neg (show ¬ i < (List.replicate a (none : Option Payload) ++
            vs.map (fun w => some (Payload.raw w))).length from by
          rw [List.length_append, List.length_replicate, List.length_map]
          omega)]
        rw [List.length_append, List.length_replicate, List.length_map, hk]
        rw [List.getElem?_replicate]
        rw [if_pos (show i - (a + k) < l - (a + k) by omega)]
  · rw [List.getElem?_eq_none (by rw [List.length_range]; omega),
      List.getElem?_eq_none (by
        rw [List.length_append, List.length_append, List.length_replicate,
          List.length_map, List.length_replicate, hk]
        omega)]
    rfl

/-- `Archive.Append` into a fresh archive creates the first chunk at the
containing chunk boundary and stamps both clocks with the (aligned, positive)
timestamp. -/
theorem archive_append_fresh (iv ret cs : Int) (val : List (String × Payload))
    (ts : Int) (hdvd : iv ∣ ts) (hpos : 0 < ts) :
    (NewArchive iv ret cs).Append val ts =
      { Interval := iv, ChunkSize := cs, Retention := ret
        StartTime := ts, EndTime := ts
        chunks := [(newChunk iv (ts - ts.tmod cs)).append val ts]
        lastWrite := 0 } := by
  unfold Archive.Append
  simp only [show (NewArchive iv ret cs).tsNorm ts = ts from
      Archive.tsNorm_of_dvd (NewArchive iv ret cs) ts
        (show (NewArchive iv ret cs).Interval ∣ ts from hdvd),
    show (NewArchive iv ret cs).lastChunk = none from rfl]
  apply archive_eq_of_fields
  · rfl
  · rfl
  · rfl
  · show (if (0 : Int) = 0 then ts else (0 : Int)) = ts
    rw [if_pos rfl]
  · rfl
  · rfl
  · rfl

/-- Slots of a run chunk at aligned times before the run start are null. -/
theorem runChunk_slotAt_before (r cs0 t0 : Int) (name : String) (vs : List ℚ)
    (t : Int) (hr : 0 < r) (hcs0 : r ∣ cs0) (ht : r ∣ t) (ht0 : r ∣ t0)
    (hcst0 : cs0 ≤ t0) (hlt : t < t0) :
    (runChunk r cs0 t0 name vs).slotAt t = none := by
  obtain ⟨m, hm⟩ : r ∣ (t - cs0) := dvd_sub ht hcs0
  obtain ⟨P, hP⟩ : r ∣ (t0 - cs0) := dvd_sub ht0 hcs0
  have hP0 : 0 ≤ P := by
    by_contra hneg
    push_neg at hneg
    have h2 : r * P ≤ r * (-1) :=
      mul_le_mul_of_nonneg_left (by omega) (le_of_lt hr)
    have h3 : r * (-1) = -r := by ring
    omega
  have hidx : (t - (runChunk r cs0 t0 name vs).StartTime).tdiv
      (runChunk r cs0 t0 name vs).Resolution = m := by
    show (t - cs0).tdiv r = m
    rw [hm, Int.mul_tdiv_cancel_left _ (ne_of_gt hr)]
  have htdiv : (t0 - cs0).tdiv r = P := by
    rw [hP, Int.mul_tdiv_cancel_left _ (ne_of_gt hr)]
  rcases lt_or_le m 0 with hm0 | hm0
  · exact slotAt_none_out _ t (Or.inl (by rw [hidx]; exact hm0))
  · have hmP : m < P := by
      have h1 : r * m < r * P := by omega
      exact lt_of_mul_lt_mul_left h1 (le_of_lt hr)
    rw [slotAt_eq_getD _ t m.toNat (show (0 : Int) < r from hr)
      (show t - cs0 = ((m.toNat : Nat) : Int) * r from by
        rw [Int.toNat_of_nonneg hm0, hm]
        exact mul_comm r m)
      (show m.toNat < (runChunk r cs0 t0 name vs).Data.length from by
        show m.toNat < (List.replicate ((t0 - cs0).tdiv r).toNat
          (none : Option Slot) ++ vs.map (fun v => some [(0, Payload.raw v)])).length
        rw [List.length_append, List.length_replicate, htdiv]
        omega)]
    show (List.replicate ((t0 - cs0).tdiv r).toNat (none : Option Slot) ++
      vs.map (fun v => some [(0, Payload.raw v)])).getD m.toNat none = none
    rw [List.getD_append _ _ _ _ (by rw [List.length_replicate, htdiv]; omega),
      getD_replicate_none]

/-- Reading any aligned window that ends at or before the run start from the
run archive yields no columns. -/
theorem runArchive_getData_empty (r retB cs0 t0 : Int) (name : String)
    (vs : List ℚ) (s e : Int) (hr : 0 < r) (hcs0dvd : r ∣ cs0) (ht0 : r ∣ t0)
    (hs : r ∣ s) (he : r ∣ e) (hcst0 : cs0 ≤ t0) (hee : e ≤ t0) :
    ((runArchive r retB cs0 t0 name vs).GetData s e).1 = [] := by
  apply archive_getData_empty
  · show r ∣ chunkSizeSlots * r
    exact dvd_mul_left r chunkSizeSlots
  · intro c hc cs ce hcs hce hdvd2
    rw [show (runArchive r retB cs0 t0 name vs).tsNorm s = s from
      Archive.tsNorm_of_dvd _ s hs] at hcs hdvd2
    rw [show (runArchive r retB cs0 t0 name vs).tsNorm e = e from
      Archive.tsNorm_of_dvd _ e he] at hce
    have hceq : c = runChunk r cs0 t0 name vs := by
      have h1 : c ∈ [runChunk r cs0 t0 name vs] := hc
      simpa using h1
    subst hceq
    apply chunk_getData_none
    intro i hi
    rw [show (runChunk r cs0 t0 name vs).Resolution = r from rfl] at hi ⊢
    rw [Int.lt_toNat] at hi
    have hstep2 : (i : Int) * r ≤ ce - cs - r :=
      mul_le_of_lt_tdiv (ce - cs) r i hr hi
    apply runChunk_slotAt_before r cs0 t0 name vs _ hr hcs0dvd _ ht0 hcst0
    · omega
    · have h3 : r ∣ cs := by
        have h4 := dvd_add hdvd2 hs
        simpa using h4
      exact dvd_add h3 (Dvd.dvd.mul_left (dvd_refl r) i)

/-- The first sample of the run on a fresh two-plus archive series: the base
archive stores the sample in a fresh run chunk, and the cascade fires once
into the first coarser archive, appending an empty rollup map at the start of
the sample's coarse interval (the junk append); deeper archives receive the
remaining cascade. -/
theorem first_add_state (name : String) (r R retB retC : Int)
    (rest : List Archive) (cfg : TimeSeriesConfig) (lw : Int) (v1 : ℚ) (t0 : Int)
    (hr : 0 < r) (hR : 0 < R) (hdvd : r ∣ R) (ht0 : r ∣ t0) (hRt0 : R ≤ t0) :
    TimeSeries.AddValues
      ⟨NewArchive r retB (chunkSizeSlots * r) ::
        NewArchive R retC (chunkSizeSlots * R) :: rest, cfg, lw⟩
      [(name, v1)] t0 =
    ⟨runArchive r retB (t0 - t0.tmod (chunkSizeSlots * r)) t0 name [v1] ::
      junkArchive R retC
        (R * (t0.tdiv R) - (R * (t0.tdiv R)).tmod (chunkSizeSlots * R))
        (R * (t0.tdiv R)) ::
      cascade 0 t0
        (junkArchive R retC
          (R * (t0.tdiv R) - (R * (t0.tdiv R)).tmod (chunkSizeSlots * R))
          (R * (t0.tdiv R))) false rest,
      cfg, lw⟩ := by
  have ht00 : 0 < t0 := lt_of_lt_of_le hR hRt0
  have htmodCS : r ∣ t0.tmod (chunkSizeSlots * r) := by
    have h1 : t0.tmod (chunkSizeSlots * r) =
        t0 - (chunkSizeSlots * r) * (t0.tdiv (chunkSizeSlots * r)) := by
      have := sub_tmod_eq_mul_tdiv t0 (chunkSizeSlots * r)
      omega
    rw [h1]
    exact dvd_sub ht0 ((dvd_mul_left r chunkSizeSlots).mul_right _)
  have htmod0 : 0 ≤ t0.tmod (chunkSizeSlots * r) :=
    Int.tmod_nonneg (chunkSizeSlots * r) (le_of_lt ht00)
  have hq := Int.tdiv_add_tmod t0 R
  have hqmod0 : 0 ≤ t0.tmod R := Int.tmod_nonneg R (le_of_lt ht00)
  have hqmodR : t0.tmod R < R := Int.tmod_lt_of_pos t0 hR
  have hq1 : 1 ≤ t0.tdiv R := by
    by_contra hneg
    push_neg at hneg
    have h2 : R * (t0.tdiv R) ≤ R * 0 :=
      mul_le_mul_of_nonneg_left (by omega) (le_of_lt hR)
    have h3 : R * (0 : Int) = 0 := by ring
    omega
  have hIpos : 0 < R * (t0.tdiv R) := by
    have h2 : R * 1 ≤ R * (t0.tdiv R) :=
      mul_le_mul_of_nonneg_left hq1 (le_of_lt hR)
    have h3 : R * (1 : Int) = R := by ring
    omega
  have htmodRdvd : r ∣ t0.tmod R := by
    have h1 : t0.tmod R = t0 - R * (t0.tdiv R) := by omega
    rw [h1]
    exact dvd_sub ht0 (hdvd.mul_right _)
  have hbase : (NewArchive r retB (chunkSizeSlots * r)).Append
      [(name, Payload.raw v1)] t0 =
      runArchive r retB (t0 - t0.tmod (chunkSizeSlots * r)) t0 name [v1] := by
    rw [archive_append_fresh r retB (chunkSizeSlots * r) _ t0 ht0 ht00,
      chunk_append_empty_single r (t0 - t0.tmod (chunkSizeSlots * r)) name
        (Payload.raw v1) t0 hr (by simpa using htmodCS) (by omega) ht00]
    apply archive_eq_of_fields
    · rfl
    · rfl
    · rfl
    · rfl
    · show t0 = t0 + (((1 : Nat) : Int) - 1) * r
      push_cast
      ring
    · show _ = [runChunk r (t0 - t0.tmod (chunkSizeSlots * r)) t0 name [v1]]
      refine congrArg (fun c => [c]) ?_
      apply chunk_eq_of_fields
      · rfl
      · show t0 = t0 + (((1 : Nat) : Int) - 1) * r
        push_cast
        ring
      · rfl
      · rfl
      · rfl
      · rfl
    · rfl
  have hdata : ((runArchive r retB (t0 - t0.tmod (chunkSizeSlots * r)) t0 name
      [v1]).GetData (t0 - t0.tmod R - R) (t0 - t0.tmod R - R + R)).1 = [] := by
    apply runArchive_getData_empty r retB _ t0 name [v1] _ _ hr
      (dvd_sub ht0 htmodCS) ht0
      (dvd_sub (dvd_sub ht0 htmodRdvd) hdvd)
      (dvd_add (dvd_sub (dvd_sub ht0 htmodRdvd) hdvd) hdvd)
      (by omega) (by omega)
  have hjunk : (NewArchive R retC (chunkSizeSlots * R)).Append []
      (t0 - t0.tmod R - R + R) =
      junkArchive R retC
        (R * (t0.tdiv R) - (R * (t0.tdiv R)).tmod (chunkSizeSlots * R))
        (R * (t0.tdiv R)) := by
    rw [show t0 - t0.tmod R - R + R = R * (t0.tdiv R) from by omega]
    rw [archive_append_fresh R retC (chunkSizeSlots * R) []
      (R * (t0.tdiv R)) (dvd_mul_right R _) hIpos]
    rw [chunk_append_empty_nil R
      (R * (t0.tdiv R) - (R * (t0.tdiv R)).tmod (chunkSizeSlots * R))
      (R * (t0.tdiv R)) hR
      (by
        have h1 : R ∣ (R * (t0.tdiv R)).tmod (chunkSizeSlots * R) := by
          have h2 : (R * (t0.tdiv R)).tmod (chunkSizeSlots * R) =
              R * (t0.tdiv R) - (chunkSizeSlots * R) *
                ((R * (t0.tdiv R)).tdiv (chunkSizeSlots * R)) := by
            have := sub_tmod_eq_mul_tdiv (R * (t0.tdiv R)) (chunkSizeSlots * R)
            omega
          rw [h2]
          exact dvd_sub (dvd_mul_right R _)
            ((dvd_mul_left R chunkSizeSlots).mul_right _)
        simpa using h1)
      (by
        have h1 : 0 ≤ (R * (t0.tdiv R)).tmod (chunkSizeSlots * R) :=
          Int.tmod_nonneg (chunkSizeSlots * R) (le_of_lt hIpos)
        omega)
      hIpos]
    rfl
  unfold TimeSeries.AddValues
  dsimp only
  rw [show List.map (fun p => (p.1, Payload.raw p.2)) [(name, v1)] =
    [(name, Payload.raw v1)] from rfl]
  rw [hbase]
  rw [show cascade (NewArchive r retB (chunkSizeSlots * r)).EndTime t0
      (runArchive r retB (t0 - t0.tmod (chunkSizeSlots * r)) t0 name [v1]) true
      (NewArchive R retC (chunkSizeSlots * R) :: rest) =
      cascade 0 t0
      (runArchive r retB (t0 - t0.tmod (chunkSizeSlots * r)) t0 name [v1]) true
      (NewArchive R retC (chunkSizeSlots * R) :: rest) from rfl]
  rw [show cascade 0 t0
      (runArchive r retB (t0 - t0.tmod (chunkSizeSlots * r)) t0 name [v1]) true
      (NewArchive R retC (chunkSizeSlots * R) :: rest) =
      (if t0.tdiv (NewArchive R retC (chunkSizeSlots * R)).Interval =
          (0 : Int).tdiv (NewArchive R retC (chunkSizeSlots * R)).Interval then
        NewArchive R retC (chunkSizeSlots * R) :: rest
      else
        (NewArchive R retC (chunkSizeSlots * R)).Append
          (rollupRawData ((runArchive r retB (t0 - t0.tmod (chunkSizeSlots * r))
            t0 name [v1]).GetData
            (t0 - t0.tmod (NewArchive R retC (chunkSizeSlots * R)).Interval -
              (NewArchive R retC (chunkSizeSlots * R)).Interval)
            (t0 - t0.tmod (NewArchive R retC (chunkSizeSlots * R)).Interval -
              (NewArchive R retC (chunkSizeSlots * R)).Interval +
              (NewArchive R retC (chunkSizeSlots * R)).Interval)).1)
          (t0 - t0.tmod (NewArchive R retC (chunkSizeSlots * R)).Interval -
            (NewArchive R retC (chunkSizeSlots * R)).Interval +
            (NewArchive R retC (chunkSizeSlots * R)).Interval) ::
        cascade 0 t0
          ((NewArchive R retC (chunkSizeSlots * R)).Append
            (rollupRawData ((runArchive r retB (t0 - t0.tmod (chunkSizeSlots * r))
              t0 name [v1]).GetData
              (t0 - t0.tmod (NewArchive R retC (chunkSizeSlots * R)).Interval -
                (NewArchive R retC (chunkSizeSlots * R)).Interval)
              (t0 - t0.tmod (NewArchive R retC (chunkSizeSlots * R)).Interval -
                (NewArchive R retC (chunkSizeSlots * R)).Interval +
                (NewArchive R retC (chunkSizeSlots * R)).Interval)).1)
            (t0 - t0.tmod (NewArchive R retC (chunkSizeSlots * R)).Interval -
              (NewArchive R retC (chunkSizeSlots * R)).Interval +
              (NewArchive R retC (chunkSizeSlots * R)).Interval))
          false rest) from rfl]
  rw [if_neg (by
    rw [show (NewArchive R retC (chunkSizeSlots * R)).Interval = R from rfl,
      Int.zero_tdiv]
    omega)]
  rw [show (NewArchive R retC (chunkSizeSlots * R)).Interval = R from rfl]
  rw [hdata]
  rw [show rollupRawData [] = [] from rfl]
  rw [hjunk]

/-- A contiguous run sample lands exactly one slot past the run chunk's end
and extends it in place. -/
theorem runChunk_step (name : String) (r cs0 t0 : Int) (pref : List ℚ) (v : ℚ)
    (hr : 0 < r) (ht00 : 0 < t0) (hpref : pref ≠ []) :
    (runChunk r cs0 t0 name pref).append [(name, Payload.raw v)]
      (t0 + (pref.length : Int) * r) =
    runChunk r cs0 t0 name (pref ++ [v]) := by
  have hlen1 : 1 ≤ pref.length := List.length_pos.mpr hpref
  have hlen1' : 1 ≤ (pref.length : Int) := by exact_mod_cast hlen1
  have hprod : (pref.length : Int) * r = ((pref.length : Int) - 1) * r + r := by
    ring
  have hprodpos : 0 ≤ ((pref.length : Int) - 1) * r :=
    mul_nonneg (by omega) (le_of_lt hr)
  unfold Chunk.append
  rw [if_neg (show ¬ (t0 + (pref.length : Int) * r <
      (runChunk r cs0 t0 name pref).EndTime) from by
    show ¬ (t0 + (pref.length : Int) * r < t0 + ((pref.length : Int) - 1) * r)
    omega)]
  rw [if_neg (show ¬ (t0 + (pref.length : Int) * r =
      (runChunk r cs0 t0 name pref).EndTime) from by
    show ¬ (t0 + (pref.length : Int) * r = t0 + ((pref.length : Int) - 1) * r)
    omega)]
  rw [if_neg (show ¬ (¬ (runChunk r cs0 t0 name pref).empty ∧
      t0 + (pref.length : Int) * r > (runChunk r cs0 t0 name pref).EndTime +
        (runChunk r cs0 t0 name pref).Resolution) from by
    intro hco
    have h2 : t0 + (pref.length : Int) * r >
        (t0 + ((pref.length : Int) - 1) * r) + r := hco.2
    omega)]
  have hprep : ¬ ((runChunk r cs0 t0 name pref).empty ∧
      t0 + (pref.length : Int) * r ≠ (runChunk r cs0 t0 name pref).StartTime) := by
    intro hco
    have h1 := hco.1
    simp only [Chunk.empty, beq_iff_eq] at h1
    have h1' : t0 + ((pref.length : Int) - 1) * r = 0 := h1
    omega
  simp only [if_neg hprep]
  have hderef : (runChunk r cs0 t0 name pref).derefTags [(name, Payload.raw v)] =
      (runChunk r cs0 t0 name pref, [(0, Payload.raw v)]) := by
    unfold Chunk.derefTags
    rw [List.foldl_cons, List.foldl_nil]
    rw [show (runChunk r cs0 t0 name pref).Tags.findIdx?
        (fun t => t == (name, Payload.raw v).1) = some 0 from by
      show ([name] : List String).findIdx? (fun t => t == name) = some 0
      simp]
    rfl
  rw [hderef]
  apply chunk_eq_of_fields
  · rfl
  · show t0 + (pref.length : Int) * r =
      t0 + (((pref ++ [v]).length : Int) - 1) * r
    push_cast [List.length_append, List.length_singleton]
    ring
  · rfl
  · show (runChunk r cs0 t0 name pref).Data ++ [some [(0, Payload.raw v)]] = _
    show List.replicate ((t0 - cs0).tdiv r).toNat (none : Option Slot) ++
      pref.map (fun w => some [(0, Payload.raw w)]) ++
      [some [(0, Payload.raw v)]] =
      List.replicate ((t0 - cs0).tdiv r).toNat (none : Option Slot) ++
      (pref ++ [v]).map (fun w => some [(0, Payload.raw w)])
    rw [List.map_append, List.append_assoc]
    rfl
  · rfl
  · rfl

/-- The cascade stops at the first coarser archive whose interval boundary
was not crossed. -/
theorem cascade_break (lastTimestamp ts : Int) (cur : Archive) (rA : Archive)
    (rest : List Archive)
    (h : ts.tdiv rA.Interval = lastTimestamp.tdiv rA.Interval) :
    cascade lastTimestamp ts cur true (rA :: rest) = rA :: rest := by
  simp only [cascade]
  rw [if_pos h]

/-- A run sample within the chunk span extends the run archive in place. -/
theorem runArchive_append_step (name : String) (r retB cs0 t0 : Int)
    (pref : List ℚ) (v : ℚ)
    (hr : 0 < r) (ht0 : r ∣ t0) (ht00 : 0 < t0) (hcs0 : r ∣ cs0)
    (hcs0mod : cs0.tmod (chunkSizeSlots * r) = 0)
    (hpref : pref ≠ [])
    (hbound : t0 + (pref.length : Int) * r ≤ cs0 + chunkSizeSlots * r - r) :
    (runArchive r retB cs0 t0 name pref).Append [(name, Payload.raw v)]
      (t0 + (pref.length : Int) * r) =
    runArchive r retB cs0 t0 name (pref ++ [v]) := by
  have hts : r ∣ (t0 + (pref.length : Int) * r) :=
    dvd_add ht0 (Dvd.dvd.mul_left (dvd_refl r) _)
  have hlen1 : 1 ≤ pref.length := List.length_pos.mpr hpref
  have hlen1' : 1 ≤ (pref.length : Int) := by exact_mod_cast hlen1
  have hprodpos : 0 < (pref.length : Int) * r := mul_pos (by omega) hr
  have hbc : (runArchive r retB cs0 t0 name pref).boundaryCheck
      (t0 + (pref.length : Int) * r) = false := by
    unfold Archive.boundaryCheck
    rw [show (runArchive r retB cs0 t0 name pref).lastChunk =
      some (runChunk r cs0 t0 name pref) from rfl]
    show decide (t0 + (pref.length : Int) * r >
      (runArchive r retB cs0 t0 name pref).chunkEnd
        (runChunk r cs0 t0 name pref).StartTime) = false
    unfold Archive.chunkEnd Archive.chunkStart
    show decide (t0 + (pref.length : Int) * r >
      cs0 - cs0.tmod (chunkSizeSlots * r) + chunkSizeSlots * r - r) = false
    rw [hcs0mod]
    simp only [decide_eq_false_iff_not, gt_iff_lt, not_lt]
    omega
  unfold Archive.Append
  rw [show (runArchive r retB cs0 t0 name pref).tsNorm
      (t0 + (pref.length : Int) * r) = t0 + (pref.length : Int) * r from
    Archive.tsNorm_of_dvd _ _ hts]
  rw [show (runArchive r retB cs0 t0 name pref).lastChunk =
    some (runChunk r cs0 t0 name pref) from rfl]
  simp only [hbc, Bool.false_eq_true, if_false]
  rw [show ((runArchive r retB cs0 t0 name pref).chunks.dropLast ++
      [((runArchive r retB cs0 t0 name pref).lastChunk).getD
        (newChunk (runArchive r retB cs0 t0 name pref).Interval 0) |>.append
        [(name, Payload.raw v)] (t0 + (pref.length : Int) * r)]) =
    [(runChunk r cs0 t0 name pref).append [(name, Payload.raw v)]
      (t0 + (pref.length : Int) * r)] from rfl]
  rw [runChunk_step name r cs0 t0 pref v hr ht00 hpref]
  apply archive_eq_of_fields
  · rfl
  · rfl
  · rfl
  · show (if t0 = 0 then t0 + (pref.length : Int) * r else t0) = t0
    rw [if_neg (by omega)]
  · show t0 + (pref.length : Int) * r =
      t0 + (((pref ++ [v]).length : Int) - 1) * r
    push_cast [List.length_append, List.length_singleton]
    ring
  · rfl
  · rfl

/-- Appending the rest of a contiguous run inside the coarse interval leaves
the junk coarse archive and all deeper archives untouched and extends the run
chunk value by value. -/
theorem runAdds_state (name : String) (r R retB retC cs1 : Int)
    (cfg : TimeSeriesConfig) (lw : Int) (cs0 t0 : Int)
    (hr : 0 < r) (hR : 0 < R) (hdvd : r ∣ R) (ht0 : r ∣ t0) (ht00 : 0 < t0)
    (hcs0 : r ∣ cs0) (hcs0mod : cs0.tmod (chunkSizeSlots * r) = 0) :
    ∀ (vs2 pref : List ℚ) (rest' : List Archive),
    pref ≠ [] →
    t0 + ((pref.length : Int) + (vs2.length : Int)) * r ≤ R * (t0.tdiv R) + R →
    t0 + ((pref.length : Int) + (vs2.length : Int)) * r ≤
      cs0 + chunkSizeSlots * r →
    runAdds name r
      ⟨runArchive r retB cs0 t0 name pref ::
        junkArchive R retC cs1 (R * (t0.tdiv R)) :: rest', cfg, lw⟩
      (t0 + (pref.length : Int) * r) vs2 =
    ⟨runArchive r retB cs0 t0 name (pref ++ vs2) ::
      junkArchive R retC cs1 (R * (t0.tdiv R)) :: rest', cfg, lw⟩ := by
  intro vs2
  induction vs2 with
  | nil =>
      intro pref rest' hpref h1 h2
      simp only [runAdds, List.append_nil]
  | cons v vs ih =>
      intro pref rest' hpref h1 h2
      have hq := Int.tdiv_add_tmod t0 R
      have hqmod0 : 0 ≤ t0.tmod R := Int.tmod_nonneg R (le_of_lt ht00)
      have hq0 : 0 ≤ t0.tdiv R := Int.tdiv_nonneg (le_of_lt ht00) (le_of_lt hR)
      have hlen1 : 1 ≤ pref.length := List.length_pos.mpr hpref
      have hlen1' : 1 ≤ (pref.length : Int) := by exact_mod_cast hlen1
      have hsplit : ((pref.length : Int) + ((v :: vs).length : Int)) * r =
          (pref.length : Int) * r + r + (vs.length : Int) * r := by
        push_cast [List.length_cons]
        ring
      have hvs0 : 0 ≤ (vs.length : Int) * r :=
        mul_nonneg (Int.natCast_nonneg _) (le_of_lt hr)
      have hlprod : ((pref.length : Int) - 1) * r =
          (pref.length : Int) * r - r := by
        ring
      have h9 : 0 ≤ ((pref.length : Int) - 1) * r :=
        mul_nonneg (by omega) (le_of_lt hr)
      have hprodpos : 0 < (pref.length : Int) * r := mul_pos (by omega) hr
      have hstep : TimeSeries.AddValues
          ⟨runArchive r retB cs0 t0 name pref ::
            junkArchive R retC cs1 (R * (t0.tdiv R)) :: rest', cfg, lw⟩
          [(name, v)] (t0 + (pref.length : Int) * r) =
          ⟨runArchive r retB cs0 t0 name (pref ++ [v]) ::
            junkArchive R retC cs1 (R * (t0.tdiv R)) :: rest', cfg, lw⟩ := by
        unfold TimeSeries.AddValues
        dsimp only
        rw [show List.map (fun p => (p.1, Payload.raw p.2)) [(name, v)] =
          [(name, Payload.raw v)] from rfl]
        rw [runArchive_append_step name r retB cs0 t0 pref v hr ht0 ht00
          hcs0 hcs0mod hpref (by omega)]
        rw [cascade_break ((runArchive r retB cs0 t0 name pref).EndTime)
          (t0 + (pref.length : Int) * r)
          (runArchive r retB cs0 t0 name (pref ++ [v]))
          (junkArchive R retC cs1 (R * (t0.tdiv R))) rest'
          (by
            show (t0 + (pref.length : Int) * r).tdiv R =
              (t0 + ((pref.length : Int) - 1) * r).tdiv R
            rw [tdiv_interval (t0 + (pref.length : Int) * r) R (t0.tdiv R) hR
                (by omega) (by omega) (by omega),
              tdiv_interval (t0 + ((pref.length : Int) - 1) * r) R (t0.tdiv R)
                hR (by omega) (by omega) (by omega)])]
      rw [show runAdds name r
          ⟨runArchive r retB cs0 t0 name pref ::
            junkArchive R retC cs1 (R * (t0.tdiv R)) :: rest', cfg, lw⟩
          (t0 + (pref.length : Int) * r) (v :: vs) =
        runAdds name r
          (TimeSeries.AddValues
            ⟨runArchive r retB cs0 t0 name pref ::
              junkArchive R retC cs1 (R * (t0.tdiv R)) :: rest', cfg, lw⟩
            [(name, v)] (t0 + (pref.length : Int) * r))
          (t0 + (pref.length : Int) * r + r) vs from rfl]
      rw [hstep]
      rw [show t0 + (pref.length : Int) * r + r =
          t0 + (((pref ++ [v]).length : Int)) * r from by
        push_cast [List.length_append, List.length_singleton]
        ring]
      have h1' : t0 + (((pref ++ [v]).length : Int) + (vs.length : Int)) * r ≤
          R * (t0.tdiv R) + R := by
        have he : (((pref ++ [v]).length : Int) + (vs.length : Int)) * r =
            ((pref.length : Int) + ((v :: vs).length : Int)) * r := by
          push_cast [List.length_append, List.length_cons, List.length_nil]
          ring
        rw [he]
        exact h1
      have h2' : t0 + (((pref ++ [v]).length : Int) + (vs.length : Int)) * r ≤
          cs0 + chunkSizeSlots * r := by
        have he : (((pref ++ [v]).length : Int) + (vs.length : Int)) * r =
            ((pref.length : Int) + ((v :: vs).length : Int)) * r := by
          push_cast [List.length_append, List.length_cons, List.length_nil]
          ring
        rw [he]
        exact h2
      rw [ih (pref ++ [v]) rest' (by simp) h1' h2']
      rw [show pref ++ [v] ++ vs = pref ++ v :: vs from by simp]

/-- The crossing append extends the run archive's single chunk in place (no
chunk rollover) and stamps the end time. -/
theorem final_archive_append (name : String) (r retB cs0 t0 tsF : Int)
    (vs : List ℚ) (vF : ℚ)
    (hr : 0 < r) (ht0 : r ∣ t0) (ht00 : 0 < t0)
    (htsF : r ∣ tsF) (hgt : t0 + ((vs.length : Int) - 1) * r < tsF)
    (hcs0mod : cs0.tmod (chunkSizeSlots * r) = 0)
    (hbound : tsF ≤ cs0 + chunkSizeSlots * r - r) :
    (runArchive r retB cs0 t0 name vs).Append [(name, Payload.raw vF)] tsF =
    { Interval := r, ChunkSize := chunkSizeSlots * r, Retention := retB
      StartTime := t0, EndTime := tsF
      chunks := [(runChunk r cs0 t0 name vs).append [(name, Payload.raw vF)] tsF]
      lastWrite := 0 } := by
  have hbc : (runArchive r retB cs0 t0 name vs).boundaryCheck tsF = false := by
    unfold Archive.boundaryCheck
    rw [show (runArchive r retB cs0 t0 name vs).lastChunk =
      some (runChunk r cs0 t0 name vs) from rfl]
    show decide (tsF > (runArchive r retB cs0 t0 name vs).chunkEnd
      (runChunk r cs0 t0 name vs).StartTime) = false
    unfold Archive.chunkEnd Archive.chunkStart
    show decide (tsF >
      cs0 - cs0.tmod (chunkSizeSlots * r) + chunkSizeSlots * r - r) = false
    rw [hcs0mod]
    simp only [decide_eq_false_iff_not, gt_iff_lt, not_lt]
    omega
  unfold Archive.Append
  rw [show (runArchive r retB cs0 t0 name vs).tsNorm tsF = tsF from
    Archive.tsNorm_of_dvd _ _ htsF]
  rw [show (runArchive r retB cs0 t0 name vs).lastChunk =
    some (runChunk r cs0 t0 name vs) from rfl]
  simp only [hbc, Bool.false_eq_true, if_false]
  rw [show ((runArchive r retB cs0 t0 name vs).chunks.dropLast ++
      [((runArchive r retB cs0 t0 name vs).lastChunk).getD
        (newChunk (runArchive r retB cs0 t0 name vs).Interval 0) |>.append
        [(name, Payload.raw vF)] tsF]) =
    [(runChunk r cs0 t0 name vs).append [(name, Payload.raw vF)] tsF]
    from rfl]
  apply archive_eq_of_fields
  · rfl
  · rfl
  · rfl
  · show (if t0 = 0 then tsF else t0) = t0
    rw [if_neg (by omega)]
  · rfl
  · rfl
  · rfl

/-- Reading a slot that falls inside a known prefix of a chunk's data. -/
theorem slotAt_front (c2 : Chunk) (r cs0 : Int) (pre suf : List (Option Slot))
    (t : Int) (j : Nat)
    (hS : c2.StartTime = cs0) (hRes : c2.Resolution = r) (hr : 0 < r)
    (hD : c2.Data = pre ++ suf)
    (ht : t - cs0 = (j : Int) * r) (hj : j < pre.length) :
    c2.slotAt t = pre.getD j none := by
  rw [slotAt_eq_getD c2 t j (by rw [hRes]; exact hr)
    (by rw [hS, hRes]; exact ht)
    (by rw [hD, List.length_append]; omega)]
  rw [hD, List.getD_append _ _ _ _ hj]

/-- A quotient witness of a non-negative multiple is non-negative. -/
theorem nonneg_of_mul_eq (r m x : Int) (hr : 0 < r) (hx : 0 ≤ x)
    (hm : x = r * m) : 0 ≤ m := by
  by_contra hneg
  push_neg at hneg
  have h2 : r * m ≤ r * (-1) :=
    mul_le_mul_of_nonneg_left (by omega) (le_of_lt hr)
  have h3 : r * (-1) = -r := by ring
  omega

/-- Reading the just-closed coarse window from the base chunk after the
crossing append: provided no fill-forward slot lands inside the window (the
run ends at the window's last slot, or the gap is at least three slots so the
fill is null), the window shows exactly the run values at their offsets. -/
theorem final_chunk_getData (name : String) (r cs0 t0 Istart Iend tsF : Int)
    (vs : List ℚ) (vF : ℚ)
    (hr : 0 < r) (ht0 : r ∣ t0) (hcs0dvd : r ∣ cs0) (hIdvd : r ∣ Istart)
    (hIend : r ∣ Iend)
    (hcs0le : cs0 ≤ Istart) (hIt0 : Istart ≤ t0) (hI0 : 0 < Istart)
    (hvs : vs ≠ [])
    (hrun : t0 + (vs.length : Int) * r ≤ Iend)
    (htsF : r ∣ tsF)
    (hcross : Iend ≤ tsF)
    (hnofill : t0 + (vs.length : Int) * r = Iend ∨
      3 * r ≤ tsF - (t0 + ((vs.length : Int) - 1) * r)) :
    (((runChunk r cs0 t0 name vs).append [(name, Payload.raw vF)] tsF).getData
      Istart Iend).1 =
    [(name, (List.range (((Iend - Istart).tdiv r).toNat)).map (fun i =>
      if i < ((t0 - Istart).tdiv r).toNat then (none : Option Payload)
      else if i < ((t0 - Istart).tdiv r).toNat + vs.length then
        some (Payload.raw (vs.getD (i - ((t0 - Istart).tdiv r).toNat) 0))
      else none))] ∧
    ((runChunk r cs0 t0 name vs).append [(name, Payload.raw vF)] tsF).StartTime
      = cs0 ∧
    ((runChunk r cs0 t0 name vs).append [(name, Payload.raw vF)] tsF).EndTime
      = tsF := by
  have hKpos : 1 ≤ vs.length := List.length_pos.mpr hvs
  have hKpos' : 1 ≤ (vs.length : Int) := by exact_mod_cast hKpos
  have hKr : 0 < (vs.length : Int) * r := mul_pos (by omega) hr
  have hK1r : 0 ≤ ((vs.length : Int) - 1) * r := mul_nonneg (by omega) (le_of_lt hr)
  have hKsplit : (vs.length : Int) * r = ((vs.length : Int) - 1) * r + r := by
    ring
  obtain ⟨II, hII⟩ : r ∣ (Istart - cs0) := dvd_sub hIdvd hcs0dvd
  obtain ⟨AI, hAI⟩ : r ∣ (t0 - Istart) := dvd_sub ht0 hIdvd
  obtain ⟨LL, hLL⟩ : r ∣ (Iend - Istart) := dvd_sub hIend hIdvd
  have hII0 : 0 ≤ II := nonneg_of_mul_eq r II _ hr (by omega) hII
  have hAI0 : 0 ≤ AI := nonneg_of_mul_eq r AI _ hr (by omega) hAI
  have hLL0 : 0 ≤ LL := nonneg_of_mul_eq r LL _ hr (by omega) hLL
  have hAtd : (t0 - Istart).tdiv r = AI := by
    rw [hAI, Int.mul_tdiv_cancel_left _ (ne_of_gt hr)]
  have hLtd : (Iend - Istart).tdiv r = LL := by
    rw [hLL, Int.mul_tdiv_cancel_left _ (ne_of_gt hr)]
  have hPsum : t0 - cs0 = r * (II + AI) := by
    have he : r * (II + AI) = r * II + r * AI := by ring
    omega
  have hPtd : (t0 - cs0).tdiv r = II + AI := by
    rw [hPsum, Int.mul_tdiv_cancel_left _ (ne_of_gt hr)]
  have hPtoNat : ((t0 - cs0).tdiv r).toNat = II.toNat + AI.toNat := by
    rw [hPtd, Int.toNat_add hII0 hAI0]
  have hIIcast : ((II.toNat : Nat) : Int) = II := Int.toNat_of_nonneg hII0
  have hAIcast : ((AI.toNat : Nat) : Int) = AI := Int.toNat_of_nonneg hAI0
  have hLLcast : ((LL.toNat : Nat) : Int) = LL := Int.toNat_of_nonneg hLL0
  have hAK_LL : AI + (vs.length : Int) ≤ LL := by
    have h1 : r * (AI + (vs.length : Int)) ≤ r * LL := by
      have e1 : r * (AI + (vs.length : Int)) = r * AI + (vs.length : Int) * r := by
        ring
      omega
    exact le_of_mul_le_mul_left h1 hr
  have hlenData : (runChunk r cs0 t0 name vs).Data.length =
      II.toNat + AI.toNat + vs.length := by
    show (List.replicate ((t0 - cs0).tdiv r).toNat (none : Option Slot) ++
      vs.map (fun v => some [(0, Payload.raw v)])).length =
      II.toNat + AI.toNat + vs.length
    rw [List.length_append, List.length_replicate, List.length_map, hPtoNat]
  have hEchunk : (runChunk r cs0 t0 name vs).EndTime =
      t0 + ((vs.length : Int) - 1) * r := rfl
  have hEpos : 0 < (runChunk r cs0 t0 name vs).EndTime := by
    rw [hEchunk]
    omega
  have hElt : (runChunk r cs0 t0 name vs).EndTime < tsF := by
    rw [hEchunk]
    omega
  have htim : ∀ i : Nat, Istart + (i : Int) * r - cs0 =
      ((II.toNat + i : Nat) : Int) * r := by
    intro i
    push_cast [hIIcast]
    have e2 : (II + (i : Int)) * r = r * II + (i : Int) * r := by ring
    omega
  rcases hnofill with hA | hB
  · -- the run ends exactly at the window's last slot
    obtain ⟨rest2, hD2, hE2, hS2, hR2, e2, hT2⟩ :=
      chunk_append_extends (runChunk r cs0 t0 name vs)
        [(name, Payload.raw vF)] tsF
        (show (0 : Int) < (runChunk r cs0 t0 name vs).Resolution from hr)
        hEpos hElt
    have hAKL : AI + (vs.length : Int) = LL := by
      have h1 : r * (AI + (vs.length : Int)) = r * LL := by
        have e1 : r * (AI + (vs.length : Int)) =
            r * AI + (vs.length : Int) * r := by
          ring
        omega
      exact mul_left_cancel₀ (ne_of_gt hr) h1
    have hTags : ((runChunk r cs0 t0 name vs).append
        [(name, Payload.raw vF)] tsF).Tags.getD 0 "" = name := by
      rw [hT2, List.getD_append _ _ _ _
        (show (0 : Nat) < (runChunk r cs0 t0 name vs).Tags.length from by
          show (0 : Nat) < ([name] : List String).length
          simp)]
      rfl
    refine ⟨?_, hS2, hE2⟩
    rw [chunk_getData_single _ Istart Iend (fun i =>
      if i < ((t0 - Istart).tdiv r).toNat then (none : Option Payload)
      else if i < ((t0 - Istart).tdiv r).toNat + vs.length then
        some (Payload.raw (vs.getD (i - ((t0 - Istart).tdiv r).toNat) 0))
      else none) ?hf ?hex]
    · rw [hTags, show ((Iend - Istart).tdiv ((runChunk r cs0 t0 name vs).append
          [(name, Payload.raw vF)] tsF).Resolution) = (Iend - Istart).tdiv r from
        by rw [hR2]; rfl]
    · intro i hi
      rw [hR2] at hi ⊢
      rw [show (runChunk r cs0 t0 name vs).Resolution = r from rfl] at hi ⊢
      rw [hLtd] at hi
      beta_reduce
      by_cases hiA : i < ((t0 - Istart).tdiv r).toNat
      · rw [if_pos hiA]
        rw [hAtd] at hiA
        rw [slotAt_front _ r cs0 (runChunk r cs0 t0 name vs).Data rest2 _
          (II.toNat + i) hS2 (by rw [hR2]; rfl) hr hD2 (htim i)
          (by rw [hlenData]; omega)]
        show (List.replicate ((t0 - cs0).tdiv r).toNat (none : Option Slot) ++
          vs.map (fun v => some [(0, Payload.raw v)])).getD (II.toNat + i) none =
          _
        rw [List.getD_append _ _ _ _
          (by rw [List.length_replicate, hPtoNat]; omega),
          getD_replicate_none]
        rfl
      · have hiK : i < ((t0 - Istart).tdiv r).toNat + vs.length := by
          rw [hAtd]
          omega
        rw [if_neg hiA, if_pos hiK]
        rw [hAtd] at hiA hiK
        rw [slotAt_front _ r cs0 (runChunk r cs0 t0 name vs).Data rest2 _
          (II.toNat + i) hS2 (by rw [hR2]; rfl) hr hD2 (htim i)
          (by rw [hlenData]; omega)]
        show (List.replicate ((t0 - cs0).tdiv r).toNat (none : Option Slot) ++
          vs.map (fun v => some [(0, Payload.raw v)])).getD (II.toNat + i) none =
          _
        rw [List.getD_append_right _ _ _ _
          (by rw [List.length_replicate, hPtoNat]; omega),
          List.length_replicate, hPtoNat,
          show II.toNat + i - (II.toNat + AI.toNat) = i - AI.toNat from by omega,
          hAtd]
        rw [List.getD_eq_getElem?_getD, List.getElem?_map,
          List.getElem?_eq_getElem (show i - AI.toNat < vs.length from by omega),
          Option.map_some']
        rw [List.getD_eq_getElem?_getD,
          List.getElem?_eq_getElem (show i - AI.toNat < vs.length from by omega)]
        rfl
    · refine ⟨((t0 - Istart).tdiv r).toNat, ?_, ?_⟩
      · rw [hR2, show (runChunk r cs0 t0 name vs).Resolution = r from rfl, hLtd,
          hAtd]
        omega
      · beta_reduce
        rw [if_neg (by omega), if_pos (by omega)]
        exact fun h => Option.noConfusion h
  · -- null fill: the gap to the crossing append is at least three slots
    obtain ⟨M, hM⟩ : r ∣ (tsF - (t0 + ((vs.length : Int) - 1) * r)) := by
      refine dvd_sub htsF (dvd_add ht0 ?_)
      exact Dvd.dvd.mul_left (dvd_refl r) _
    have hM3 : 3 ≤ M := by
      have h1 : r * 3 ≤ r * M := by
        have e1 : (3 : Int) * r = r * 3 := by ring
        omega
      exact le_of_mul_le_mul_left h1 hr
    have hgap : tsF - (runChunk r cs0 t0 name vs).EndTime =
        (((M - 1).toNat : Int) + 1) * r := by
      rw [hEchunk, Int.toNat_of_nonneg (show (0 : Int) ≤ M - 1 by omega)]
      have e1 : (M - 1 + 1) * r = r * M := by ring
      omega
    obtain ⟨s2, hD2, hE2, hS2, hR2, e2, hT2⟩ :=
      chunk_gap_core (runChunk r cs0 t0 name vs) [(name, Payload.raw vF)] tsF
        (M - 1).toNat
        (show (0 : Int) < (runChunk r cs0 t0 name vs).Resolution from hr)
        hEpos (by omega) hgap
    rw [if_neg (show ¬ (M - 1).toNat < 2 from by omega)] at hD2
    have hTags : ((runChunk r cs0 t0 name vs).append
        [(name, Payload.raw vF)] tsF).Tags.getD 0 "" = name := by
      rw [hT2, List.getD_append _ _ _ _
        (show (0 : Nat) < (runChunk r cs0 t0 name vs).Tags.length from by
          show (0 : Nat) < ([name] : List String).length
          simp)]
      rfl
    refine ⟨?_, hS2, hE2⟩
    rw [chunk_getData_single _ Istart Iend (fun i =>
      if i < ((t0 - Istart).tdiv r).toNat then (none : Option Payload)
      else if i < ((t0 - Istart).tdiv r).toNat + vs.length then
        some (Payload.raw (vs.getD (i - ((t0 - Istart).tdiv r).toNat) 0))
      else none) ?hf2 ?hex2]
    · rw [hTags, show ((Iend - Istart).tdiv ((runChunk r cs0 t0 name vs).append
          [(name, Payload.raw vF)] tsF).Resolution) = (Iend - Istart).tdiv r from
        by rw [hR2]; rfl]
    · intro i hi
      rw [hR2] at hi ⊢
      rw [show (runChunk r cs0 t0 name vs).Resolution = r from rfl] at hi ⊢
      rw [hLtd] at hi
      beta_reduce
      by_cases hiA : i < ((t0 - Istart).tdiv r).toNat
      · rw [if_pos hiA]
        rw [hAtd] at hiA
        rw [slotAt_front _ r cs0 (runChunk r cs0 t0 name vs).Data
          (List.replicate (M - 1).toNat (none : Option Slot) ++ [some s2]) _
          (II.toNat + i) hS2 (by rw [hR2]; rfl) hr
          (by rw [hD2, List.append_assoc]) (htim i)
          (by rw [hlenData]; omega)]
        show (List.replicate ((t0 - cs0).tdiv r).toNat (none : Option Slot) ++
          vs.map (fun v => some [(0, Payload.raw v)])).getD (II.toNat + i) none =
          _
        rw [List.getD_append _ _ _ _
          (by rw [List.length_replicate, hPtoNat]; omega),
          getD_replicate_none]
        rfl
      · by_cases hiK : i < ((t0 - Istart).tdiv r).toNat + vs.length
        · rw [if_neg hiA, if_pos hiK]
          rw [hAtd] at hiA hiK
          rw [slotAt_front _ r cs0 (runChunk r cs0 t0 name vs).Data
            (List.replicate (M - 1).toNat (none : Option Slot) ++ [some s2]) _
            (II.toNat + i) hS2 (by rw [hR2]; rfl) hr
            (by rw [hD2, List.append_assoc]) (htim i)
            (by rw [hlenData]; omega)]
          show (List.replicate ((t0 - cs0).tdiv r).toNat (none : Option Slot) ++
            vs.map (fun v => some [(0, Payload.raw v)])).getD (II.toNat + i) none =
            _
          rw [List.getD_append_right _ _ _ _
            (by rw [List.length_replicate, hPtoNat]; omega),
            List.length_replicate, hPtoNat,
            show II.toNat + i - (II.toNat + AI.toNat) = i - AI.toNat from by omega,
            hAtd]
          rw [List.getD_eq_getElem?_getD, List.getElem?_map,
            List.getElem?_eq_getElem
              (show i - AI.toNat < vs.length from by omega),
            Option.map_some']
          rw [List.getD_eq_getElem?_getD,
            List.getElem?_eq_getElem
              (show i - AI.toNat < vs.length from by omega)]
          rfl
        · rw [if_neg hiA, if_neg hiK]
          rw [hAtd] at hiA hiK
          have hjle : II + LL ≤ (II + AI) + (vs.length : Int) + (M - 1) := by
            have h1 : r * (II + LL) ≤
                r * ((II + AI) + (vs.length : Int) + (M - 1)) := by
              have e1 : r * (II + LL) = r * II + r * LL := by ring
              have e2 : r * ((II + AI) + (vs.length : Int) + (M - 1)) =
                  r * II + r * AI + (vs.length : Int) * r + r * M - r := by
                ring
              omega
            exact le_of_mul_le_mul_left h1 hr
          rw [slotAt_front _ r cs0
            ((runChunk r cs0 t0 name vs).Data ++
              List.replicate (M - 1).toNat (none : Option Slot)) [some s2] _
            (II.toNat + i) hS2 (by rw [hR2]; rfl) hr (by rw [hD2]) (htim i)
            (by
              rw [List.length_append, hlenData, List.length_replicate]
              omega)]
          show ((List.replicate ((t0 - cs0).tdiv r).toNat (none : Option Slot) ++
            vs.map (fun v => some [(0, Payload.raw v)])) ++
            List.replicate (M - 1).toNat (none : Option Slot)).getD
            (II.toNat + i) none = _
          rw [List.getD_append_right _ _ _ _
            (by
              rw [List.length_append, List.length_replicate, List.length_map,
                hPtoNat]
              omega),
            List.length_append, List.length_replicate, List.length_map, hPtoNat,
            getD_replicate_none]
          rfl
    · refine ⟨((t0 - Istart).tdiv r).toNat, ?_, ?_⟩
      · rw [hR2, show (runChunk r cs0 t0 name vs).Resolution = r from rfl, hLtd,
          hAtd]
        omega
      · beta_reduce
        rw [if_neg (by omega), if_pos (by omega)]
        exact fun h => Option.noConfusion h

/-- Unfolding one cascade step whose interval boundary was crossed. -/
theorem cascade_cons (lastTimestamp ts : Int) (cur rA : Archive)
    (rest : List Archive)
    (h : ¬ ts.tdiv rA.Interval = lastTimestamp.tdiv rA.Interval) :
    cascade lastTimestamp ts cur true (rA :: rest) =
      rA.Append (rollupRawData
        (cur.GetData (ts - ts.tmod rA.Interval - rA.Interval)
          (ts - ts.tmod rA.Interval - rA.Interval + rA.Interval)).1)
        (ts - ts.tmod rA.Interval - rA.Interval + rA.Interval) ::
      cascade lastTimestamp ts
        (rA.Append (rollupRawData
          (cur.GetData (ts - ts.tmod rA.Interval - rA.Interval)
            (ts - ts.tmod rA.Interval - rA.Interval + rA.Interval)).1)
          (ts - ts.tmod rA.Interval - rA.Interval + rA.Interval))
        false rest := by
  simp only [cascade]
  rw [if_neg h]
  simp only [if_pos trivial]

/-- The junk archive's tail chunk ends at the interval start. -/
theorem junkArchive_lastChunk_endTime (R retC cs1 Istart : Int) (lc : Chunk)
    (h : (junkArchive R retC cs1 Istart).lastChunk = some lc) :
    lc.EndTime = Istart := by
  have h2 : some
      ({ StartTime := cs1, EndTime := Istart, Resolution := R,
         Data := List.replicate ((Istart - cs1).tdiv R).toNat
             (none : Option Slot) ++ [some ([] : Slot)],
         Tags := [], dirty := true } : Chunk) = some lc := h
  rw [← Option.some.inj h2]

/-- Reading the second archive of a three-plus-field series state. -/
theorem archives_getD_one (a b : Archive) (t : List Archive)
    (cfg : TimeSeriesConfig) (lw : Int) (d : Archive) :
    (TimeSeries.mk (a :: b :: t) cfg lw).archives.getD 1 d = b := rfl

/-- One unfolding of `TimeSeries.AddValues` on a non-empty archive list. -/
theorem addValues_cons (base : Archive) (rest : List Archive)
    (cfg : TimeSeriesConfig) (lw : Int) (vals : List (String × ℚ)) (ts : Int) :
    TimeSeries.AddValues ⟨base :: rest, cfg, lw⟩ vals ts =
    ⟨base.Append (vals.map (fun p => (p.1, Payload.raw p.2))) ts ::
      cascade base.EndTime ts
        (base.Append (vals.map (fun p => (p.1, Payload.raw p.2))) ts) true rest,
      cfg, lw⟩ := rfl

/-- `rollupRawData` on a single-signal window. -/
theorem rollupRawData_single (k : String) (c : List (Option Payload)) :
    rollupRawData [(k, c)] = [(k, Payload.roll (rollupColumn c))] := rfl

/-- C2 (corrected): rollup law for a contiguous run. For a series with at
least two archives (base resolution `r`, first coarser interval `R`), a
contiguous aligned run of `k` base samples `v1 :: vrest` starting at `t0`
that all land in the coarse interval `I = [R*(t0/R), R*(t0/R) + R)`,
followed by one append that crosses `I`'s right boundary, leaves the first
coarser archive holding at `I` the rollup with `count = k`,
`total = Σ v_i`, `max = max v_i` and `min = min v_i` — PROVIDED no
fill-forward slot lands inside `I`: the run must end exactly at `I`'s last
slot, or the crossing append must be at least 3 base slots past the run's
end (so the gap is null-filled). The remaining hypotheses are alignment
and containment side conditions (timestamps multiples of `r`, the run and
the crossing append stay inside the base archive's first chunk, the
crossing timestamp lies in the next coarse interval). -/
theorem rollup_run_amended (name : String) (r R retB retC : Int)
    (rest : List Archive) (cfg : TimeSeriesConfig) (lw : Int)
    (v1 : ℚ) (vrest : List ℚ) (t0 : Int) (vF : ℚ) (tsF : Int)
    (hr : 0 < r) (hR : 0 < R) (hdvd : r ∣ R)
    (ht0 : r ∣ t0) (hRt0 : R ≤ t0)
    (hrun : t0 + (((v1 :: vrest).length : Int)) * r ≤ R * (t0.tdiv R) + R)
    (htsF : r ∣ tsF)
    (hcross : R * (t0.tdiv R) + R ≤ tsF)
    (hcross2 : tsF < R * (t0.tdiv R) + 2 * R)
    (hbase : tsF ≤ t0 - t0.tmod (chunkSizeSlots * r) + chunkSizeSlots * r - r)
    (hcs0I : t0 - t0.tmod (chunkSizeSlots * r) ≤ R * (t0.tdiv R))
    (hnofill : t0 + (((v1 :: vrest).length : Int)) * r = R * (t0.tdiv R) + R ∨
      3 * r ≤ tsF - (t0 + ((((v1 :: vrest).length : Int)) - 1) * r)) :
    ∃ rl : Rollup,
      (((runAdds name r
          ⟨NewArchive r retB (chunkSizeSlots * r) ::
            NewArchive R retC (chunkSizeSlots * R) :: rest, cfg, lw⟩
          t0 (v1 :: vrest)).AddValues [(name, vF)] tsF).archives.getD 1
        dummyArchive).Latest =
        ([(name, Payload.roll rl)], R * (t0.tdiv R) + R) ∧
      rl.Count = (((v1 :: vrest).length : Int)) ∧
      rl.Total = (v1 :: vrest).sum ∧
      ((rl.Max : ℚ) : WithBot ℚ) = (v1 :: vrest).maximum ∧
      ((rl.Min : ℚ) : WithTop ℚ) = (v1 :: vrest).minimum := by
  have ht00 : 0 < t0 := lt_of_lt_of_le hR hRt0
  have hCA : (0 : Int) < chunkSizeSlots * r := by
    have h0 : (0 : Int) < chunkSizeSlots := by decide
    exact mul_pos h0 hr
  have hcse : t0 - t0.tmod (chunkSizeSlots * r) =
      (chunkSizeSlots * r) * (t0.tdiv (chunkSizeSlots * r)) :=
    sub_tmod_eq_mul_tdiv t0 (chunkSizeSlots * r)
  have htmod0 : 0 ≤ t0.tmod (chunkSizeSlots * r) :=
    Int.tmod_nonneg (chunkSizeSlots * r) (le_of_lt ht00)
  have htmodlt : t0.tmod (chunkSizeSlots * r) < chunkSizeSlots * r :=
    Int.tmod_lt_of_pos t0 hCA
  have hcs0dvd : r ∣ (t0 - t0.tmod (chunkSizeSlots * r)) := by
    rw [hcse]
    exact (dvd_mul_left r chunkSizeSlots).mul_right _
  have hcs0mod :
      (t0 - t0.tmod (chunkSizeSlots * r)).tmod (chunkSizeSlots * r) = 0 := by
    rw [hcse]
    exact Int.mul_tmod_right _ _
  have hqq := Int.tdiv_add_tmod t0 R
  have hqmod0 : 0 ≤ t0.tmod R := Int.tmod_nonneg R (le_of_lt ht00)
  have hqmodR : t0.tmod R < R := Int.tmod_lt_of_pos t0 hR
  have hRq0 : 0 ≤ R * (t0.tdiv R) := by omega
  have hRqpos : 0 < R * (t0.tdiv R) := by omega
  have hRqt0 : R * (t0.tdiv R) ≤ t0 := by omega
  have hrRq : r ∣ R * (t0.tdiv R) := hdvd.mul_right _
  have hrIend : r ∣ (R * (t0.tdiv R) + R) := dvd_add hrRq hdvd
  have hK1 : 1 ≤ (((v1 :: vrest).length : Int)) := by
    rw [List.length_cons]
    push_cast
    omega
  have hsplit : (((v1 :: vrest).length : Int)) * r =
      ((((v1 :: vrest).length : Int)) - 1) * r + r := by ring
  have hK1r : 0 ≤ ((((v1 :: vrest).length : Int)) - 1) * r :=
    mul_nonneg (by omega) (le_of_lt hr)
  have htsF0 : 0 ≤ tsF := by omega
  have hRq1 : R * (t0.tdiv R + 1) = R * (t0.tdiv R) + R := by ring
  have hlenconv : (([v1].length : Int) + ((vrest.length : Int))) =
      (((v1 :: vrest).length : Int)) := by
    push_cast [List.length_cons, List.length_nil]
    ring
  rw [show runAdds name r
      ⟨NewArchive r retB (chunkSizeSlots * r) ::
        NewArchive R retC (chunkSizeSlots * R) :: rest, cfg, lw⟩
      t0 (v1 :: vrest) =
    runAdds name r
      (TimeSeries.AddValues
        ⟨NewArchive r retB (chunkSizeSlots * r) ::
          NewArchive R retC (chunkSizeSlots * R) :: rest, cfg, lw⟩
        [(name, v1)] t0)
      (t0 + r) vrest from rfl]
  rw [first_add_state name r R retB retC rest cfg lw v1 t0 hr hR hdvd ht0 hRt0]
  rw [show t0 + r = t0 + (([v1].length : Int)) * r from by
    push_cast [List.length_cons, List.length_nil]
    ring]
  rw [runAdds_state name r R retB retC
      (R * (t0.tdiv R) - (R * (t0.tdiv R)).tmod (chunkSizeSlots * R)) cfg lw
      (t0 - t0.tmod (chunkSizeSlots * r)) t0 hr hR hdvd ht0 ht00 hcs0dvd hcs0mod
      vrest [v1]
      (cascade 0 t0
        (junkArchive R retC
          (R * (t0.tdiv R) - (R * (t0.tdiv R)).tmod (chunkSizeSlots * R))
          (R * (t0.tdiv R))) false rest)
      (by simp) (by rw [hlenconv]; exact hrun) (by rw [hlenconv]; omega)]
  rw [show ([v1] ++ vrest : List ℚ) = v1 :: vrest from rfl]
  rw [addValues_cons]
  rw [show ([(name, vF)].map (fun p => (p.1, Payload.raw p.2))) =
    [(name, Payload.raw vF)] from rfl]
  have hgtF : t0 + ((((v1 :: vrest).length : Int)) - 1) * r < tsF := by omega
  rw [final_archive_append name r retB (t0 - t0.tmod (chunkSizeSlots * r)) t0 tsF
      (v1 :: vrest) vF hr ht0 ht00 htsF hgtF hcs0mod hbase]
  have hJInt : (junkArchive R retC
      (R * (t0.tdiv R) - (R * (t0.tdiv R)).tmod (chunkSizeSlots * R))
      (R * (t0.tdiv R))).Interval = R := rfl
  have hErun : (runArchive r retB (t0 - t0.tmod (chunkSizeSlots * r)) t0 name
      (v1 :: vrest)).EndTime = t0 + ((((v1 :: vrest).length : Int)) - 1) * r := rfl
  have htdivF : tsF.tdiv R = t0.tdiv R + 1 :=
    tdiv_interval tsF R (t0.tdiv R + 1) hR htsF0 (by omega) (by omega)
  have htdivE :
      (t0 + ((((v1 :: vrest).length : Int)) - 1) * r).tdiv R = t0.tdiv R :=
    tdiv_interval _ R (t0.tdiv R) hR (by omega) (by omega) (by omega)
  have hne : ¬ tsF.tdiv (junkArchive R retC
      (R * (t0.tdiv R) - (R * (t0.tdiv R)).tmod (chunkSizeSlots * R))
      (R * (t0.tdiv R))).Interval =
      ((runArchive r retB (t0 - t0.tmod (chunkSizeSlots * r)) t0 name
        (v1 :: vrest)).EndTime).tdiv (junkArchive R retC
      (R * (t0.tdiv R) - (R * (t0.tdiv R)).tmod (chunkSizeSlots * R))
      (R * (t0.tdiv R))).Interval := by
    rw [hJInt, hErun, htdivF, htdivE]
    omega
  rw [cascade_cons _ _ _ _ _ hne]
  rw [hJInt]
  have htmodF : tsF.tmod R = tsF - (R * (t0.tdiv R) + R) := by
    have h1 := tmod_interval tsF R (t0.tdiv R + 1) hR htsF0 (by omega) (by omega)
    omega
  rw [show tsF - tsF.tmod R - R = R * (t0.tdiv R) from by omega]
  obtain ⟨hdata, hS2, hE2⟩ := final_chunk_getData name r
    (t0 - t0.tmod (chunkSizeSlots * r)) t0 (R * (t0.tdiv R))
    (R * (t0.tdiv R) + R) tsF (v1 :: vrest) vF hr ht0 hcs0dvd hrRq hrIend
    hcs0I (by omega) (by omega) (by simp) hrun htsF hcross hnofill
  have hmodRq : (R * (t0.tdiv R)).tmod (chunkSizeSlots * r) =
      R * (t0.tdiv R) - (t0 - t0.tmod (chunkSizeSlots * r)) := by
    have h1 := tmod_interval (R * (t0.tdiv R)) (chunkSizeSlots * r)
      (t0.tdiv (chunkSizeSlots * r)) hCA (by omega) (by omega) (by omega)
    omega
  rw [archive_getData_one_chunk
      { Interval := r, ChunkSize := chunkSizeSlots * r, Retention := retB,
        StartTime := t0, EndTime := tsF,
        chunks := [(runChunk r (t0 - t0.tmod (chunkSizeSlots * r)) t0 name
          (v1 :: vrest)).append [(name, Payload.raw vF)] tsF],
        lastWrite := 0 }
      ((runChunk r (t0 - t0.tmod (chunkSizeSlots * r)) t0 name
        (v1 :: vrest)).append [(name, Payload.raw vF)] tsF)
      (R * (t0.tdiv R)) (R * (t0.tdiv R) + R) name _
      rfl hCA hrRq hrIend (by omega)
      (by
        show R * (t0.tdiv R) - (R * (t0.tdiv R)).tmod (chunkSizeSlots * r) = _
        rw [hS2, hmodRq]
        omega)
      (by omega)
      (by
        rw [hS2]
        show R * (t0.tdiv R) + R ≤
          t0 - t0.tmod (chunkSizeSlots * r) + chunkSizeSlots * r
        omega)
      hdata
      (by
        rw [List.length_map, List.length_range])]
  rw [rollupRawData_single]
  obtain ⟨AI, hAI⟩ : r ∣ (t0 - R * (t0.tdiv R)) := dvd_sub ht0 hrRq
  obtain ⟨LR, hLR⟩ : r ∣ R := hdvd
  have hAI0 : 0 ≤ AI := nonneg_of_mul_eq r AI _ hr (by omega) hAI
  have hLR0 : 0 ≤ LR := nonneg_of_mul_eq r LR _ hr (by omega) hLR
  have hAtd : (t0 - R * (t0.tdiv R)).tdiv r = AI := by
    rw [hAI]
    exact Int.mul_tdiv_cancel_left AI (ne_of_gt hr)
  have hLtd : (R * (t0.tdiv R) + R - R * (t0.tdiv R)).tdiv r = LR := by
    rw [show R * (t0.tdiv R) + R - R * (t0.tdiv R) = R from by ring, hLR]
    exact Int.mul_tdiv_cancel_left LR (ne_of_gt hr)
  have hAKL : ((t0 - R * (t0.tdiv R)).tdiv r).toNat + (v1 :: vrest).length ≤
      ((R * (t0.tdiv R) + R - R * (t0.tdiv R)).tdiv r).toNat := by
    rw [hAtd, hLtd]
    have e1 : r * (AI + (((v1 :: vrest).length : Int))) =
        r * AI + (((v1 :: vrest).length : Int)) * r := by ring
    have h1 : r * (AI + (((v1 :: vrest).length : Int))) ≤ r * LR := by omega
    have h2 : AI + (((v1 :: vrest).length : Int)) ≤ LR :=
      le_of_mul_le_mul_left h1 hr
    omega
  rw [range_map_piecewise ((t0 - R * (t0.tdiv R)).tdiv r).toNat
      (v1 :: vrest).length
      ((R * (t0.tdiv R) + R - R * (t0.tdiv R)).tdiv r).toNat (v1 :: vrest) rfl
      hAKL]
  rw [rollupColumn_run]
  rw [archives_getD_one]
  have hJtsN : (junkArchive R retC
      (R * (t0.tdiv R) - (R * (t0.tdiv R)).tmod (chunkSizeSlots * R))
      (R * (t0.tdiv R))).tsNorm (R * (t0.tdiv R) + R) = R * (t0.tdiv R) + R :=
    Archive.tsNorm_of_dvd _ _ (by
      rw [hJInt]
      exact dvd_add (dvd_mul_right R (t0.tdiv R)) dvd_rfl)
  have hpos : 0 < (junkArchive R retC
      (R * (t0.tdiv R) - (R * (t0.tdiv R)).tmod (chunkSizeSlots * R))
      (R * (t0.tdiv R))).tsNorm (R * (t0.tdiv R) + R) := by
    rw [hJtsN]
    omega
  have hgtlc : ∀ lc, (junkArchive R retC
      (R * (t0.tdiv R) - (R * (t0.tdiv R)).tmod (chunkSizeSlots * R))
      (R * (t0.tdiv R))).lastChunk = some lc →
      lc.EndTime < (junkArchive R retC
        (R * (t0.tdiv R) - (R * (t0.tdiv R)).tmod (chunkSizeSlots * R))
        (R * (t0.tdiv R))).tsNorm (R * (t0.tdiv R) + R) := by
    intro lc h
    rw [hJtsN, junkArchive_lastChunk_endTime R retC
      (R * (t0.tdiv R) - (R * (t0.tdiv R)).tmod (chunkSizeSlots * R))
      (R * (t0.tdiv R)) lc h]
    omega
  refine ⟨⟨v1 + vrest.sum, 1 + ((vrest.length : Int)),
    vrest.foldl min v1, vrest.foldl max v1⟩, ?_, ?_, ?_, ?_, ?_⟩
  · rw [archive_append_latest _ _ _ hpos hgtlc (by simp), hJtsN]
  · show (1 : Int) + ((vrest.length : Int)) = (((v1 :: vrest).length : Int))
    push_cast [List.length_cons]
    ring
  · show v1 + vrest.sum = (v1 :: vrest).sum
    rw [List.sum_cons]
  · exact foldl_max_maximum vrest v1
  · exact foldl_min_minimum vrest v1

/-- Concrete instance of the corrected rollup-run law: base resolution 1,
coarse interval 60, run 5, 7 at 178, 179, crossing append at 180. -/
theorem rollup_run_amended_witness :
    ∃ rl : Rollup,
      (((runAdds "cpu" 1
          ⟨NewArchive 1 3600 (chunkSizeSlots * 1) ::
            NewArchive 60 86400 (chunkSizeSlots * 60) :: [], ⟨[], 0⟩, 0⟩
          178 [5, 7]).AddValues [("cpu", 9)] 180).archives.getD 1
        dummyArchive).Latest =
        ([("cpu", Payload.roll rl)], 60 * ((178 : Int).tdiv 60) + 60) ∧
      rl.Count = (([5, 7] : List ℚ).length : Int) ∧
      rl.Total = ([5, 7] : List ℚ).sum ∧
      ((rl.Max : ℚ) : WithBot ℚ) = ([5, 7] : List ℚ).maximum ∧
      ((rl.Min : ℚ) : WithTop ℚ) = ([5, 7] : List ℚ).minimum :=
  rollup_run_amended "cpu" 1 60 3600 86400 [] ⟨[], 0⟩ 0 5 [7] 178 9 180
    (by decide) (by decide) (one_dvd 60) (one_dvd 178) (by decide)
    (by decide) (one_dvd 180) (by decide) (by decide) (by decide) (by decide)
    (Or.inl (by decide))
